import Mathlib

/-!
# pkmn-sort: a verification development of `sort.go`

The program places every PNG of a directory on a white canvas, at a position
derived from the hue and value of the picture's average colour.

Modelling conventions.

* A Go `color.Color` is seen through its `RGBA()` method: four samples, each in
  `[0, 65535]` (`Color16`).  A `color.RGBA` is four 8-bit channels (`RGBA`).
* An `image.Image` is a width, a height and a pixel accessor; decoded PNG files
  have their origin at `(0, 0)`.
* The accumulators of `getAverageColor` are Go `int`s.  They are bounded by
  `65535 * width * height`, which stays far below `2 ^ 63` for every picture
  that fits in memory, so they are natural numbers here.  A run-time panic
  (integer division by zero) is the value `none`.
* `float64` values are the rationals they denote; every arithmetic operation
  is the exact operation followed by rounding to the nearest double, ties to
  even (`f64`), one rounding per operation (no fused multiply-add, as on
  amd64).  All values of this program are finite.
* The `int` arithmetic of the layout step works on command-line flags and is
  modelled with 64-bit wrap-around (`wrapInt`).
* The canvas buffer is the one allocation whose size the flags decide:
  `image.NewRGBA` fails when the byte count leaves the `int` range or exceeds
  the parameter `maxAlloc`, the largest buffer the machine provides.
-/

namespace PkmnSort

/-! ## Colours and images -/

/-- The four samples returned by the `RGBA()` method of a Go colour. -/
structure Color16 where
  r : Nat
  g : Nat
  b : Nat
  a : Nat
deriving DecidableEq

/-- Go `color.RGBA`: red, green, blue and alpha, 8 bits each. -/
structure RGBA where
  R : Nat
  G : Nat
  B : Nat
  A : Nat
deriving DecidableEq

/-- Go conversion `uint8(x)` of a non-negative integer. -/
def uint8 (x : Nat) : Nat := x % 256

/-- A decoded picture: `Bounds().Dx()`, `Bounds().Dy()` and `At(i, j).RGBA()`. -/
structure Image where
  width : Nat
  height : Nat
  At : Nat → Nat → Color16

/-- Every sample of every pixel is a 16-bit value, as `RGBA()` promises. -/
def Image.WF (img : Image) : Prop :=
  ∀ i j, i < img.width → j < img.height →
    (img.At i j).r ≤ 65535 ∧ (img.At i j).g ≤ 65535 ∧ (img.At i j).b ≤ 65535 ∧
      (img.At i j).a ≤ 65535

/-! ## `getAverageColor` -/

/-- The four accumulators `rBucket, gBucket, bBucket, pxCount`. -/
structure Buckets where
  rBucket : Nat
  gBucket : Nat
  bBucket : Nat
  pxCount : Nat
deriving DecidableEq

/-- Body of the inner loop of `getAverageColor` at pixel `(i, j)`. -/
def accumulate (img : Image) (i : Nat) (acc : Buckets) (j : Nat) : Buckets :=
  let c := img.At i j
  if c.a = 65535 then
    { rBucket := acc.rBucket + c.r
      gBucket := acc.gBucket + c.g
      bBucket := acc.bBucket + c.b
      pxCount := acc.pxCount + 1 }
  else acc

/-- The inner loop `for j := 0; j < height; j++`. -/
def scanColumn (img : Image) (acc : Buckets) (i : Nat) : Buckets :=
  (List.range img.height).foldl (accumulate img i) acc

/-- The two nested loops of `getAverageColor`. -/
def scanImage (img : Image) : Buckets :=
  (List.range img.width).foldl (scanColumn img) ⟨0, 0, 0, 0⟩

/-- Function `getAverageColor`; `none` is the division-by-zero panic. -/
def getAverageColor (img : Image) : Option RGBA :=
  let acc := scanImage img
  if acc.pxCount = 0 then none
  else some
    { R := uint8 ((acc.rBucket / acc.pxCount) >>> 8)
      G := uint8 ((acc.gBucket / acc.pxCount) >>> 8)
      B := uint8 ((acc.bBucket / acc.pxCount) >>> 8)
      A := 255 }

/-! ### Specification-side sums over the fully opaque pixels -/

/-- Sum of `f` over the pixels of `img` whose alpha is `65535`. -/
def solidSum (img : Image) (f : Color16 → Nat) : Nat :=
  ∑ i in Finset.range img.width, ∑ j in Finset.range img.height,
    if (img.At i j).a = 65535 then f (img.At i j) else 0

/-- Number of pixels of `img` whose alpha is `65535`. -/
def solidCount (img : Image) : Nat := solidSum img (fun _ => 1)

/-- Some pixel of `img` has alpha `65535`. -/
def HasSolid (img : Image) : Prop :=
  ∃ i j, i < img.width ∧ j < img.height ∧ (img.At i j).a = 65535

/-- A `1 x 1` picture holding the single colour `c`. -/
def singlePixel (c : Color16) : Image := ⟨1, 1, fun _ _ => c⟩

/-- The samples `RGBA()` returns for the opaque 8-bit colour `(R, G, B)`. -/
def solid8 (R G B : Nat) : Color16 := ⟨R * 257, G * 257, B * 257, 65535⟩

/-! ## `float64` arithmetic -/

/-- Nearest integer to `q`, a tie going to the even neighbour. -/
def roundEven (q : ℚ) : ℤ :=
  let f := ⌊q⌋
  let r := q - f
  if r < 1 / 2 then f
  else if 1 / 2 < r then f + 1
  else if f % 2 = 0 then f else f + 1

/-- Exponent of the last mantissa bit of the doubles around `x`: 52 below the
binade of `x`, and never below that of the subnormal numbers. -/
def ulpExp (x : ℚ) : ℤ := max (Int.log 2 |x|) (-1022) - 52

/-- The double nearest to the rational `x` (round to nearest, ties to even). -/
def f64 (x : ℚ) : ℚ := roundEven (x / 2 ^ ulpExp x) * 2 ^ ulpExp x

/-- Go `a + b` on `float64`. -/
def fadd (a b : ℚ) : ℚ := f64 (a + b)

/-- Go `a - b` on `float64`. -/
def fsub (a b : ℚ) : ℚ := f64 (a - b)

/-- Go `a * b` on `float64`. -/
def fmul (a b : ℚ) : ℚ := f64 (a * b)

/-- Go `a / b` on `float64`; every call site has `b ≠ 0`. -/
def fdiv (a b : ℚ) : ℚ := f64 (a / b)

/-- Go conversion `float64(n)` of an integer. -/
def ofInt (n : ℤ) : ℚ := f64 n

/-- Go conversion `int(f)` of a `float64` in the `int` range: the fractional
part is discarded. -/
def truncInt (f : ℚ) : ℤ := if 0 ≤ f then ⌊f⌋ else ⌈f⌉

/-- Go `int` result of an arithmetic operation: 64-bit two's complement. -/
def wrapInt (x : ℤ) : ℤ := (x + 2 ^ 63) % 2 ^ 64 - 2 ^ 63

/-! ## `Round` and `RGBAtoHSV` -/

/-- Function `Round`: `int(math.Floor(f + .5))`. -/
def Round (f : ℚ) : ℤ := truncInt ((⌊fadd f (1 / 2)⌋ : ℤ) : ℚ)

/-- Function `RGBAtoHSV`: hue in degrees, saturation and value. -/
def RGBAtoHSV (c : RGBA) : ℤ × ℚ × ℚ :=
  let fR := fdiv (ofInt c.R) 255
  let fG := fdiv (ofInt c.G) 255
  let fB := fdiv (ofInt c.B) 255
  let mn := min (min fR fG) fB
  let mx := max (max fR fG) fB
  let d := fsub mx mn
  let h : ℤ :=
    if d ≠ 0 then
      if mx = fR then Int.tmod (Round (fmul 60 (fadd (fdiv (fsub fG fB) d) 6))) 360
      else if mx = fG then Round (fmul 60 (fadd (fdiv (fsub fB fR) d) 2))
      else if mx = fB then Round (fmul 60 (fadd (fdiv (fsub fR fG) d) 4))
      else 0
    else 0
  let s : ℚ := if mx ≠ 0 then fdiv d mx else 0
  (h, s, mx)

/-- The formula of the conversion read with `float64` operations: value is the
maximum, saturation is `d / max` unless `max` is zero, hue is `0` when `d` is
zero and otherwise `floor (x + 0.5)` of the branch formula, the red branch alone
being reduced modulo `360`; every quotient, difference, sum and product is
rounded to the nearest double. -/
def hsvFloat (c : RGBA) : ℤ × ℚ × ℚ :=
  let fR := fdiv (ofInt c.R) 255
  let fG := fdiv (ofInt c.G) 255
  let fB := fdiv (ofInt c.B) 255
  let mn := min (min fR fG) fB
  let mx := max (max fR fG) fB
  let d := fsub mx mn
  let h : ℤ :=
    if d = 0 then 0
    else if fR = mx then ⌊fadd (fmul 60 (fadd (fdiv (fsub fG fB) d) 6)) (1 / 2)⌋ % 360
    else if fG = mx then ⌊fadd (fmul 60 (fadd (fdiv (fsub fB fR) d) 2)) (1 / 2)⌋
    else ⌊fadd (fmul 60 (fadd (fdiv (fsub fR fG) d) 4)) (1 / 2)⌋
  let s : ℚ := if mx ≠ 0 then fdiv d mx else 0
  (h, s, mx)

/-- The conversion as the specification words it, in exact arithmetic: with
`fR, fG, fB = c.R / 255, c.G / 255, c.B / 255`, `max` and `min` their maximum
and minimum and `d = max - min`, the value is `max`, the saturation is
`d / max` unless `max` is zero, the hue is `0` when `d` is zero and otherwise
`floor (60 * ((fG - fB) / d + 6) + 0.5) mod 360` if `fR = max`, else
`floor (60 * ((fB - fR) / d + 2) + 0.5)` if `fG = max`, else
`floor (60 * ((fR - fG) / d + 4) + 0.5)`. -/
def hsvSpec (c : RGBA) : ℤ × ℚ × ℚ :=
  let fR : ℚ := (c.R : ℚ) / 255
  let fG : ℚ := (c.G : ℚ) / 255
  let fB : ℚ := (c.B : ℚ) / 255
  let mn := min (min fR fG) fB
  let mx := max (max fR fG) fB
  let d := mx - mn
  let h : ℤ :=
    if d = 0 then 0
    else if fR = mx then ⌊60 * ((fG - fB) / d + 6) + 1 / 2⌋ % 360
    else if fG = mx then ⌊60 * ((fB - fR) / d + 2) + 1 / 2⌋
    else ⌊60 * ((fR - fG) / d + 4) + 1 / 2⌋
  let s : ℚ := if mx ≠ 0 then d / mx else 0
  (h, s, mx)

/-! ## The layout step of `main` -/

/-- Resize policy of `main`: the target `(rx, ry)` for a source of size
`sx x sy`.  The source has passed `getAverageColor`, so it is not empty. -/
def resizeDims (sx sy : Nat) (maxSize : ℤ) : ℤ × ℤ :=
  let fx := ofInt sx
  let fy := ofInt sy
  let smax := max fx fy
  let rmax := ofInt maxSize
  if smax = fx then (maxSize, truncInt (fmul (fdiv rmax smax) fy))
  else (truncInt (fmul (fdiv rmax smax) fx), maxSize)

/-- Placement offset `(nx, ny)` of `main`. -/
def placement (tw th maxSize H : ℤ) (V : ℚ) (rx ry : ℤ) : ℤ × ℤ :=
  (wrapInt (wrapInt (Int.tdiv maxSize 2 + Int.tdiv (wrapInt (tw * H)) 360) - Int.tdiv rx 2),
   wrapInt (wrapInt (Int.tdiv maxSize 2 + truncInt (fmul (ofInt th) V)) - Int.tdiv ry 2))

/-! ## The canvas and the compositing loops -/

/-- Go `image.Rectangle`: the points `minX ≤ x < maxX`, `minY ≤ y < maxY`. -/
structure Rectangle where
  minX : ℤ
  minY : ℤ
  maxX : ℤ
  maxY : ℤ
deriving DecidableEq

/-- Go `image.Rect`: the corners are put in order. -/
def Rect (x0 y0 x1 y1 : ℤ) : Rectangle :=
  { minX := min x0 x1, minY := min y0 y1, maxX := max x0 x1, maxY := max y0 y1 }

/-- Go `image.Point.In`. -/
def Rectangle.Contains (r : Rectangle) (x y : ℤ) : Prop :=
  r.minX ≤ x ∧ x < r.maxX ∧ r.minY ≤ y ∧ y < r.maxY

instance (r : Rectangle) (x y : ℤ) : Decidable (r.Contains x y) := by
  unfold Rectangle.Contains
  infer_instance

/-- Go `*image.RGBA`, the target picture `newImg`. -/
structure Canvas where
  Bounds : Rectangle
  Pix : ℤ → ℤ → RGBA

/-- Method `At` of `*image.RGBA`: the zero colour outside the bounds. -/
def Canvas.At (cv : Canvas) (x y : ℤ) : RGBA :=
  if cv.Bounds.Contains x y then cv.Pix x y else ⟨0, 0, 0, 0⟩

/-- Method `Set` of `*image.RGBA` for a `color.RGBA`: nothing happens outside
the bounds. -/
def Canvas.Set (cv : Canvas) (x y : ℤ) (c : RGBA) : Canvas :=
  if cv.Bounds.Contains x y then
    { cv with Pix := fun u v => if u = x ∧ v = y then c else cv.Pix u v }
  else cv

/-- Method `Dx` of `image.Rectangle`, an `int` subtraction. -/
def Rectangle.Dx (r : Rectangle) : ℤ := wrapInt (r.maxX - r.minX)

/-- Method `Dy` of `image.Rectangle`, an `int` subtraction. -/
def Rectangle.Dy (r : Rectangle) : ℤ := wrapInt (r.maxY - r.minY)

/-- Function `mul3NonNeg` of the standard package `image`: the product
`x * y * z`, or `-1` when an argument is negative or a product leaves the `int`
range (the high word of a 64-bit multiplication is not zero, or the low word is
negative as an `int`). -/
def mul3NonNeg (x y z : ℤ) : ℤ :=
  if x < 0 ∨ y < 0 ∨ z < 0 then -1
  else if 2 ^ 64 ≤ x * y then -1
  else if 2 ^ 64 ≤ x * y * z then -1
  else if 2 ^ 63 ≤ x * y * z then -1
  else x * y * z

/-- Go `image.NewRGBA`.  The pixel buffer has `4 * Dx * Dy` bytes: the library
panics when `mul3NonNeg` refuses this length, and `make` fails when the length
exceeds `maxAlloc`, the largest buffer the run-time system provides on the
machine at hand.  Both are the value `none`.  Otherwise every pixel starts as
the zero colour. -/
def NewRGBA (maxAlloc : ℤ) (r : Rectangle) : Option Canvas :=
  if mul3NonNeg 4 r.Dx r.Dy < 0 then none
  else if maxAlloc < mul3NonNeg 4 r.Dx r.Dy then none
  else some ⟨r, fun _ _ => ⟨0, 0, 0, 0⟩⟩

/-- The two initialisation loops of `main`: every point `(i, j)` with
`0 ≤ i < Dx`, `0 ≤ j < Dy` is set to opaque white. -/
def whiten (cv : Canvas) : Canvas :=
  (List.range cv.Bounds.Dx.toNat).foldl
    (fun acc i => (List.range cv.Bounds.Dy.toNat).foldl
      (fun acc2 j => acc2.Set i j ⟨255, 255, 255, 255⟩) acc)
    cv

/-- The target picture of `main` after the two initialisation loops; `none`
when `image.NewRGBA` does not return. -/
def newImg (maxAlloc tw th maxSize : ℤ) : Option Canvas :=
  (NewRGBA maxAlloc (Rect 0 0 (wrapInt (tw + maxSize)) (wrapInt (th + maxSize)))).map whiten

/-- What `sorted.png` holds when `main` ends.  `png.Encode` writes the picture
when both of its sides lie in `[1, 2 ^ 32)`; otherwise it returns an error,
which `main` does not look at, and the file is written empty (`none`). -/
def sortedPng (cv : Canvas) : Option Canvas :=
  if 0 < cv.Bounds.Dx ∧ cv.Bounds.Dx < 2 ^ 32 ∧ 0 < cv.Bounds.Dy ∧ cv.Bounds.Dy < 2 ^ 32 then
    some cv
  else none

/-- A canvas `(0, 0) - (w, h)` whose pixels are all opaque white. -/
def whiteCanvas (w h : ℤ) : Canvas := ⟨⟨0, 0, w, h⟩, fun _ _ => ⟨255, 255, 255, 255⟩⟩

/-- Conversion `color.RGBAModel.Convert` applied by `Set` to a general colour:
the high byte of every sample. -/
def toRGBA (c : Color16) : RGBA :=
  ⟨uint8 (c.r >>> 8), uint8 (c.g >>> 8), uint8 (c.b >>> 8), uint8 (c.a >>> 8)⟩

/-- Body of the inner compositing loop at pixel `(i, j)` of the resized
picture.  A sum `nx + i` beyond the `int` range would wrap to a far negative
coordinate; like the unwrapped sum it lies outside the canvas, where `Set` does
nothing, so the sums are taken in `ℤ`. -/
def drawPixel (silhouette : Bool) (avgRGBA : RGBA) (resizedImg : Image) (nx ny : ℤ)
    (i : Nat) (cv : Canvas) (j : Nat) : Canvas :=
  let srcCol := resizedImg.At i j
  if silhouette = true ∧ srcCol.a = 65535 then cv.Set (nx + i) (ny + j) avgRGBA
  else if srcCol.a > 0 then cv.Set (nx + i) (ny + j) (toRGBA srcCol)
  else cv

/-- The two compositing loops `for i < rx`, `for j < ry` of `main`. -/
def composite (silhouette : Bool) (avgRGBA : RGBA) (resizedImg : Image) (nx ny rx ry : ℤ)
    (cv : Canvas) : Canvas :=
  (List.range rx.toNat).foldl
    (fun acc i => (List.range ry.toNat).foldl (drawPixel silhouette avgRGBA resizedImg nx ny i) acc)
    cv

/-- What one visit of pixel `(i, j)` leaves on a canvas pixel holding `old`. -/
def drawn (silhouette : Bool) (avgRGBA : RGBA) (resizedImg : Image) (i j : Nat)
    (old : RGBA) : RGBA :=
  if silhouette = true ∧ (resizedImg.At i j).a = 65535 then avgRGBA
  else if (resizedImg.At i j).a > 0 then toRGBA (resizedImg.At i j)
  else old

/-- Column sum of `f` over the opaque pixels among the first `n` rows. -/
def colSum (img : Image) (f : Color16 → Nat) (i n : Nat) : Nat :=
  ∑ j in Finset.range n, if (img.At i j).a = 65535 then f (img.At i j) else 0

/-- A `2 x 1` picture: the fully opaque pixel `(200, 100, 7)` and a translucent
pixel of samples `(20000, 0, 0, 32768)`. -/
def ghostPair : Image :=
  ⟨2, 1, fun i _ => if i = 0 then solid8 200 100 7 else ⟨20000, 0, 0, 32768⟩⟩

/-- A `2 x 1` picture: one fully opaque pixel and one translucent pixel. -/
def samplePair : Image :=
  ⟨2, 1, fun i _ => if i = 0 then solid8 200 100 7 else ⟨100, 100, 100, 30000⟩⟩

/-! ## The branch formulas of the hue -/

/-- A channel of `RGBAtoHSV`: `float64(c.X) / 255`. -/
def channel (n : Nat) : ℚ := fdiv (ofInt n) 255

/-- The variable `max` of `RGBAtoHSV`. -/
def chanMax (c : RGBA) : ℚ := max (max (channel c.R) (channel c.G)) (channel c.B)

/-- The variable `min` of `RGBAtoHSV`. -/
def chanMin (c : RGBA) : ℚ := min (min (channel c.R) (channel c.G)) (channel c.B)

/-- The variable `d` of `RGBAtoHSV`. -/
def chanSpread (c : RGBA) : ℚ := fsub (chanMax c) (chanMin c)

/-- Hue assigned by the `case fR` branch of `RGBAtoHSV`. -/
def hueRed (fG fB d : ℚ) : ℤ := Int.tmod (Round (fmul 60 (fadd (fdiv (fsub fG fB) d) 6))) 360

/-- Hue assigned by the `case fG` branch of `RGBAtoHSV`. -/
def hueGreen (fB fR d : ℚ) : ℤ := Round (fmul 60 (fadd (fdiv (fsub fB fR) d) 2))

/-- Hue assigned by the `case fB` branch of `RGBAtoHSV`. -/
def hueBlue (fR fG d : ℚ) : ℤ := Round (fmul 60 (fadd (fdiv (fsub fR fG) d) 4))

/-! ## The file filter `regexp.MatchString("^.+png$", name)` -/

/-- The pieces the regular expression of `main` is made of. -/
inductive RegexItem where
  | beginText : RegexItem
  | endText : RegexItem
  | anyPlus : RegexItem
  | lit : Char → RegexItem

/-- The piece `.+` followed by the rest `k` of the expression: one or more
characters other than a line feed, then `k`. -/
def matchAnyPlus (k : List Char → Bool) : List Char → Bool
  | [] => false
  | x :: xs => x != Char.ofNat 10 && (k xs || matchAnyPlus k xs)

/-- A match of the pieces that starts at the current position; `atStart` tells
whether that position is the beginning of the text. -/
def matchHere : List RegexItem → Bool → List Char → Bool
  | [], _, _ => true
  | RegexItem.beginText :: rest, atStart, s => atStart && matchHere rest atStart s
  | RegexItem.endText :: rest, atStart, s => s.isEmpty && matchHere rest atStart s
  | RegexItem.anyPlus :: rest, _, s => matchAnyPlus (matchHere rest false) s
  | RegexItem.lit _ :: _, _, [] => false
  | RegexItem.lit c :: rest, _, x :: xs => x == c && matchHere rest false xs

/-- A match of the pieces that starts at the current position or later. -/
def searchFrom (items : List RegexItem) : Bool → List Char → Bool
  | atStart, [] => matchHere items atStart []
  | atStart, x :: xs => matchHere items atStart (x :: xs) || searchFrom items false xs

/-- Go `regexp.MatchString`: the text contains a match of the expression. -/
def MatchString (items : List RegexItem) (s : List Char) : Bool := searchFrom items true s

/-- The expression `^.+png$`. -/
def pngPattern : List RegexItem :=
  [RegexItem.beginText, RegexItem.anyPlus, RegexItem.lit 'p', RegexItem.lit 'n',
    RegexItem.lit 'g', RegexItem.endText]

/-! ## The loop of `main` over the files -/

/-- Go conversion `uint(x)` of an `int`. -/
def toUint (x : ℤ) : Nat := (x % 2 ^ 64).toNat

/-- One entry of the source directory: its name and what `readFileToImg` makes
of it, `none` standing for the panic of an unreadable or undecodable file. -/
structure FileInfo where
  Name : List Char
  decoded : Option Image

/-- Body of the loop of `main` for one decoded picture; the resampler
`resize.Resize(w, h, img, resize.NearestNeighbor)` of the external library is
the parameter `resize`.  The value `none` is the panic of `getAverageColor`. -/
def placeImage (resize : Nat → Nat → Image → Image) (tw th maxSize : ℤ) (silhouette : Bool)
    (cv : Canvas) (srcImg : Image) : Option Canvas :=
  match getAverageColor srcImg with
  | none => none
  | some avgRGBA =>
    let hsv := RGBAtoHSV avgRGBA
    let dims := resizeDims srcImg.width srcImg.height maxSize
    let resizedImg := resize (toUint dims.1) (toUint dims.2) srcImg
    let offset := placement tw th maxSize hsv.1 hsv.2.2 dims.1 dims.2
    some (composite silhouette avgRGBA resizedImg offset.1 offset.2 dims.1 dims.2 cv)

/-- Body of the loop of `main` for one directory entry. -/
def fileStep (resize : Nat → Nat → Image → Image) (tw th maxSize : ℤ) (silhouette : Bool)
    (cv : Canvas) (file : FileInfo) : Option Canvas :=
  if MatchString pngPattern file.Name = true then
    match file.decoded with
    | none => none
    | some srcImg => placeImage resize tw th maxSize silhouette cv srcImg
  else some cv

/-- Function `main` up to the encoding of the result: the target picture when
the loop over the directory entries ends, or `none` when the run panics. -/
def main (maxAlloc : ℤ) (resize : Nat → Nat → Image → Image) (tw th maxSize : ℤ)
    (silhouette : Bool) (files : List FileInfo) : Option Canvas :=
  files.foldl
    (fun acc file => acc.bind (fun cv => fileStep resize tw th maxSize silhouette cv file))
    (newImg maxAlloc tw th maxSize)

/-- A textbook nearest-neighbour resampler, a concrete instance for the
parameter `resize`: the target picture has the requested size and each of its
pixels is the source pixel lying under it.  The resampler of the external
library is not modelled. -/
def nearestNeighbor (w h : Nat) (src : Image) : Image :=
  ⟨w, h, fun i j => src.At (i * src.width / w) (j * src.height / h)⟩

/-- A `2 x 2` picture, every pixel fully opaque red. -/
def redSquare : Image := ⟨2, 2, fun _ _ => solid8 255 0 0⟩

/-- A picture whose every pixel is fully opaque. -/
def solidImage : Image := ⟨0, 0, fun _ _ => ⟨0, 0, 0, 65535⟩⟩

/-- A `5 x 1` picture, every pixel fully opaque red. -/
def stripe : Image := ⟨5, 1, fun _ _ => solid8 255 0 0⟩

/-! ## The hue in exact arithmetic -/

/-- The branch formula of `RGBAtoHSV` in exact arithmetic: the number the code
rounds to a degree (and, in the red branch, reduces modulo `360`), computed
without the `float64` roundings. -/
def hueExact (c : RGBA) : ℚ :=
  let fR : ℚ := (c.R : ℚ) / 255
  let fG : ℚ := (c.G : ℚ) / 255
  let fB : ℚ := (c.B : ℚ) / 255
  let mn := min (min fR fG) fB
  let mx := max (max fR fG) fB
  let d := mx - mn
  if d ≠ 0 then
    if mx = fR then 60 * ((fG - fB) / d + 6)
    else if mx = fG then 60 * ((fB - fR) / d + 2)
    else if mx = fB then 60 * ((fR - fG) / d + 4)
    else 0
  else 0

/-! # Theorems -/

/-! ## Facts about `getAverageColor` -/

theorem foldl_accumulate (img : Image) (i n : Nat) (acc : Buckets) :
    (List.range n).foldl (accumulate img i) acc =
      { rBucket := acc.rBucket + colSum img Color16.r i n
        gBucket := acc.gBucket + colSum img Color16.g i n
        bBucket := acc.bBucket + colSum img Color16.b i n
        pxCount := acc.pxCount + colSum img (fun _ => 1) i n } := by
  induction n with
  | zero => simp [colSum]
  | succ n ih =>
    rw [List.range_succ, List.foldl_append, ih]
    simp only [List.foldl_cons, List.foldl_nil, colSum, Finset.sum_range_succ, accumulate]
    by_cases h : (img.At i n).a = 65535
    · simp [h, Nat.add_assoc]
    · simp [h]

theorem foldl_scanColumn (img : Image) (n : Nat) (acc : Buckets) :
    (List.range n).foldl (scanColumn img) acc =
      { rBucket := acc.rBucket + ∑ i in Finset.range n, colSum img Color16.r i img.height
        gBucket := acc.gBucket + ∑ i in Finset.range n, colSum img Color16.g i img.height
        bBucket := acc.bBucket + ∑ i in Finset.range n, colSum img Color16.b i img.height
        pxCount := acc.pxCount + ∑ i in Finset.range n, colSum img (fun _ => 1) i img.height } := by
  induction n with
  | zero => simp
  | succ n ih =>
    rw [List.range_succ, List.foldl_append, ih]
    simp only [List.foldl_cons, List.foldl_nil, scanColumn, foldl_accumulate,
      Finset.sum_range_succ, Nat.add_assoc]

theorem scanImage_eq (img : Image) :
    scanImage img =
      { rBucket := solidSum img Color16.r
        gBucket := solidSum img Color16.g
        bBucket := solidSum img Color16.b
        pxCount := solidCount img } := by
  simp [scanImage, foldl_scanColumn, solidSum, solidCount, colSum]

theorem solidCount_pos_iff (img : Image) : 0 < solidCount img ↔ HasSolid img := by
  unfold solidCount solidSum HasSolid
  rw [Nat.pos_iff_ne_zero, Ne, Finset.sum_eq_zero_iff]
  constructor
  · intro h
    by_contra hc
    apply h
    intro i hi
    rw [Finset.sum_eq_zero_iff]
    intro j hj
    by_cases ha : (img.At i j).a = 65535
    · exact absurd ⟨i, j, Finset.mem_range.mp hi, Finset.mem_range.mp hj, ha⟩ hc
    · simp [ha]
  · rintro ⟨i, j, hi, hj, ha⟩ h
    have h1 := h i (Finset.mem_range.mpr hi)
    rw [Finset.sum_eq_zero_iff] at h1
    have h2 := h1 j (Finset.mem_range.mpr hj)
    simp [ha] at h2

theorem solidSum_le (img : Image) (f : Color16 → Nat) (c : Nat)
    (h : ∀ i j, i < img.width → j < img.height → (img.At i j).a = 65535 → f (img.At i j) ≤ c) :
    solidSum img f ≤ c * solidCount img := by
  unfold solidCount solidSum
  rw [Finset.mul_sum]
  apply Finset.sum_le_sum
  intro i hi
  rw [Finset.mul_sum]
  apply Finset.sum_le_sum
  intro j hj
  by_cases ha : (img.At i j).a = 65535
  · simpa [ha] using h i j (Finset.mem_range.mp hi) (Finset.mem_range.mp hj) ha
  · simp [ha]

theorem le_solidSum (img : Image) (f : Color16 → Nat) (c : Nat)
    (h : ∀ i j, i < img.width → j < img.height → (img.At i j).a = 65535 → c ≤ f (img.At i j)) :
    c * solidCount img ≤ solidSum img f := by
  unfold solidCount solidSum
  rw [Finset.mul_sum]
  apply Finset.sum_le_sum
  intro i hi
  rw [Finset.mul_sum]
  apply Finset.sum_le_sum
  intro j hj
  by_cases ha : (img.At i j).a = 65535
  · simpa [ha] using h i j (Finset.mem_range.mp hi) (Finset.mem_range.mp hj) ha
  · simp [ha]

theorem uint8_avg (img : Image) (f : Color16 → Nat)
    (h : ∀ i j, i < img.width → j < img.height → (img.At i j).a = 65535 → f (img.At i j) ≤ 65535) :
    uint8 ((solidSum img f / solidCount img) >>> 8) = (solidSum img f / solidCount img) >>> 8 := by
  have h1 := solidSum_le img f 65535 h
  have h2 : solidSum img f / solidCount img ≤ 65535 := by
    rcases Nat.eq_zero_or_pos (solidCount img) with h0 | h0
    · simp [h0]
    · exact Nat.div_le_of_le_mul (by rw [Nat.mul_comm]; exact h1)
  unfold uint8
  rw [Nat.shiftRight_eq_div_pow]
  generalize solidSum img f / solidCount img = q at h2 ⊢
  omega

/-- C1. For a picture whose samples are 16-bit values and that has a pixel of
alpha `65535`, `getAverageColor` returns `(sumR / n >> 8, sumG / n >> 8,
sumB / n >> 8, 255)`, the sums and the count `n` running over exactly the pixels
of alpha `65535`, the division coming before the shift.  Pixels of lower alpha
have no influence: a picture that agrees on the pixels of alpha `65535` gets
the same result. -/
theorem getAverageColor_solid_mean (img : Image) (hwf : img.WF) (hop : HasSolid img) :
    getAverageColor img = some
        { R := (solidSum img Color16.r / solidCount img) >>> 8
          G := (solidSum img Color16.g / solidCount img) >>> 8
          B := (solidSum img Color16.b / solidCount img) >>> 8
          A := 255 } ∧
    ∀ img2 : Image, img2.width = img.width → img2.height = img.height →
      (∀ i j, i < img.width → j < img.height →
        (img.At i j).a = 65535 ∨ (img2.At i j).a = 65535 → img2.At i j = img.At i j) →
      getAverageColor img2 = getAverageColor img := by
  have hpos : solidCount img ≠ 0 := Nat.pos_iff_ne_zero.mp ((solidCount_pos_iff img).mpr hop)
  constructor
  · unfold getAverageColor
    simp only [scanImage_eq, hpos, if_false]
    rw [uint8_avg img Color16.r (fun i j hi hj _ => (hwf i j hi hj).1),
      uint8_avg img Color16.g (fun i j hi hj _ => (hwf i j hi hj).2.1),
      uint8_avg img Color16.b (fun i j hi hj _ => (hwf i j hi hj).2.2.1)]
  · intro img2 hw hh hagree
    have key : ∀ f : Color16 → Nat, solidSum img2 f = solidSum img f := by
      intro f
      unfold solidSum
      rw [hw, hh]
      apply Finset.sum_congr rfl
      intro i hi
      apply Finset.sum_congr rfl
      intro j hj
      have hi2 := Finset.mem_range.mp hi
      have hj2 := Finset.mem_range.mp hj
      by_cases ha : (img.At i j).a = 65535
      · rw [hagree i j hi2 hj2 (Or.inl ha)]
      · by_cases hb : (img2.At i j).a = 65535
        · rw [hagree i j hi2 hj2 (Or.inr hb)]
        · simp [ha, hb]
    unfold getAverageColor
    simp only [scanImage_eq, solidCount, key]

theorem getAverageColor_solid_mean_witness :
    getAverageColor samplePair = some
      { R := (solidSum samplePair Color16.r / solidCount samplePair) >>> 8
        G := (solidSum samplePair Color16.g / solidCount samplePair) >>> 8
        B := (solidSum samplePair Color16.b / solidCount samplePair) >>> 8
        A := 255 } :=
  (getAverageColor_solid_mean samplePair
    (fun i j _ _ => by by_cases h : i = 0 <;> simp [samplePair, solid8, h])
    ⟨0, 0, by decide, by decide, rfl⟩).1

/-- C2. The function `getAverageColor` fails (integer division by zero, no
colour returned) exactly when the picture has no pixel of alpha `65535`; the
empty picture is such a picture. -/
theorem getAverageColor_fails_iff (img : Image) :
    getAverageColor img = none ↔ ¬ HasSolid img := by
  rw [← solidCount_pos_iff, Nat.pos_iff_ne_zero, not_not]
  unfold getAverageColor
  simp only [scanImage_eq]
  by_cases h : solidCount img = 0 <;> simp [h]

theorem high_byte (x : Nat) (h : x ≤ 255) : x * 257 / 256 % 256 = x := by
  have h1 : x * 257 / 256 = x := by omega
  rw [h1]
  omega

/-- C3. For a `1 x 1` picture whose pixel is fully opaque with 8-bit channels
`(R, G, B)`, hence samples `R * 257, G * 257, B * 257, 65535`,
`getAverageColor` returns exactly `(R, G, B, 255)`. -/
theorem getAverageColor_single_pixel (R G B : Nat) (hR : R ≤ 255) (hG : G ≤ 255) (hB : B ≤ 255) :
    getAverageColor (singlePixel (solid8 R G B)) = some ⟨R, G, B, 255⟩ := by
  have h1 : List.range 1 = [0] := rfl
  simp only [getAverageColor, scanImage, scanColumn, singlePixel, solid8, accumulate, uint8,
    h1, List.foldl_cons, List.foldl_nil, Nat.shiftRight_eq_div_pow]
  simp
  exact ⟨high_byte R hR, high_byte G hG, high_byte B hB⟩

theorem getAverageColor_single_pixel_witness :
    getAverageColor (singlePixel (solid8 200 100 7)) = some ⟨200, 100, 7, 255⟩ :=
  getAverageColor_single_pixel 200 100 7 (by decide) (by decide) (by decide)

/-! ## Rounding to the nearest integer -/

theorem floor_le_roundEven (q : ℚ) : ⌊q⌋ ≤ roundEven q := by
  unfold roundEven
  dsimp only
  split_ifs <;> omega

theorem roundEven_le_floor_succ (q : ℚ) : roundEven q ≤ ⌊q⌋ + 1 := by
  unfold roundEven
  dsimp only
  split_ifs <;> omega

theorem roundEven_intCast (n : ℤ) : roundEven (n : ℚ) = n := by
  unfold roundEven
  simp

theorem roundEven_mono {p q : ℚ} (h : p ≤ q) : roundEven p ≤ roundEven q := by
  have hfl : ⌊p⌋ ≤ ⌊q⌋ := Int.floor_mono h
  rcases lt_or_eq_of_le hfl with hlt | heq
  · have h1 := roundEven_le_floor_succ p
    have h2 := floor_le_roundEven q
    omega
  · unfold roundEven
    dsimp only
    rw [heq]
    have hpq : p - (⌊q⌋ : ℚ) ≤ q - (⌊q⌋ : ℚ) := by linarith
    split_ifs <;> first | omega | (exfalso; linarith)

/-- The value `roundEven q` is within one half of `q`, and even at a tie. -/
theorem roundEven_spec (q : ℚ) :
    |q - roundEven q| < 1 / 2 ∨ (|q - roundEven q| = 1 / 2 ∧ roundEven q % 2 = 0) := by
  have h1 : (⌊q⌋ : ℚ) ≤ q := Int.floor_le q
  have h2 : q < ⌊q⌋ + 1 := Int.lt_floor_add_one q
  unfold roundEven
  dsimp only
  split_ifs with ha hb hc
  · left
    rw [abs_lt]
    constructor <;> linarith
  · left
    rw [abs_lt]
    push_cast
    constructor <;> linarith
  · right
    have hr : q - ⌊q⌋ = 1 / 2 := le_antisymm (not_lt.mp hb) (not_lt.mp ha)
    refine ⟨?_, hc⟩
    rw [hr]
    norm_num
  · right
    have hr : q - ⌊q⌋ = 1 / 2 := le_antisymm (not_lt.mp hb) (not_lt.mp ha)
    refine ⟨?_, by omega⟩
    push_cast
    have : q - (⌊q⌋ + 1) = -(1 / 2) := by linarith
    rw [this]
    norm_num

/-- The value `roundEven q` is the only integer with the property above. -/
theorem roundEven_unique (q : ℚ) (n : ℤ)
    (h : |q - n| < 1 / 2 ∨ (|q - n| = 1 / 2 ∧ n % 2 = 0)) : roundEven q = n := by
  have h1 : (⌊q⌋ : ℚ) ≤ q := Int.floor_le q
  have h2 : q < ⌊q⌋ + 1 := Int.lt_floor_add_one q
  have key : ∀ m : ℤ, |q - m| < 1 / 2 ∨ (|q - m| = 1 / 2 ∧ m % 2 = 0) →
      (m = ⌊q⌋ ∧ (q - ⌊q⌋ < 1 / 2 ∨ (q - ⌊q⌋ = 1 / 2 ∧ ⌊q⌋ % 2 = 0))) ∨
      (m = ⌊q⌋ + 1 ∧ (1 / 2 < q - ⌊q⌋ ∨ (q - ⌊q⌋ = 1 / 2 ∧ ⌊q⌋ % 2 ≠ 0))) := by
    intro m hm
    have hle : |q - m| ≤ 1 / 2 := by
      rcases hm with hm | hm
      · exact le_of_lt hm
      · exact le_of_eq hm.1
    rw [abs_le] at hle
    have hm1 : ⌊q⌋ ≤ m := by
      have : (⌊q⌋ : ℚ) < m + 1 := by linarith
      have : ⌊q⌋ < m + 1 := by exact_mod_cast this
      omega
    have hm2 : m ≤ ⌊q⌋ + 1 := by
      have : (m : ℚ) < ⌊q⌋ + 1 + 1 := by linarith
      have : m < ⌊q⌋ + 1 + 1 := by exact_mod_cast this
      omega
    rcases (by omega : m = ⌊q⌋ ∨ m = ⌊q⌋ + 1) with e | e
    · left
      refine ⟨e, ?_⟩
      rw [e] at hm
      rcases hm with hm | hm
      · left
        rw [abs_lt] at hm
        linarith
      · right
        rw [abs_of_nonneg (by linarith)] at hm
        exact hm
    · right
      refine ⟨e, ?_⟩
      rw [e] at hm
      push_cast at hm
      rcases hm with hm | hm
      · left
        rw [abs_lt] at hm
        linarith
      · right
        rw [abs_of_nonpos (by linarith)] at hm
        exact ⟨by linarith [hm.1], by omega⟩
  rcases key n h with ⟨e, hc⟩ | ⟨e, hc⟩
  · rw [e]
    unfold roundEven
    dsimp only
    rcases hc with hc | ⟨hc, hev⟩
    · rw [if_pos hc]
    · rw [if_neg (by linarith), if_neg (by linarith), if_pos hev]
  · rw [e]
    unfold roundEven
    dsimp only
    rcases hc with hc | ⟨hc, hodd⟩
    · rw [if_neg (by linarith), if_pos hc]
    · rw [if_neg (by linarith), if_neg (by linarith), if_neg hodd]

theorem roundEven_neg (q : ℚ) : roundEven (-q) = -roundEven q := by
  apply roundEven_unique
  have h := roundEven_spec q
  have e : -q - ((-roundEven q : ℤ) : ℚ) = -(q - roundEven q) := by push_cast; ring
  rw [e, abs_neg]
  rcases h with h | ⟨h, hev⟩
  · exact Or.inl h
  · exact Or.inr ⟨h, by omega⟩

/-! ## Rounding to the nearest double -/

theorem two_zpow_pos (e : ℤ) : (0 : ℚ) < 2 ^ e := zpow_pos (by norm_num) e

theorem two_zpow_le_abs {x : ℚ} (hx : 0 < x) : (2 : ℚ) ^ Int.log 2 x ≤ x := by
  have h := Int.zpow_log_le_self (b := 2) (by norm_num) hx
  exact_mod_cast h

theorem lt_two_zpow_succ (x : ℚ) : x < (2 : ℚ) ^ (Int.log 2 x + 1) := by
  have h := Int.lt_zpow_succ_log_self (b := 2) (by norm_num) x
  exact_mod_cast h

theorem ulpExp_neg (x : ℚ) : ulpExp (-x) = ulpExp x := by
  simp [ulpExp, abs_neg]

theorem f64_neg (x : ℚ) : f64 (-x) = -f64 x := by
  unfold f64
  rw [ulpExp_neg, neg_div, roundEven_neg]
  push_cast
  ring

theorem f64_zero : f64 0 = 0 := by
  unfold f64
  rw [zero_div]
  have h := roundEven_intCast 0
  simp only [Int.cast_zero] at h
  rw [h]
  simp

theorem f64_nonneg {x : ℚ} (hx : 0 ≤ x) : 0 ≤ f64 x := by
  unfold f64
  have h0 : roundEven ((0 : ℤ) : ℚ) ≤ roundEven (x / 2 ^ ulpExp x) :=
    roundEven_mono (by
      simp only [Int.cast_zero]
      exact div_nonneg hx (le_of_lt (two_zpow_pos _)))
  rw [roundEven_intCast] at h0
  have h1 : (0 : ℚ) ≤ (roundEven (x / 2 ^ ulpExp x) : ℚ) := by exact_mod_cast h0
  exact mul_nonneg h1 (le_of_lt (two_zpow_pos _))

theorem ulpExp_mono {x y : ℚ} (hx : 0 < x) (hxy : x ≤ y) : ulpExp x ≤ ulpExp y := by
  unfold ulpExp
  rw [abs_of_pos hx, abs_of_pos (lt_of_lt_of_le hx hxy)]
  have h := Int.log_mono_right (b := 2) hx hxy
  have h2 := max_le_max h (le_refl (-1022 : ℤ))
  omega

/-- A positive number lies below the top of its binade. -/
theorem lt_top_of_binade {x : ℚ} (hx : 0 < x) : x < 2 ^ (ulpExp x + 53) := by
  have h1 := lt_two_zpow_succ x
  have h2 : Int.log 2 x + 1 ≤ ulpExp x + 53 := by
    unfold ulpExp
    rw [abs_of_pos hx]
    have := le_max_left (Int.log 2 x) (-1022)
    omega
  exact lt_of_lt_of_le h1 (zpow_le_zpow_right₀ (by norm_num) h2)

/-- A positive normal number lies above the bottom of its binade. -/
theorem bottom_le_of_binade {x : ℚ} (hx : 0 < x) (hn : -1074 < ulpExp x) :
    2 ^ (ulpExp x + 52) ≤ x := by
  have h1 := two_zpow_le_abs hx
  have h2 : ulpExp x + 52 = Int.log 2 x := by
    unfold ulpExp at hn ⊢
    rw [abs_of_pos hx] at hn ⊢
    rcases max_choice (Int.log 2 x) (-1022) with h | h
    · rw [h]; omega
    · rw [h] at hn; omega
  rw [h2]
  exact h1

theorem f64_le_top {x : ℚ} (hx : 0 < x) : f64 x ≤ 2 ^ (ulpExp x + 53) := by
  unfold f64
  have hp := two_zpow_pos (ulpExp x)
  have h1 : x / 2 ^ ulpExp x ≤ (((2 : ℤ) ^ (53 : ℕ) : ℤ) : ℚ) := by
    rw [div_le_iff₀ hp]
    have := lt_top_of_binade hx
    rw [zpow_add₀ (by norm_num : (2 : ℚ) ≠ 0)] at this
    push_cast
    have e : (2 : ℚ) ^ (53 : ℤ) = (2 : ℚ) ^ (53 : ℕ) := by norm_cast
    rw [e] at this
    linarith
  have h2 := roundEven_mono h1
  rw [roundEven_intCast] at h2
  have h3 : (roundEven (x / 2 ^ ulpExp x) : ℚ) ≤ (2 : ℚ) ^ (53 : ℕ) := by exact_mod_cast h2
  rw [zpow_add₀ (by norm_num : (2 : ℚ) ≠ 0)]
  have e : (2 : ℚ) ^ (53 : ℤ) = (2 : ℚ) ^ (53 : ℕ) := by norm_cast
  rw [e, mul_comm ((2 : ℚ) ^ ulpExp x)]
  exact mul_le_mul_of_nonneg_right h3 (le_of_lt hp)

theorem bottom_le_f64 {x : ℚ} (hx : 0 < x) (hn : -1074 < ulpExp x) :
    2 ^ (ulpExp x + 52) ≤ f64 x := by
  unfold f64
  have hp := two_zpow_pos (ulpExp x)
  have e : (2 : ℚ) ^ (52 : ℤ) = (2 : ℚ) ^ (52 : ℕ) := by norm_cast
  have h1 : (((2 : ℤ) ^ (52 : ℕ) : ℤ) : ℚ) ≤ x / 2 ^ ulpExp x := by
    rw [le_div_iff₀ hp]
    have := bottom_le_of_binade hx hn
    rw [zpow_add₀ (by norm_num : (2 : ℚ) ≠ 0), e] at this
    push_cast
    linarith
  have h2 := roundEven_mono h1
  rw [roundEven_intCast] at h2
  have h3 : (2 : ℚ) ^ (52 : ℕ) ≤ (roundEven (x / 2 ^ ulpExp x) : ℚ) := by exact_mod_cast h2
  rw [zpow_add₀ (by norm_num : (2 : ℚ) ≠ 0), e, mul_comm ((2 : ℚ) ^ ulpExp x)]
  exact mul_le_mul_of_nonneg_right h3 (le_of_lt hp)

theorem f64_mono_pos {x y : ℚ} (hx : 0 < x) (hxy : x ≤ y) : f64 x ≤ f64 y := by
  have hy : 0 < y := lt_of_lt_of_le hx hxy
  rcases lt_or_eq_of_le (ulpExp_mono hx hxy) with hlt | heq
  · have h1 := f64_le_top hx
    have hn : -1074 < ulpExp y := by
      have : -1074 ≤ ulpExp x := by
        unfold ulpExp
        have := le_max_right (Int.log 2 |x|) (-1022)
        omega
      omega
    have h2 := bottom_le_f64 hy hn
    have h3 : (2 : ℚ) ^ (ulpExp x + 53) ≤ 2 ^ (ulpExp y + 52) :=
      zpow_le_zpow_right₀ (by norm_num) (by omega)
    linarith
  · unfold f64
    rw [heq]
    have hp := two_zpow_pos (ulpExp y)
    have h1 : x / 2 ^ ulpExp y ≤ y / 2 ^ ulpExp y := div_le_div_of_nonneg_right hxy (le_of_lt hp)
    have h2 : (roundEven (x / 2 ^ ulpExp y) : ℚ) ≤ roundEven (y / 2 ^ ulpExp y) := by
      exact_mod_cast roundEven_mono h1
    exact mul_le_mul_of_nonneg_right h2 (le_of_lt hp)

/-- Rounding to the nearest double is monotone. -/
theorem f64_mono {x y : ℚ} (hxy : x ≤ y) : f64 x ≤ f64 y := by
  rcases lt_trichotomy 0 x with hx | hx | hx
  · exact f64_mono_pos hx hxy
  · rw [← hx, f64_zero]
    exact f64_nonneg (by rw [hx]; exact hxy)
  · rcases le_or_lt 0 y with hy | hy
    · have h1 : f64 x ≤ 0 := by
        have := f64_nonneg (le_of_lt (neg_pos.mpr hx))
        rw [f64_neg] at this
        linarith
      exact le_trans h1 (f64_nonneg hy)
    · have h := f64_mono_pos (neg_pos.mpr hy) (neg_le_neg hxy)
      rw [f64_neg, f64_neg] at h
      linarith

theorem ulpExp_ge (x : ℚ) : -1074 ≤ ulpExp x := by
  unfold ulpExp
  have := le_max_right (Int.log 2 |x|) (-1022)
  omega

/-- A number with a mantissa below `2 ^ 53` and an exponent the format has is a double. -/
theorem f64_repr_lt (m k : ℤ) (hm : |m| < 2 ^ 53) (hk : -1074 ≤ k) :
    f64 (m * 2 ^ k) = m * 2 ^ k := by
  rcases eq_or_ne m 0 with h0 | h0
  · rw [h0]
    simp [f64_zero]
  · have hpk := two_zpow_pos k
    have habs : |(m : ℚ) * 2 ^ k| = |(m : ℚ)| * 2 ^ k := by
      rw [abs_mul, abs_of_pos hpk]
    have hmpos : (0 : ℚ) < |(m : ℚ)| := abs_pos.mpr (by exact_mod_cast h0)
    have hpos : (0 : ℚ) < |(m : ℚ) * 2 ^ k| := by
      rw [habs]
      exact mul_pos hmpos hpk
    have hlt : |(m : ℚ) * 2 ^ k| < ((2 : ℕ) : ℚ) ^ (53 + k) := by
      rw [habs, zpow_add₀ (by norm_num)]
      have h1 : |(m : ℚ)| < 2 ^ (53 : ℕ) := by
        have : ((|m| : ℤ) : ℚ) < ((2 ^ 53 : ℤ) : ℚ) := by exact_mod_cast hm
        simpa using this
      have e : ((2 : ℕ) : ℚ) ^ (53 : ℤ) = (2 : ℚ) ^ (53 : ℕ) := by norm_cast
      rw [e]
      push_cast
      exact mul_lt_mul_of_pos_right h1 hpk
    have hlog : Int.log 2 |(m : ℚ) * 2 ^ k| < 53 + k :=
      (Int.lt_zpow_iff_log_lt (by norm_num) hpos).mp hlt
    have hle : ulpExp (m * 2 ^ k) ≤ k := by
      unfold ulpExp
      have := max_le (a := Int.log 2 |(m : ℚ) * 2 ^ k|) (b := -1022) (c := 52 + k)
        (by omega) (by omega)
      omega
    unfold f64
    set e := ulpExp (m * 2 ^ k) with he
    obtain ⟨n, hn⟩ : ∃ n : ℕ, k = e + n := ⟨(k - e).toNat, by omega⟩
    have hq : (m : ℚ) * 2 ^ k / 2 ^ e = ((m * 2 ^ n : ℤ) : ℚ) := by
      rw [hn, zpow_add₀ (by norm_num : (2 : ℚ) ≠ 0)]
      have hpe := two_zpow_pos e
      field_simp
      ring
    rw [hq, roundEven_intCast, hn, zpow_add₀ (by norm_num : (2 : ℚ) ≠ 0), zpow_natCast]
    push_cast
    ring

/-- The same with a mantissa of at most `2 ^ 53`. -/
theorem f64_repr (m k : ℤ) (hm : |m| ≤ 2 ^ 53) (hk : -1074 ≤ k) :
    f64 (m * 2 ^ k) = m * 2 ^ k := by
  rcases lt_or_eq_of_le hm with h | h
  · exact f64_repr_lt m k h hk
  · have hm2 : m = 2 * (m / 2) := by
      rcases abs_choice m with e | e <;> rw [e] at h <;> omega
    have hlt : |m / 2| < 2 ^ 53 := by
      rcases abs_choice m with e | e <;> rw [e] at h <;>
        rcases abs_choice (m / 2) with e2 | e2 <;> rw [e2] <;> omega
    have key := f64_repr_lt (m / 2) (k + 1) hlt (by omega)
    have e : ((m / 2 : ℤ) : ℚ) * 2 ^ (k + 1) = (m : ℚ) * 2 ^ k := by
      rw [zpow_add₀ (by norm_num : (2 : ℚ) ≠ 0)]
      have h2 : (m : ℚ) = 2 * ((m / 2 : ℤ) : ℚ) := by exact_mod_cast hm2
      rw [zpow_one]
      rw [h2]
      ring
    rw [e] at key
    exact key

/-- Every integer of at most 53 bits is a double. -/
theorem f64_intCast (n : ℤ) (hn : |n| ≤ 2 ^ 53) : f64 (n : ℚ) = n := by
  have h := f64_repr n 0 hn (by norm_num)
  simpa using h

theorem abs_roundEven_le (x : ℚ) : |roundEven (x / 2 ^ ulpExp x)| ≤ 2 ^ 53 := by
  have hp := two_zpow_pos (ulpExp x)
  have hpos : ∀ y : ℚ, 0 < y → roundEven (y / 2 ^ ulpExp y) ≤ 2 ^ 53 := by
    intro y hy
    have h1 := f64_le_top hy
    unfold f64 at h1
    rw [zpow_add₀ (by norm_num : (2 : ℚ) ≠ 0), mul_comm ((2 : ℚ) ^ ulpExp y)] at h1
    have h2 := le_of_mul_le_mul_right h1 (two_zpow_pos (ulpExp y))
    have e : (2 : ℚ) ^ (53 : ℤ) = ((2 ^ 53 : ℤ) : ℚ) := by norm_cast
    rw [e] at h2
    exact_mod_cast h2
  rcases lt_trichotomy 0 x with hx | hx | hx
  · have h1 := hpos x hx
    have h2 : roundEven ((0 : ℤ) : ℚ) ≤ roundEven (x / 2 ^ ulpExp x) :=
      roundEven_mono (by simp only [Int.cast_zero]; exact div_nonneg (le_of_lt hx) (le_of_lt hp))
    rw [roundEven_intCast] at h2
    rw [abs_of_nonneg h2]
    exact h1
  · rw [← hx, zero_div]
    have := roundEven_intCast 0
    simp only [Int.cast_zero] at this
    rw [this]
    norm_num
  · have h1 := hpos (-x) (neg_pos.mpr hx)
    rw [ulpExp_neg, neg_div, roundEven_neg] at h1
    have h2 : roundEven (x / 2 ^ ulpExp x) ≤ roundEven ((0 : ℤ) : ℚ) :=
      roundEven_mono (by
        simp only [Int.cast_zero]
        exact div_nonpos_of_nonpos_of_nonneg (le_of_lt hx) (le_of_lt hp))
    rw [roundEven_intCast] at h2
    rw [abs_of_nonpos h2]
    exact h1

/-- Rounding a double gives the same double. -/
theorem f64_idem (x : ℚ) : f64 (f64 x) = f64 x := by
  have h := f64_repr (roundEven (x / 2 ^ ulpExp x)) (ulpExp x) (abs_roundEven_le x) (ulpExp_ge x)
  exact h

theorem log_eq_of_binade (x : ℚ) (e : ℤ) (h1 : 2 ^ e ≤ x) (h2 : x < 2 ^ (e + 1)) :
    Int.log 2 x = e := by
  have hpos : 0 < x := lt_of_lt_of_le (two_zpow_pos e) h1
  have a1 : e ≤ Int.log 2 x :=
    (Int.zpow_le_iff_le_log (by norm_num) hpos).mp (by exact_mod_cast h1)
  have a2 : Int.log 2 x < e + 1 :=
    (Int.lt_zpow_iff_log_lt (by norm_num) hpos).mp (by exact_mod_cast h2)
  omega

/-- Evaluation of `f64` from the binade `e` of `x` and the rounded mantissa `m`. -/
theorem f64_eval (x : ℚ) (e m : ℤ) (he : -1022 ≤ e) (hlo : 2 ^ e ≤ |x|) (hhi : |x| < 2 ^ (e + 1))
    (hr : |x / 2 ^ (e - 52) - m| < 1 / 2 ∨ (|x / 2 ^ (e - 52) - m| = 1 / 2 ∧ m % 2 = 0)) :
    f64 x = m * 2 ^ (e - 52) := by
  have hl : Int.log 2 |x| = e := log_eq_of_binade _ e hlo hhi
  have hu : ulpExp x = e - 52 := by
    unfold ulpExp
    rw [hl, max_eq_left he]
  unfold f64
  rw [hu, roundEven_unique _ m hr]

theorem ofInt_exact (n : ℤ) (h1 : -2 ^ 53 ≤ n) (h2 : n ≤ 2 ^ 53) : ofInt n = n := by
  unfold ofInt
  exact f64_intCast n (abs_le.mpr ⟨h1, h2⟩)

/-- Every half of an integer of at most 53 bits is a double. -/
theorem f64_half_exact (n : ℤ) (h1 : -2 ^ 53 ≤ n) (h2 : n ≤ 2 ^ 53) :
    f64 ((n : ℚ) / 2) = (n : ℚ) / 2 := by
  have h := f64_repr n (-1) (abs_le.mpr ⟨h1, h2⟩) (by norm_num)
  have e : (n : ℚ) * 2 ^ (-1 : ℤ) = (n : ℚ) / 2 := by
    rw [zpow_neg, zpow_one]
    ring
  rwa [e] at h

/-! ## Facts about `Round` and `RGBAtoHSV` -/

theorem truncInt_intCast (n : ℤ) : truncInt (n : ℚ) = n := by
  unfold truncInt
  split_ifs <;> simp

theorem Round_eq_floor (f : ℚ) : Round f = ⌊fadd f (1 / 2)⌋ := by
  unfold Round
  exact truncInt_intCast _

theorem f64_le_of_le {x c : ℚ} (hc : f64 c = c) (h : x ≤ c) : f64 x ≤ c := by
  have := f64_mono h
  rwa [hc] at this

theorem le_f64_of_le {x c : ℚ} (hc : f64 c = c) (h : c ≤ x) : c ≤ f64 x := by
  have := f64_mono h
  rwa [hc] at this

theorem f64_one : f64 1 = 1 := by
  have h := f64_intCast 1 (by norm_num)
  simpa using h

theorem f64_neg_one : f64 (-1) = -1 := by rw [f64_neg, f64_one]

/-- The quotient of the hue formula lies in `[-1, 1]`. -/
theorem hue_quotient_range (t d : ℚ) (hd : 0 < d) (hlo : -d ≤ t) (hhi : t ≤ d) :
    -1 ≤ fdiv t d ∧ fdiv t d ≤ 1 := by
  unfold fdiv
  constructor
  · apply le_f64_of_le f64_neg_one
    rw [le_div_iff₀ hd]
    linarith
  · apply f64_le_of_le f64_one
    rw [div_le_iff₀ hd]
    linarith

/-- Range of the rounded hue of one branch, for the branch offset `k`. -/
theorem hue_branch_range (q : ℚ) (k : ℤ) (hq1 : -1 ≤ q) (hq2 : q ≤ 1) (hk1 : -100 ≤ k)
    (hk2 : k ≤ 100) :
    60 * (k - 1) ≤ Round (fmul 60 (fadd q k)) ∧ Round (fmul 60 (fadd q k)) ≤ 60 * (k + 1) := by
  have e1 : f64 ((k : ℚ) - 1) = k - 1 := by
    have h := f64_intCast (k - 1) (abs_le.mpr ⟨by omega, by omega⟩)
    push_cast at h
    exact h
  have e2 : f64 ((k : ℚ) + 1) = k + 1 := by
    have h := f64_intCast (k + 1) (abs_le.mpr ⟨by omega, by omega⟩)
    push_cast at h
    exact h
  have e3 : f64 (60 * ((k : ℚ) - 1)) = 60 * (k - 1) := by
    have h := f64_intCast (60 * (k - 1)) (abs_le.mpr ⟨by omega, by omega⟩)
    push_cast at h
    exact h
  have e4 : f64 (60 * ((k : ℚ) + 1)) = 60 * (k + 1) := by
    have h := f64_intCast (60 * (k + 1)) (abs_le.mpr ⟨by omega, by omega⟩)
    push_cast at h
    exact h
  have e5 : f64 (60 * ((k : ℚ) - 1) + 1 / 2) = 60 * (k - 1) + 1 / 2 := by
    have h := f64_half_exact (120 * (k - 1) + 1) (by omega) (by omega)
    have e : (((120 * (k - 1) + 1 : ℤ) : ℚ)) / 2 = 60 * ((k : ℚ) - 1) + 1 / 2 := by
      push_cast
      ring
    rwa [e] at h
  have e6 : f64 (60 * ((k : ℚ) + 1) + 1 / 2) = 60 * (k + 1) + 1 / 2 := by
    have h := f64_half_exact (120 * (k + 1) + 1) (by omega) (by omega)
    have e : (((120 * (k + 1) + 1 : ℤ) : ℚ)) / 2 = 60 * ((k : ℚ) + 1) + 1 / 2 := by
      push_cast
      ring
    rwa [e] at h
  have a1 : (k : ℚ) - 1 ≤ fadd q k := le_f64_of_le e1 (by linarith)
  have a2 : fadd q k ≤ (k : ℚ) + 1 := f64_le_of_le e2 (by linarith)
  have b1 : 60 * ((k : ℚ) - 1) ≤ fmul 60 (fadd q k) := le_f64_of_le e3 (by linarith)
  have b2 : fmul 60 (fadd q k) ≤ 60 * ((k : ℚ) + 1) := f64_le_of_le e4 (by linarith)
  have c1 : 60 * ((k : ℚ) - 1) + 1 / 2 ≤ fadd (fmul 60 (fadd q k)) (1 / 2) :=
    le_f64_of_le e5 (by linarith)
  have c2 : fadd (fmul 60 (fadd q k)) (1 / 2) ≤ 60 * ((k : ℚ) + 1) + 1 / 2 :=
    f64_le_of_le e6 (by linarith)
  rw [Round_eq_floor]
  constructor
  · rw [Int.le_floor]
    push_cast
    linarith
  · have h : ⌊fadd (fmul 60 (fadd q k)) (1 / 2)⌋ < 60 * (k + 1) + 1 := by
      rw [Int.floor_lt]
      push_cast
      linarith
    omega

theorem hue_red_range (q : ℚ) (hq1 : -1 ≤ q) (hq2 : q ≤ 1) :
    300 ≤ Round (fmul 60 (fadd q 6)) ∧ Round (fmul 60 (fadd q 6)) ≤ 420 := by
  have h := hue_branch_range q 6 hq1 hq2 (by norm_num) (by norm_num)
  simpa using h

theorem hue_green_range (q : ℚ) (hq1 : -1 ≤ q) (hq2 : q ≤ 1) :
    60 ≤ Round (fmul 60 (fadd q 2)) ∧ Round (fmul 60 (fadd q 2)) ≤ 180 := by
  have h := hue_branch_range q 2 hq1 hq2 (by norm_num) (by norm_num)
  simpa using h

theorem hue_blue_range (q : ℚ) (hq1 : -1 ≤ q) (hq2 : q ≤ 1) :
    180 ≤ Round (fmul 60 (fadd q 4)) ∧ Round (fmul 60 (fadd q 4)) ≤ 300 := by
  have h := hue_branch_range q 4 hq1 hq2 (by norm_num) (by norm_num)
  simpa using h

/-- With a zero quotient the rounded hue of a branch is exactly `60 * k`. -/
theorem hue_branch_zero (k : ℤ) (hk1 : 0 ≤ k) (hk2 : k ≤ 100) :
    Round (fmul 60 (fadd 0 k)) = 60 * k := by
  have e1 : fadd 0 (k : ℚ) = k := by
    unfold fadd
    rw [zero_add]
    exact f64_intCast k (abs_le.mpr ⟨by omega, by omega⟩)
  have e2 : fmul 60 (k : ℚ) = 60 * k := by
    unfold fmul
    have h := f64_intCast (60 * k) (abs_le.mpr ⟨by omega, by omega⟩)
    push_cast at h
    exact h
  have e3 : fadd (60 * (k : ℚ)) (1 / 2) = 60 * k + 1 / 2 := by
    unfold fadd
    have h := f64_half_exact (120 * k + 1) (by omega) (by omega)
    have e : (((120 * k + 1 : ℤ) : ℚ)) / 2 = 60 * (k : ℚ) + 1 / 2 := by
      push_cast
      ring
    rwa [e] at h
  rw [Round_eq_floor, e1, e2, e3, Int.floor_eq_iff]
  push_cast
  constructor <;> linarith

/-- A difference of two channels, rounded, is at most the rounded spread. -/
theorem channel_diff_range (x y mn mx : ℚ) (hx1 : mn ≤ x) (hx2 : x ≤ mx) (hy1 : mn ≤ y)
    (hy2 : y ≤ mx) : -fsub mx mn ≤ fsub x y ∧ fsub x y ≤ fsub mx mn := by
  unfold fsub
  constructor
  · rw [← f64_neg]
    exact f64_mono (by linarith)
  · exact f64_mono (by linarith)

theorem spread_nonneg (mn mx : ℚ) (h : mn ≤ mx) : 0 ≤ fsub mx mn :=
  f64_nonneg (by linarith)

/-- The three channels as doubles, with their minimum, maximum and spread. -/
theorem channels_facts (fR fG fB : ℚ) :
    min (min fR fG) fB ≤ fR ∧ min (min fR fG) fB ≤ fG ∧ min (min fR fG) fB ≤ fB ∧
    fR ≤ max (max fR fG) fB ∧ fG ≤ max (max fR fG) fB ∧ fB ≤ max (max fR fG) fB :=
  ⟨le_trans (min_le_left _ _) (min_le_left _ _), le_trans (min_le_left _ _) (min_le_right _ _),
    min_le_right _ _, le_trans (le_max_left _ _) (le_max_left _ _),
    le_trans (le_max_right _ _) (le_max_left _ _), le_max_right _ _⟩

theorem hue_quotient_of_channels (x y fR fG fB : ℚ)
    (hx1 : min (min fR fG) fB ≤ x) (hx2 : x ≤ max (max fR fG) fB)
    (hy1 : min (min fR fG) fB ≤ y) (hy2 : y ≤ max (max fR fG) fB)
    (hd : fsub (max (max fR fG) fB) (min (min fR fG) fB) ≠ 0) :
    -1 ≤ fdiv (fsub x y) (fsub (max (max fR fG) fB) (min (min fR fG) fB)) ∧
      fdiv (fsub x y) (fsub (max (max fR fG) fB) (min (min fR fG) fB)) ≤ 1 := by
  have hc := channels_facts fR fG fB
  have hmm : min (min fR fG) fB ≤ max (max fR fG) fB := le_trans hc.1 hc.2.2.2.1
  have hpos : 0 < fsub (max (max fR fG) fB) (min (min fR fG) fB) :=
    lt_of_le_of_ne (spread_nonneg _ _ hmm) (Ne.symm hd)
  have hr := channel_diff_range x y _ _ hx1 hx2 hy1 hy2
  exact hue_quotient_range _ _ hpos hr.1 hr.2

/-- The code is the formula read with `float64` operations: `Round` is
`floor (x + 0.5)`, Go's `%` agrees with the mathematical modulo on the red
branch, and the blue branch is the only one left when red and green fail. -/
theorem RGBAtoHSV_eq_hsvFloat (c : RGBA) : RGBAtoHSV c = hsvFloat c := by
  unfold RGBAtoHSV hsvFloat
  dsimp only
  generalize fdiv (ofInt c.R) 255 = fR
  generalize fdiv (ofInt c.G) 255 = fG
  generalize fdiv (ofInt c.B) 255 = fB
  have hc := channels_facts fR fG fB
  congr 1
  by_cases hd : fsub (max (max fR fG) fB) (min (min fR fG) fB) = 0
  · simp [hd]
  · rw [if_pos hd, if_neg hd]
    by_cases h1 : max (max fR fG) fB = fR
    · rw [if_pos h1, if_pos h1.symm, Round_eq_floor]
      have hq := hue_quotient_of_channels fG fB fR fG fB hc.2.1 hc.2.2.2.2.1 hc.2.2.1
        hc.2.2.2.2.2 hd
      have hr := hue_red_range _ hq.1 hq.2
      rw [Round_eq_floor] at hr
      exact Int.tmod_eq_emod (by omega) (by norm_num)
    · have h1' : ¬ fR = max (max fR fG) fB := fun h => h1 h.symm
      rw [if_neg h1, if_neg h1']
      by_cases h2 : max (max fR fG) fB = fG
      · rw [if_pos h2, if_pos h2.symm, Round_eq_floor]
      · have h2' : ¬ fG = max (max fR fG) fB := fun h => h2 h.symm
        rw [if_neg h2, if_neg h2']
        have h3 : max (max fR fG) fB = fB := by
          rcases max_choice (max fR fG) fB with h | h
          · rcases max_choice fR fG with h' | h'
            · exact absurd (h.trans h') h1
            · exact absurd (h.trans h') h2
          · exact h
        rw [if_pos h3, Round_eq_floor]

theorem channel_range (n : Nat) (hn : n ≤ 255) :
    0 ≤ fdiv (ofInt n) 255 ∧ fdiv (ofInt n) 255 ≤ 1 ∧ f64 (fdiv (ofInt n) 255) = fdiv (ofInt n) 255 := by
  unfold fdiv ofInt
  have h0 : (0 : ℚ) ≤ f64 ((n : ℤ) : ℚ) := f64_nonneg (by positivity)
  have h1 : f64 ((n : ℤ) : ℚ) ≤ 255 :=
    f64_le_of_le (by
      have h := f64_intCast 255 (by norm_num)
      simpa using h) (by
      have : (n : ℚ) ≤ 255 := by exact_mod_cast hn
      simpa using this)
  refine ⟨f64_nonneg (div_nonneg h0 (by norm_num)), ?_, f64_idem _⟩
  apply f64_le_of_le f64_one
  rw [div_le_iff₀ (by norm_num)]
  linarith

/-- C5. For every 8-bit colour, the result `(h, s, v)` of `RGBAtoHSV` satisfies
`0 ≤ h < 360`, `0 ≤ s ≤ 1` and `0 ≤ v ≤ 1`. -/
theorem RGBAtoHSV_range (c : RGBA) (hR : c.R ≤ 255) (hG : c.G ≤ 255) (hB : c.B ≤ 255) :
    0 ≤ (RGBAtoHSV c).1 ∧ (RGBAtoHSV c).1 < 360 ∧
    0 ≤ (RGBAtoHSV c).2.1 ∧ (RGBAtoHSV c).2.1 ≤ 1 ∧
    0 ≤ (RGBAtoHSV c).2.2 ∧ (RGBAtoHSV c).2.2 ≤ 1 := by
  obtain ⟨r0, r1, rI⟩ := channel_range c.R hR
  obtain ⟨g0, g1, gI⟩ := channel_range c.G hG
  obtain ⟨b0, b1, bI⟩ := channel_range c.B hB
  unfold RGBAtoHSV
  dsimp only
  generalize fdiv (ofInt c.R) 255 = fR at r0 r1 rI
  generalize fdiv (ofInt c.G) 255 = fG at g0 g1 gI
  generalize fdiv (ofInt c.B) 255 = fB at b0 b1 bI
  have hc := channels_facts fR fG fB
  have hmn0 : 0 ≤ min (min fR fG) fB := le_min (le_min r0 g0) b0
  have hmx1 : max (max fR fG) fB ≤ 1 := max_le (max_le r1 g1) b1
  have hmm : min (min fR fG) fB ≤ max (max fR fG) fB := le_trans hc.1 hc.2.2.2.1
  have hmx0 : 0 ≤ max (max fR fG) fB := le_trans hmn0 hmm
  have hmxI : f64 (max (max fR fG) fB) = max (max fR fG) fB := by
    rcases max_choice (max fR fG) fB with h | h
    · rcases max_choice fR fG with h' | h'
      · rw [h, h', rI]
      · rw [h, h', gI]
    · rw [h, bI]
  have hd0 := spread_nonneg _ _ hmm
  have hdle : fsub (max (max fR fG) fB) (min (min fR fG) fB) ≤ max (max fR fG) fB := by
    unfold fsub
    exact f64_le_of_le hmxI (by linarith)
  refine ⟨?_, ?_, ?_, ?_, hmx0, hmx1⟩
  · split_ifs with hd h1 h2 h3
    · have hq := hue_quotient_of_channels fG fB fR fG fB hc.2.1 hc.2.2.2.2.1 hc.2.2.1
        hc.2.2.2.2.2 hd
      have hr := hue_red_range _ hq.1 hq.2
      exact Int.tmod_nonneg _ (by omega)
    · have hq := hue_quotient_of_channels fB fR fR fG fB hc.2.2.1 hc.2.2.2.2.2 hc.1
        hc.2.2.2.1 hd
      have hr := hue_green_range _ hq.1 hq.2
      omega
    · have hq := hue_quotient_of_channels fR fG fR fG fB hc.1 hc.2.2.2.1 hc.2.1
        hc.2.2.2.2.1 hd
      have hr := hue_blue_range _ hq.1 hq.2
      omega
    · exact le_refl 0
    · exact le_refl 0
  · split_ifs with hd h1 h2 h3
    · exact Int.tmod_lt_of_pos _ (by norm_num)
    · have hq := hue_quotient_of_channels fB fR fR fG fB hc.2.2.1 hc.2.2.2.2.2 hc.1
        hc.2.2.2.1 hd
      have hr := hue_green_range _ hq.1 hq.2
      omega
    · have hq := hue_quotient_of_channels fR fG fR fG fB hc.1 hc.2.2.2.1 hc.2.1
        hc.2.2.2.2.1 hd
      have hr := hue_blue_range _ hq.1 hq.2
      omega
    · norm_num
    · norm_num
  · split_ifs with hm
    · exact f64_nonneg (div_nonneg hd0 hmx0)
    · exact le_refl 0
  · split_ifs with hm
    · unfold fdiv
      apply f64_le_of_le f64_one
      rw [div_le_iff₀ (lt_of_le_of_ne hmx0 (Ne.symm hm))]
      linarith
    · norm_num

theorem RGBAtoHSV_range_witness :
    0 ≤ (RGBAtoHSV ⟨10, 200, 30, 255⟩).1 ∧ (RGBAtoHSV ⟨10, 200, 30, 255⟩).1 < 360 ∧
    0 ≤ (RGBAtoHSV ⟨10, 200, 30, 255⟩).2.1 ∧ (RGBAtoHSV ⟨10, 200, 30, 255⟩).2.1 ≤ 1 ∧
    0 ≤ (RGBAtoHSV ⟨10, 200, 30, 255⟩).2.2 ∧ (RGBAtoHSV ⟨10, 200, 30, 255⟩).2.2 ≤ 1 :=
  RGBAtoHSV_range ⟨10, 200, 30, 255⟩ (by decide) (by decide) (by decide)

theorem channel_full : fdiv (ofInt ((255 : ℕ) : ℤ)) 255 = 1 := by
  unfold fdiv
  rw [ofInt_exact _ (by norm_num) (by norm_num)]
  norm_num [f64_one]

theorem channel_none : fdiv (ofInt ((0 : ℕ) : ℤ)) 255 = 0 := by
  unfold fdiv
  rw [ofInt_exact _ (by norm_num) (by norm_num)]
  norm_num [f64_zero]

theorem quotient_zero : fdiv (fsub 0 0) 1 = 0 := by
  unfold fdiv fsub
  norm_num [f64_zero, f64_one]

/-- C6. The hue is `0` for `(255, 0, 0)`, `120` for `(0, 255, 0)` and `240` for
`(0, 0, 255)`; value and saturation of `(255, 0, 0)` are `1`; the saturation of
`(128, 128, 128)` is `0`. -/
theorem RGBAtoHSV_primaries (a : Nat) :
    (RGBAtoHSV ⟨255, 0, 0, a⟩).1 = 0 ∧ (RGBAtoHSV ⟨0, 255, 0, a⟩).1 = 120 ∧
    (RGBAtoHSV ⟨0, 0, 255, a⟩).1 = 240 ∧ (RGBAtoHSV ⟨255, 0, 0, a⟩).2.2 = 1 ∧
    (RGBAtoHSV ⟨255, 0, 0, a⟩).2.1 = 1 ∧ (RGBAtoHSV ⟨128, 128, 128, a⟩).2.1 = 0 := by
  have hd : fsub 1 0 = 1 := by
    unfold fsub
    norm_num [f64_one]
  have hs : fdiv 1 1 = 1 := by
    unfold fdiv
    norm_num [f64_one]
  have h6 := hue_branch_zero 6 (by norm_num) (by norm_num)
  have h2 := hue_branch_zero 2 (by norm_num) (by norm_num)
  have h4 := hue_branch_zero 4 (by norm_num) (by norm_num)
  norm_num at h6 h2 h4
  have m1 : max (max (1 : ℚ) 0) 0 = 1 := by norm_num
  have m2 : max (max (0 : ℚ) 1) 0 = 1 := by norm_num
  have m3 : max (max (0 : ℚ) 0) 1 = 1 := by norm_num
  have n1 : min (min (1 : ℚ) 0) 0 = 0 := by norm_num
  have n2 : min (min (0 : ℚ) 1) 0 = 0 := by norm_num
  have n3 : min (min (0 : ℚ) 0) 1 = 0 := by norm_num
  have one_ne : (1 : ℚ) ≠ 0 := by norm_num
  have one_ne' : ¬ ((1 : ℚ) = 0) := by norm_num
  refine ⟨?_, ?_, ?_, ?_, ?_, ?_⟩
  · unfold RGBAtoHSV
    dsimp only
    rw [channel_full, channel_none, m1, n1, hd, if_pos one_ne, if_pos rfl, quotient_zero, h6]
    rfl
  · unfold RGBAtoHSV
    dsimp only
    rw [channel_full, channel_none, m2, n2, hd, if_pos one_ne, if_neg one_ne', if_pos rfl,
      quotient_zero, h2]
  · unfold RGBAtoHSV
    dsimp only
    rw [channel_full, channel_none, m3, n3, hd, if_pos one_ne, if_neg one_ne', if_neg one_ne',
      if_pos rfl, quotient_zero, h4]
  · unfold RGBAtoHSV
    dsimp only
    rw [channel_full, channel_none, m1]
  · unfold RGBAtoHSV
    dsimp only
    rw [channel_full, channel_none, m1, n1, hd, if_pos one_ne, hs]
  · unfold RGBAtoHSV
    dsimp only
    generalize fdiv (ofInt ((128 : ℕ) : ℤ)) 255 = x
    have e : fsub (max (max x x) x) (min (min x x) x) = 0 := by
      unfold fsub
      rw [max_self, max_self, min_self, min_self, sub_self, f64_zero]
    rw [e]
    split_ifs
    · unfold fdiv
      rw [zero_div, f64_zero]
    · rfl

/-! ## Facts about the layout step -/

theorem wrapInt_of_range (x : ℤ) (h1 : -2 ^ 63 ≤ x) (h2 : x < 2 ^ 63) : wrapInt x = x := by
  unfold wrapInt
  omega

theorem truncInt_range (f : ℚ) (n : ℤ) (h0 : 0 ≤ f) (h1 : f ≤ n) :
    0 ≤ truncInt f ∧ truncInt f ≤ n := by
  unfold truncInt
  rw [if_pos h0]
  constructor
  · exact Int.floor_nonneg.mpr h0
  · have : ⌊f⌋ ≤ ⌊(n : ℚ)⌋ := Int.floor_mono h1
    simpa using this

/-- The row offset `int(float64(th) * V)` lies between `0` and `th`. -/
theorem value_offset_range (th : ℤ) (V : ℚ) (h0 : 0 ≤ th) (h1 : th ≤ 2 ^ 53) (hV0 : 0 ≤ V)
    (hV1 : V ≤ 1) :
    0 ≤ truncInt (fmul (ofInt th) V) ∧ truncInt (fmul (ofInt th) V) ≤ th := by
  have hth : ofInt th = th := by
    unfold ofInt
    exact f64_intCast th (by rw [abs_of_nonneg h0]; exact h1)
  have hq : (0 : ℚ) ≤ th := by exact_mod_cast h0
  apply truncInt_range
  · exact f64_nonneg (by rw [hth]; exact mul_nonneg hq hV0)
  · unfold fmul
    rw [hth]
    have e : f64 (th : ℚ) = th := by rw [← hth]; unfold ofInt; exact f64_idem _
    apply f64_le_of_le e
    nlinarith

/-- C7, amended. For `tw, th, maxSize ≥ 0` with `maxSize` a Go `int`, a product
`tw * H` that does not overflow and `th ≤ 2 ^ 53` (so that `float64(th)` is
exact), a hue `0 ≤ H < 360`, a value `0 ≤ V ≤ 1` and resized dimensions
`0 ≤ rx, ry ≤ maxSize`, the offset `(nx, ny)` of the layout step satisfies
`0 ≤ nx`, `nx + rx ≤ tw + maxSize`, `0 ≤ ny` and `ny + ry ≤ th + maxSize`. -/
theorem placement_inside_canvas (tw th maxSize H : ℤ) (V : ℚ) (rx ry : ℤ)
    (htw : 0 ≤ tw) (hth : 0 ≤ th) (hM : 0 ≤ maxSize) (hH0 : 0 ≤ H) (hH1 : H < 360)
    (hV0 : 0 ≤ V) (hV1 : V ≤ 1) (hrx0 : 0 ≤ rx) (hrx1 : rx ≤ maxSize) (hry0 : 0 ≤ ry)
    (hry1 : ry ≤ maxSize) (hMint : maxSize < 2 ^ 63) (hprod : tw * H < 2 ^ 63)
    (hth53 : th ≤ 2 ^ 53) :
    0 ≤ (placement tw th maxSize H V rx ry).1 ∧
    (placement tw th maxSize H V rx ry).1 + rx ≤ tw + maxSize ∧
    0 ≤ (placement tw th maxSize H V rx ry).2 ∧
    (placement tw th maxSize H V rx ry).2 + ry ≤ th + maxSize := by
  obtain ⟨hv0, hv1⟩ := value_offset_range th V hth hth53 hV0 hV1
  have hp0 : 0 ≤ tw * H := mul_nonneg htw hH0
  have hp1 : tw * H ≤ tw * 359 := mul_le_mul_of_nonneg_left (by omega) htw
  unfold placement
  dsimp only
  generalize truncInt (fmul (ofInt th) V) = t at hv0 hv1
  generalize tw * H = p at hp0 hp1 hprod
  rw [wrapInt_of_range p (by omega) hprod]
  rw [Int.tdiv_eq_ediv hM (by norm_num), Int.tdiv_eq_ediv hp0 (by norm_num),
    Int.tdiv_eq_ediv hrx0 (by norm_num), Int.tdiv_eq_ediv hry0 (by norm_num)]
  rw [wrapInt_of_range (maxSize / 2 + p / 360) (by omega) (by omega)]
  rw [wrapInt_of_range (maxSize / 2 + p / 360 - rx / 2) (by omega) (by omega)]
  rw [wrapInt_of_range (maxSize / 2 + t) (by omega) (by omega)]
  rw [wrapInt_of_range (maxSize / 2 + t - ry / 2) (by omega) (by omega)]
  refine ⟨by omega, by omega, by omega, by omega⟩

theorem placement_inside_canvas_witness :
    0 ≤ (placement 100 100 40 0 1 2 2).1 ∧ (placement 100 100 40 0 1 2 2).1 + 2 ≤ 100 + 40 ∧
    0 ≤ (placement 100 100 40 0 1 2 2).2 ∧ (placement 100 100 40 0 1 2 2).2 + 2 ≤ 100 + 40 :=
  placement_inside_canvas 100 100 40 0 1 2 2 (by decide) (by decide) (by decide) (by decide)
    (by decide) (by decide) (by decide) (by decide) (by decide) (by decide) (by decide)
    (by decide) (by decide) (by decide)

/-- The double nearest to `2 ^ 53 + 3` is `2 ^ 53 + 4`. -/
theorem f64_tie_up : f64 9007199254740995 = 9007199254740996 := by
  have h := f64_eval 9007199254740995 53 4503599627370498 (by norm_num)
    (by norm_num [abs_of_pos]) (by norm_num [abs_of_pos])
    (Or.inr ⟨by norm_num [abs_of_neg], by norm_num⟩)
  norm_num at h
  exact h

/-- C7 fails as stated. With `th = 2 ^ 53 + 3`, `V = 1` and everything else `0`
the conversion `float64(th)` rounds up and `ny + ry` exceeds `th + maxSize`;
with `tw = 2 ^ 61` and `H = 5` the product `tw * H` wraps and `nx` is negative. -/
theorem placement_outside_canvas :
    ¬ ((placement 0 9007199254740995 0 0 1 0 0).2 + 0 ≤ 9007199254740995 + 0) ∧
    ¬ (0 ≤ (placement 2305843009213693952 0 0 5 1 0 0).1) := by
  constructor
  · have h1 : ofInt 9007199254740995 = 9007199254740996 := by
      unfold ofInt
      exact_mod_cast f64_tie_up
    have h2 : fmul (ofInt 9007199254740995) 1 = 9007199254740996 := by
      unfold fmul
      rw [h1, mul_one]
      have h := f64_repr 4503599627370498 1 (by norm_num) (by norm_num)
      norm_num at h
      exact h
    have h3 : truncInt (fmul (ofInt 9007199254740995) 1) = 9007199254740996 := by
      rw [h2]
      exact_mod_cast truncInt_intCast 9007199254740996
    unfold placement
    dsimp only
    rw [h3]
    decide
  · unfold placement
    decide

theorem truncInt_eq (f : ℚ) (n : ℤ) (h0 : 0 ≤ f) (h1 : (n : ℚ) ≤ f) (h2 : f < n + 1) :
    truncInt f = n := by
  unfold truncInt
  rw [if_pos h0, Int.floor_eq_iff]
  exact ⟨h1, h2⟩

/-- The scaled side `int((rmax / smax) * side)` for three concrete sources. -/
theorem scaled_side_values :
    truncInt (fmul (fdiv 400 97) 97) = 399 ∧ truncInt (fmul (fdiv 1 49) 49) = 0 ∧
    truncInt (fmul (fdiv 400 800) 400) = 200 := by
  have d1 : fdiv 400 97 = 4642886213784016 * 2 ^ (-50 : ℤ) := by
    unfold fdiv
    have h := f64_eval (400 / 97) 2 4642886213784016 (by norm_num) (by norm_num [abs_of_pos])
      (by norm_num [abs_of_pos]) (Or.inl (by norm_num [abs_of_pos]))
    norm_num at h ⊢
    exact h
  have p1 : fmul (4642886213784016 * 2 ^ (-50 : ℤ)) 97 = 7036874417766399 * 2 ^ (-44 : ℤ) := by
    unfold fmul
    have h := f64_eval (4642886213784016 * 2 ^ (-50 : ℤ) * 97) 8 7036874417766399 (by norm_num)
      (by norm_num [abs_of_pos]) (by norm_num [abs_of_pos]) (Or.inl (by norm_num [abs_of_pos]))
    norm_num at h ⊢
    exact h
  have d2 : fdiv 1 49 = 5882252574524729 * 2 ^ (-58 : ℤ) := by
    unfold fdiv
    have h := f64_eval (1 / 49) (-6) 5882252574524729 (by norm_num) (by norm_num [abs_of_pos])
      (by norm_num [abs_of_pos]) (Or.inl (by norm_num [abs_of_pos]))
    norm_num at h ⊢
    exact h
  have p2 : fmul (5882252574524729 * 2 ^ (-58 : ℤ)) 49 = 9007199254740991 * 2 ^ (-53 : ℤ) := by
    unfold fmul
    have h := f64_eval (5882252574524729 * 2 ^ (-58 : ℤ) * 49) (-1) 9007199254740991
      (by norm_num) (by norm_num [abs_of_pos]) (by norm_num [abs_of_pos])
      (Or.inl (by norm_num [abs_of_pos]))
    norm_num at h ⊢
    exact h
  have d3 : fdiv 400 800 = 1 / 2 := by
    unfold fdiv
    have h := f64_half_exact 1 (by norm_num) (by norm_num)
    norm_num at h ⊢
    exact h
  have p3 : fmul (1 / 2) 400 = 200 := by
    unfold fmul
    have h := f64_intCast 200 (by norm_num)
    norm_num at h ⊢
    exact h
  refine ⟨?_, ?_, ?_⟩
  · rw [d1, p1]
    exact truncInt_eq _ 399 (by norm_num) (by norm_num) (by norm_num)
  · rw [d2, p2]
    exact truncInt_eq _ 0 (by norm_num) (by norm_num) (by norm_num)
  · rw [d3, p3]
    exact truncInt_eq _ 200 (by norm_num) (by norm_num) (by norm_num)

/-- C8. The resize policy evaluated at a square source: a `97 x 97` picture
with `maxSize = 400` gets `400 x 399`, and a `49 x 49` picture with
`maxSize = 1` gets `1 x 0`, where the claim promises `400 x 400` and `1 x 1`;
the two examples `800 x 400` and `400 x 800` come out as claimed. -/
theorem resizeDims_square_off_by_one :
    resizeDims 97 97 400 = (400, 399) ∧ resizeDims 49 49 1 = (1, 0) ∧
    resizeDims 800 400 400 = (400, 200) ∧ resizeDims 400 800 400 = (200, 400) := by
  obtain ⟨v1, v2, v3⟩ := scaled_side_values
  have o97 : ofInt ((97 : ℕ) : ℤ) = 97 := by
    rw [ofInt_exact _ (by norm_num) (by norm_num)]
    norm_num
  have o49 : ofInt ((49 : ℕ) : ℤ) = 49 := by
    rw [ofInt_exact _ (by norm_num) (by norm_num)]
    norm_num
  have o800 : ofInt ((800 : ℕ) : ℤ) = 800 := by
    rw [ofInt_exact _ (by norm_num) (by norm_num)]
    norm_num
  have o400 : ofInt ((400 : ℕ) : ℤ) = 400 := by
    rw [ofInt_exact _ (by norm_num) (by norm_num)]
    norm_num
  have i400 : ofInt 400 = 400 := by
    rw [ofInt_exact _ (by norm_num) (by norm_num)]
    norm_num
  have i1 : ofInt 1 = 1 := by
    rw [ofInt_exact _ (by norm_num) (by norm_num)]
    norm_num
  have m1 : max (97 : ℚ) 97 = 97 := max_self _
  have m2 : max (49 : ℚ) 49 = 49 := max_self _
  have m3 : max (800 : ℚ) 400 = 800 := by norm_num
  have m4 : max (400 : ℚ) 800 = 800 := by norm_num
  have ne4 : ¬ ((800 : ℚ) = 400) := by norm_num
  refine ⟨?_, ?_, ?_, ?_⟩
  · unfold resizeDims
    dsimp only
    rw [o97, i400, m1, if_pos rfl, v1]
  · unfold resizeDims
    dsimp only
    rw [o49, i1, m2, if_pos rfl, v2]
  · unfold resizeDims
    dsimp only
    rw [o800, o400, i400, m3, if_pos rfl, v3]
  · unfold resizeDims
    dsimp only
    rw [o800, o400, i400, m4, if_neg ne4, v3]

/-! ## Facts about the compositing loops -/

theorem Set_Bounds (cv : Canvas) (x y : ℤ) (c : RGBA) : (cv.Set x y c).Bounds = cv.Bounds := by
  unfold Canvas.Set
  split_ifs <;> rfl

theorem Set_At (cv : Canvas) (x y : ℤ) (c : RGBA) (u v : ℤ) :
    (cv.Set x y c).At u v =
      if cv.Bounds.Contains u v ∧ u = x ∧ v = y then c else cv.At u v := by
  unfold Canvas.Set Canvas.At
  by_cases hxy : cv.Bounds.Contains x y
  · rw [if_pos hxy]
    dsimp only
    by_cases huv : cv.Bounds.Contains u v
    · by_cases he : u = x ∧ v = y
      · have c1 : cv.Bounds.Contains u v ∧ u = x ∧ v = y := ⟨huv, he⟩
        rw [if_pos huv, if_pos he, if_pos c1]
      · have c1 : ¬ (cv.Bounds.Contains u v ∧ u = x ∧ v = y) := fun h => he h.2
        rw [if_pos huv, if_neg he, if_neg c1, if_pos huv]
    · have c1 : ¬ (cv.Bounds.Contains u v ∧ u = x ∧ v = y) := fun h => huv h.1
      rw [if_neg huv, if_neg c1, if_neg huv]
  · rw [if_neg hxy]
    have c1 : ¬ (cv.Bounds.Contains u v ∧ u = x ∧ v = y) := by
      rintro ⟨h, rfl, rfl⟩
      exact hxy h
    rw [if_neg c1]

theorem drawPixel_Bounds (s : Bool) (avg : RGBA) (img : Image) (nx ny : ℤ) (i : Nat)
    (cv : Canvas) (j : Nat) : (drawPixel s avg img nx ny i cv j).Bounds = cv.Bounds := by
  unfold drawPixel
  dsimp only
  split_ifs <;> first | rfl | exact Set_Bounds _ _ _ _

theorem drawPixel_At (s : Bool) (avg : RGBA) (img : Image) (nx ny : ℤ) (i : Nat)
    (cv : Canvas) (j : Nat) (u v : ℤ) :
    (drawPixel s avg img nx ny i cv j).At u v =
      if cv.Bounds.Contains u v ∧ u = nx + i ∧ v = ny + j then drawn s avg img i j (cv.At u v)
      else cv.At u v := by
  unfold drawPixel drawn
  dsimp only
  by_cases h1 : s = true ∧ (img.At i j).a = 65535
  · rw [if_pos h1, if_pos h1, Set_At]
  · rw [if_neg h1, if_neg h1]
    by_cases h2 : (img.At i j).a > 0
    · rw [if_pos h2, if_pos h2, Set_At]
    · rw [if_neg h2, if_neg h2]
      simp

/-- Effect of the inner loop over the first `n` rows of column `i`. -/
theorem column_fold (s : Bool) (avg : RGBA) (img : Image) (nx ny : ℤ) (i : Nat) (cv : Canvas)
    (n : Nat) :
    ((List.range n).foldl (drawPixel s avg img nx ny i) cv).Bounds = cv.Bounds ∧
    ∀ u v : ℤ, ((List.range n).foldl (drawPixel s avg img nx ny i) cv).At u v =
      if cv.Bounds.Contains u v ∧ u = nx + i ∧ ny ≤ v ∧ v < ny + n then
        drawn s avg img i (v - ny).toNat (cv.At u v)
      else cv.At u v := by
  induction n with
  | zero =>
    refine ⟨rfl, fun u v => ?_⟩
    have : ¬ (cv.Bounds.Contains u v ∧ u = nx + i ∧ ny ≤ v ∧ v < ny + ((0 : ℕ) : ℤ)) := by
      rintro ⟨_, _, h1, h2⟩
      omega
    rw [if_neg this]
    rfl
  | succ n ih =>
    obtain ⟨ihB, ihA⟩ := ih
    rw [List.range_succ, List.foldl_append]
    simp only [List.foldl_cons, List.foldl_nil]
    refine ⟨by rw [drawPixel_Bounds, ihB], fun u v => ?_⟩
    rw [drawPixel_At, ihB, ihA]
    by_cases hc : cv.Bounds.Contains u v
    · by_cases hu : u = nx + i
      · by_cases hv : v = ny + n
        · have c1 : cv.Bounds.Contains u v ∧ u = nx + i ∧ v = ny + n := ⟨hc, hu, hv⟩
          have c2 : ¬ (cv.Bounds.Contains u v ∧ u = nx + i ∧ ny ≤ v ∧ v < ny + n) := by
            rintro ⟨_, _, _, h⟩
            omega
          have c3 : cv.Bounds.Contains u v ∧ u = nx + i ∧ ny ≤ v ∧ v < ny + ((n + 1 : ℕ) : ℤ) :=
            ⟨hc, hu, by omega, by omega⟩
          have e : (v - ny).toNat = n := by omega
          rw [if_pos c1, if_neg c2, if_pos c3, e]
        · have c1 : ¬ (cv.Bounds.Contains u v ∧ u = nx + i ∧ v = ny + n) := fun h => hv h.2.2
          rw [if_neg c1]
          by_cases hr : ny ≤ v ∧ v < ny + n
          · rw [if_pos ⟨hc, hu, hr⟩, if_pos ⟨hc, hu, hr.1, by omega⟩]
          · have c2 : ¬ (cv.Bounds.Contains u v ∧ u = nx + i ∧ ny ≤ v ∧ v < ny + n) :=
              fun h => hr h.2.2
            have c3 : ¬ (cv.Bounds.Contains u v ∧ u = nx + i ∧ ny ≤ v ∧
                v < ny + ((n + 1 : ℕ) : ℤ)) := by
              rintro ⟨_, _, h1, h2⟩
              apply hr
              constructor <;> omega
            rw [if_neg c2, if_neg c3]
      · have c1 : ¬ (cv.Bounds.Contains u v ∧ u = nx + i ∧ v = ny + n) := fun h => hu h.2.1
        have c2 : ¬ (cv.Bounds.Contains u v ∧ u = nx + i ∧ ny ≤ v ∧ v < ny + n) :=
          fun h => hu h.2.1
        have c3 : ¬ (cv.Bounds.Contains u v ∧ u = nx + i ∧ ny ≤ v ∧
            v < ny + ((n + 1 : ℕ) : ℤ)) := fun h => hu h.2.1
        rw [if_neg c1, if_neg c2, if_neg c3]
    · have c1 : ¬ (cv.Bounds.Contains u v ∧ u = nx + i ∧ v = ny + n) := fun h => hc h.1
      have c2 : ¬ (cv.Bounds.Contains u v ∧ u = nx + i ∧ ny ≤ v ∧ v < ny + n) :=
        fun h => hc h.1
      have c3 : ¬ (cv.Bounds.Contains u v ∧ u = nx + i ∧ ny ≤ v ∧
          v < ny + ((n + 1 : ℕ) : ℤ)) := fun h => hc h.1
      rw [if_neg c1, if_neg c2, if_neg c3]

/-- Effect of the two loops over the first `m` columns. -/
theorem columns_fold (s : Bool) (avg : RGBA) (img : Image) (nx ny : ℤ) (ry : Nat) (cv : Canvas)
    (m : Nat) :
    ((List.range m).foldl
      (fun acc i => (List.range ry).foldl (drawPixel s avg img nx ny i) acc) cv).Bounds
      = cv.Bounds ∧
    ∀ u v : ℤ, ((List.range m).foldl
      (fun acc i => (List.range ry).foldl (drawPixel s avg img nx ny i) acc) cv).At u v =
      if cv.Bounds.Contains u v ∧ nx ≤ u ∧ u < nx + m ∧ ny ≤ v ∧ v < ny + ry then
        drawn s avg img (u - nx).toNat (v - ny).toNat (cv.At u v)
      else cv.At u v := by
  induction m with
  | zero =>
    refine ⟨rfl, fun u v => ?_⟩
    have : ¬ (cv.Bounds.Contains u v ∧ nx ≤ u ∧ u < nx + ((0 : ℕ) : ℤ) ∧ ny ≤ v ∧ v < ny + ry) := by
      rintro ⟨_, h1, h2, _⟩
      omega
    rw [if_neg this]
    rfl
  | succ m ih =>
    obtain ⟨ihB, ihA⟩ := ih
    rw [List.range_succ, List.foldl_append]
    simp only [List.foldl_cons, List.foldl_nil]
    obtain ⟨cB, cA⟩ := column_fold s avg img nx ny m
      ((List.range m).foldl
        (fun acc i => (List.range ry).foldl (drawPixel s avg img nx ny i) acc) cv) ry
    refine ⟨by rw [cB, ihB], fun u v => ?_⟩
    rw [cA, ihB, ihA]
    by_cases hc : cv.Bounds.Contains u v
    · by_cases hv : ny ≤ v ∧ v < ny + ry
      · by_cases hu : u = nx + m
        · have c1 : cv.Bounds.Contains u v ∧ u = nx + m ∧ ny ≤ v ∧ v < ny + ry :=
            ⟨hc, hu, hv.1, hv.2⟩
          have c2 : ¬ (cv.Bounds.Contains u v ∧ nx ≤ u ∧ u < nx + m ∧ ny ≤ v ∧ v < ny + ry) := by
            rintro ⟨_, _, h, _⟩
            omega
          have c3 : cv.Bounds.Contains u v ∧ nx ≤ u ∧ u < nx + ((m + 1 : ℕ) : ℤ) ∧ ny ≤ v ∧
              v < ny + ry := ⟨hc, by omega, by omega, hv.1, hv.2⟩
          have e : (u - nx).toNat = m := by omega
          rw [if_pos c1, if_neg c2, if_pos c3, e]
        · have c1 : ¬ (cv.Bounds.Contains u v ∧ u = nx + m ∧ ny ≤ v ∧ v < ny + ry) :=
            fun h => hu h.2.1
          rw [if_neg c1]
          by_cases hr : nx ≤ u ∧ u < nx + m
          · rw [if_pos ⟨hc, hr.1, hr.2, hv.1, hv.2⟩, if_pos ⟨hc, hr.1, by omega, hv.1, hv.2⟩]
          · have c2 : ¬ (cv.Bounds.Contains u v ∧ nx ≤ u ∧ u < nx + m ∧ ny ≤ v ∧ v < ny + ry) :=
              fun h => hr ⟨h.2.1, h.2.2.1⟩
            have c3 : ¬ (cv.Bounds.Contains u v ∧ nx ≤ u ∧ u < nx + ((m + 1 : ℕ) : ℤ) ∧ ny ≤ v ∧
                v < ny + ry) := by
              rintro ⟨_, h1, h2, _⟩
              apply hr
              constructor <;> omega
            rw [if_neg c2, if_neg c3]
      · have c1 : ¬ (cv.Bounds.Contains u v ∧ u = nx + m ∧ ny ≤ v ∧ v < ny + ry) :=
          fun h => hv h.2.2
        have c2 : ¬ (cv.Bounds.Contains u v ∧ nx ≤ u ∧ u < nx + m ∧ ny ≤ v ∧ v < ny + ry) :=
          fun h => hv h.2.2.2
        have c3 : ¬ (cv.Bounds.Contains u v ∧ nx ≤ u ∧ u < nx + ((m + 1 : ℕ) : ℤ) ∧ ny ≤ v ∧
            v < ny + ry) := fun h => hv h.2.2.2
        rw [if_neg c1, if_neg c2, if_neg c3]
    · have c1 : ¬ (cv.Bounds.Contains u v ∧ u = nx + m ∧ ny ≤ v ∧ v < ny + ry) :=
        fun h => hc h.1
      have c2 : ¬ (cv.Bounds.Contains u v ∧ nx ≤ u ∧ u < nx + m ∧ ny ≤ v ∧ v < ny + ry) :=
        fun h => hc h.1
      have c3 : ¬ (cv.Bounds.Contains u v ∧ nx ≤ u ∧ u < nx + ((m + 1 : ℕ) : ℤ) ∧ ny ≤ v ∧
          v < ny + ry) := fun h => hc h.1
      rw [if_neg c1, if_neg c2, if_neg c3]

/-- Closed form of the composite: inside the placement rectangle a canvas pixel
holds what its one visit draws, elsewhere it is untouched. -/
theorem composite_At (s : Bool) (avg : RGBA) (img : Image) (nx ny rx ry : ℤ) (cv : Canvas)
    (u v : ℤ) :
    (composite s avg img nx ny rx ry cv).At u v =
      if cv.Bounds.Contains u v ∧ nx ≤ u ∧ u < nx + rx.toNat ∧ ny ≤ v ∧ v < ny + ry.toNat then
        drawn s avg img (u - nx).toNat (v - ny).toNat (cv.At u v)
      else cv.At u v :=
  (columns_fold s avg img nx ny ry.toNat cv rx.toNat).2 u v

theorem composite_Bounds (s : Bool) (avg : RGBA) (img : Image) (nx ny rx ry : ℤ) (cv : Canvas) :
    (composite s avg img nx ny rx ry cv).Bounds = cv.Bounds :=
  (columns_fold s avg img nx ny ry.toNat cv rx.toNat).1

/-- C9. After compositing a resized picture at `(nx, ny)`, for every visited
pixel `(i, j)` (`i < rx`, `j < ry`) of samples `(r, g, b, a)` whose target
`(nx + i, ny + j)` is a canvas pixel: the canvas pixel holds the average colour,
whose alpha is `255`, when silhouette mode is on and `a = 65535`; otherwise,
when `a > 0`, it holds the pixel's own colour and alpha, that is the bytes
`(r >> 8, g >> 8, b >> 8, a >> 8)` (the high bytes of 16-bit samples); and it
keeps its previous value when `a = 0`. -/
theorem composite_pixel (silhouette : Bool) (srcImg resizedImg : Image) (avgRGBA : RGBA)
    (nx ny rx ry : ℤ) (cv : Canvas) (i j : Nat)
    (havg : getAverageColor srcImg = some avgRGBA)
    (hi : (i : ℤ) < rx) (hj : (j : ℤ) < ry)
    (hin : cv.Bounds.Contains (nx + i) (ny + j)) :
    (silhouette = true ∧ (resizedImg.At i j).a = 65535 →
      (composite silhouette avgRGBA resizedImg nx ny rx ry cv).At (nx + i) (ny + j) = avgRGBA ∧
        avgRGBA.A = 255) ∧
    (¬ (silhouette = true ∧ (resizedImg.At i j).a = 65535) → 0 < (resizedImg.At i j).a →
      (composite silhouette avgRGBA resizedImg nx ny rx ry cv).At (nx + i) (ny + j) =
        ⟨((resizedImg.At i j).r >>> 8) % 256, ((resizedImg.At i j).g >>> 8) % 256,
          ((resizedImg.At i j).b >>> 8) % 256, ((resizedImg.At i j).a >>> 8) % 256⟩ ∧
      ((resizedImg.At i j).r ≤ 65535 → (resizedImg.At i j).g ≤ 65535 →
        (resizedImg.At i j).b ≤ 65535 → (resizedImg.At i j).a ≤ 65535 →
        (composite silhouette avgRGBA resizedImg nx ny rx ry cv).At (nx + i) (ny + j) =
          ⟨(resizedImg.At i j).r / 256, (resizedImg.At i j).g / 256,
            (resizedImg.At i j).b / 256, (resizedImg.At i j).a / 256⟩)) ∧
    ((resizedImg.At i j).a = 0 →
      (composite silhouette avgRGBA resizedImg nx ny rx ry cv).At (nx + i) (ny + j) =
        cv.At (nx + i) (ny + j)) := by
  have hrect : cv.Bounds.Contains (nx + i) (ny + j) ∧ nx ≤ nx + i ∧ nx + i < nx + rx.toNat ∧
      ny ≤ ny + j ∧ ny + j < ny + ry.toNat := ⟨hin, by omega, by omega, by omega, by omega⟩
  have ei : (nx + i - nx).toNat = i := by omega
  have ej : (ny + j - ny).toNat = j := by omega
  rw [composite_At, if_pos hrect, ei, ej]
  unfold drawn
  refine ⟨fun h => ?_, fun h1 h2 => ?_, fun h => ?_⟩
  · rw [if_pos h]
    refine ⟨rfl, ?_⟩
    unfold getAverageColor at havg
    dsimp only at havg
    split_ifs at havg
    cases havg
    rfl
  · rw [if_neg h1, if_pos h2]
    refine ⟨rfl, fun hr hg hb ha => ?_⟩
    have hbyte : ∀ x : Nat, x ≤ 65535 → uint8 (x >>> 8) = x / 256 := by
      intro x hx
      unfold uint8
      rw [Nat.shiftRight_eq_div_pow]
      omega
    unfold toRGBA
    rw [hbyte _ hr, hbyte _ hg, hbyte _ hb, hbyte _ ha]
  · have h1 : ¬ (silhouette = true ∧ (resizedImg.At i j).a = 65535) := by
      rintro ⟨_, h'⟩
      omega
    have h2 : ¬ ((resizedImg.At i j).a > 0) := by omega
    rw [if_neg h1, if_neg h2]

/-- C10, evaluated on the code. In silhouette mode, on a white `2 x 1` canvas,
the picture `ghostPair` (average colour `(200, 100, 7)`) leaves the average
colour under its fully opaque pixel and the bytes `(78, 0, 0, 128)` of its own
colour under the pixel of alpha `32768`, which is below the sentinel `65535`:
that canvas pixel does not remain unchanged. -/
theorem silhouette_draws_translucent :
    getAverageColor ghostPair = some ⟨200, 100, 7, 255⟩ ∧
    (ghostPair.At 1 0).a < 65535 ∧
    (composite true ⟨200, 100, 7, 255⟩ ghostPair 0 0 2 1 (whiteCanvas 2 1)).At 0 0 =
      ⟨200, 100, 7, 255⟩ ∧
    (composite true ⟨200, 100, 7, 255⟩ ghostPair 0 0 2 1 (whiteCanvas 2 1)).At 1 0 =
      ⟨78, 0, 0, 128⟩ ∧
    (whiteCanvas 2 1).At 1 0 = ⟨255, 255, 255, 255⟩ := by
  decide!

theorem composite_pixel_witness :
    (composite true ⟨200, 100, 7, 255⟩ (singlePixel (solid8 200 100 7)) 0 0 1 1
      (whiteCanvas 1 1)).At (0 + ((0 : ℕ) : ℤ)) (0 + ((0 : ℕ) : ℤ)) = ⟨200, 100, 7, 255⟩ ∧
    (composite false ⟨200, 100, 7, 255⟩ (singlePixel ⟨16770, 8000, 300, 32896⟩) 0 0 1 1
      (whiteCanvas 1 1)).At (0 + ((0 : ℕ) : ℤ)) (0 + ((0 : ℕ) : ℤ)) = ⟨65, 31, 1, 128⟩ ∧
    (composite true ⟨200, 100, 7, 255⟩ (singlePixel ⟨16770, 8000, 300, 32896⟩) 0 0 1 1
      (whiteCanvas 1 1)).At (0 + ((0 : ℕ) : ℤ)) (0 + ((0 : ℕ) : ℤ)) = ⟨65, 31, 1, 128⟩ ∧
    (composite false ⟨200, 100, 7, 255⟩ (singlePixel ⟨9, 9, 9, 0⟩) 0 0 1 1
      (whiteCanvas 1 1)).At (0 + ((0 : ℕ) : ℤ)) (0 + ((0 : ℕ) : ℤ)) =
      (whiteCanvas 1 1).At (0 + ((0 : ℕ) : ℤ)) (0 + ((0 : ℕ) : ℤ)) :=
  ⟨((composite_pixel true (singlePixel (solid8 200 100 7)) (singlePixel (solid8 200 100 7))
      ⟨200, 100, 7, 255⟩ 0 0 1 1 (whiteCanvas 1 1) 0 0 (by decide!) (by decide) (by decide)
      (by decide)).1 (by decide)).1,
   ((composite_pixel false (singlePixel (solid8 200 100 7)) (singlePixel ⟨16770, 8000, 300, 32896⟩)
      ⟨200, 100, 7, 255⟩ 0 0 1 1 (whiteCanvas 1 1) 0 0 (by decide!) (by decide) (by decide)
      (by decide)).2.1 (by decide) (by decide)).1,
   ((composite_pixel true (singlePixel (solid8 200 100 7)) (singlePixel ⟨16770, 8000, 300, 32896⟩)
      ⟨200, 100, 7, 255⟩ 0 0 1 1 (whiteCanvas 1 1) 0 0 (by decide!) (by decide) (by decide)
      (by decide)).2.1 (by decide) (by decide)).1,
   (composite_pixel false (singlePixel (solid8 200 100 7)) (singlePixel ⟨9, 9, 9, 0⟩)
      ⟨200, 100, 7, 255⟩ 0 0 1 1 (whiteCanvas 1 1) 0 0 (by decide!) (by decide) (by decide)
      (by decide)).2.2 (by decide)⟩

/-! ## Facts about the fresh canvas -/

theorem fill_eq_drawPixel (w : RGBA) (i : Nat) (acc : Canvas) (j : Nat) :
    drawPixel true w solidImage 0 0 i acc j = acc.Set i j w := by
  simp [drawPixel, solidImage]

/-- The initialisation loops are a silhouette composite of a fully opaque picture. -/
theorem whiten_eq_composite (cv : Canvas) :
    whiten cv =
      composite true ⟨255, 255, 255, 255⟩ solidImage 0 0 cv.Bounds.Dx cv.Bounds.Dy cv := by
  unfold whiten composite
  have hf : ∀ i : Nat, drawPixel true ⟨255, 255, 255, 255⟩ solidImage 0 0 i =
      fun acc j => acc.Set i j ⟨255, 255, 255, 255⟩ := by
    intro i
    funext acc j
    exact fill_eq_drawPixel _ i acc j
  have hmap : ∀ n : Nat, (do let a ← List.range n; pure (a : ℤ)) = (List.range n).map Nat.cast := by
    intro n
    simp [List.map_eq_flatMap]
  simp only [hmap, List.foldl_map, hf]

theorem whiten_Bounds (cv : Canvas) : (whiten cv).Bounds = cv.Bounds := by
  rw [whiten_eq_composite, composite_Bounds]

/-- Pixels after the initialisation loops: white where the loops reach inside
the bounds, as before elsewhere. -/
theorem whiten_At (cv : Canvas) (u v : ℤ) :
    (whiten cv).At u v =
      if cv.Bounds.Contains u v ∧ 0 ≤ u ∧ u < cv.Bounds.Dx.toNat ∧ 0 ≤ v ∧
          v < cv.Bounds.Dy.toNat then
        ⟨255, 255, 255, 255⟩
      else cv.At u v := by
  rw [whiten_eq_composite, composite_At]
  by_cases h : cv.Bounds.Contains u v ∧ 0 ≤ u ∧ u < cv.Bounds.Dx.toNat ∧ 0 ≤ v ∧
      v < cv.Bounds.Dy.toNat
  · rw [if_pos h]
    have h2 : cv.Bounds.Contains u v ∧ (0 : ℤ) ≤ u ∧ u < 0 + cv.Bounds.Dx.toNat ∧
        (0 : ℤ) ≤ v ∧ v < 0 + cv.Bounds.Dy.toNat :=
      ⟨h.1, h.2.1, by omega, h.2.2.2.1, by omega⟩
    rw [if_pos h2]
    simp [drawn, solidImage]
  · rw [if_neg h]
    have h2 : ¬ (cv.Bounds.Contains u v ∧ (0 : ℤ) ≤ u ∧ u < 0 + cv.Bounds.Dx.toNat ∧
        (0 : ℤ) ≤ v ∧ v < 0 + cv.Bounds.Dy.toNat) := by
      rintro ⟨a, b, c, d, e⟩
      exact h ⟨a, b, by omega, d, by omega⟩
    rw [if_neg h2]

theorem Rect_of_nonneg (a b : ℤ) (ha : 0 ≤ a) (hb : 0 ≤ b) : Rect 0 0 a b = ⟨0, 0, a, b⟩ := by
  unfold Rect
  rw [min_eq_left ha, min_eq_left hb, max_eq_right ha, max_eq_right hb]

/-- The buffer length of a canvas whose sides and byte count fit. -/
theorem mul3NonNeg_four (y z : ℤ) (hy : 0 ≤ y) (hz : 0 ≤ z) (hy2 : y < 2 ^ 62)
    (hlen : 4 * y * z < 2 ^ 63) : mul3NonNeg 4 y z = 4 * y * z := by
  unfold mul3NonNeg
  have h1 : ¬ ((4 : ℤ) < 0 ∨ y < 0 ∨ z < 0) := by omega
  have h2 : ¬ ((2 : ℤ) ^ 64 ≤ 4 * y) := by omega
  have h3 : ¬ ((2 : ℤ) ^ 64 ≤ 4 * y * z) := by omega
  have h4 : ¬ ((2 : ℤ) ^ 63 ≤ 4 * y * z) := by omega
  rw [if_neg h1, if_neg h2, if_neg h3, if_neg h4]

/-- The target picture of a run whose canvas can be allocated. -/
theorem newImg_eq_some (maxAlloc tw th maxSize : ℤ) (htw : 0 ≤ tw) (hth : 0 ≤ th)
    (hM : 0 ≤ maxSize) (hw : tw + maxSize < 2 ^ 62) (hh : th + maxSize < 2 ^ 63)
    (hlen : 4 * (tw + maxSize) * (th + maxSize) < 2 ^ 63)
    (hfit : 4 * (tw + maxSize) * (th + maxSize) ≤ maxAlloc) :
    newImg maxAlloc tw th maxSize =
      some (whiten ⟨⟨0, 0, tw + maxSize, th + maxSize⟩, fun _ _ => ⟨0, 0, 0, 0⟩⟩) := by
  have e1 : wrapInt (tw + maxSize) = tw + maxSize := wrapInt_of_range _ (by omega) (by omega)
  have e2 : wrapInt (th + maxSize) = th + maxSize := wrapInt_of_range _ (by omega) hh
  have ex : (⟨0, 0, tw + maxSize, th + maxSize⟩ : Rectangle).Dx = tw + maxSize := by
    unfold Rectangle.Dx
    simp only [sub_zero]
    exact e1
  have ey : (⟨0, 0, tw + maxSize, th + maxSize⟩ : Rectangle).Dy = th + maxSize := by
    unfold Rectangle.Dy
    simp only [sub_zero]
    exact e2
  unfold newImg NewRGBA
  rw [e1, e2, Rect_of_nonneg _ _ (by omega) (by omega), ex, ey,
    mul3NonNeg_four _ _ (by omega) (by omega) hw hlen]
  have h1 : ¬ (4 * (tw + maxSize) * (th + maxSize) < 0) := by
    have := mul_nonneg (mul_nonneg (by norm_num : (0 : ℤ) ≤ 4) (by omega : 0 ≤ tw + maxSize))
      (by omega : 0 ≤ th + maxSize)
    omega
  have h2 : ¬ (maxAlloc < 4 * (tw + maxSize) * (th + maxSize)) := by omega
  rw [if_neg h1, if_neg h2]
  rfl

/-- With no matching file the loop of `main` leaves the fresh canvas as it is. -/
theorem foldl_fileStep_skip (resize : Nat → Nat → Image → Image) (tw th maxSize : ℤ)
    (silhouette : Bool) (files : List FileInfo)
    (hskip : ∀ f ∈ files, MatchString pngPattern f.Name = false) (cv : Canvas) :
    files.foldl
      (fun acc file => acc.bind (fun cv => fileStep resize tw th maxSize silhouette cv file))
      (some cv) = some cv := by
  induction files with
  | nil => rfl
  | cons f fs ih =>
    have hf : MatchString pngPattern f.Name = false := hskip f (List.mem_cons_self _ _)
    have hstep : fileStep resize tw th maxSize silhouette cv f = some cv := by
      unfold fileStep
      rw [hf]
      simp
    rw [List.foldl_cons, Option.some_bind, hstep]
    exact ih (fun g hg => hskip g (List.mem_cons_of_mem _ hg))

/-- C13, amended. For `tw, th, maxSize ≥ 0` with `tw + maxSize < 2 ^ 62`,
`th + maxSize < 2 ^ 63` and a pixel buffer of `4 * (tw + maxSize) * (th + maxSize)`
bytes that is below `2 ^ 63` and within what the machine allocates (`maxAlloc`),
the canvas created before any picture is composited has the bounds
`(0, 0) - (tw + maxSize, th + maxSize)` and every one of its pixels is opaque
white; a run in which no file name matches ends with exactly this canvas, and
when both sides lie in `[1, 2 ^ 32)` it is the picture written to the output
file. -/
theorem newImg_white (maxAlloc tw th maxSize : ℤ) (htw : 0 ≤ tw) (hth : 0 ≤ th)
    (hM : 0 ≤ maxSize) (hw : tw + maxSize < 2 ^ 62) (hh : th + maxSize < 2 ^ 63)
    (hlen : 4 * (tw + maxSize) * (th + maxSize) < 2 ^ 63)
    (hfit : 4 * (tw + maxSize) * (th + maxSize) ≤ maxAlloc) :
    ∃ cv, newImg maxAlloc tw th maxSize = some cv ∧
      cv.Bounds = ⟨0, 0, tw + maxSize, th + maxSize⟩ ∧
      cv.Bounds.Dx = tw + maxSize ∧
      cv.Bounds.Dy = th + maxSize ∧
      (∀ x y : ℤ, 0 ≤ x → x < tw + maxSize → 0 ≤ y → y < th + maxSize →
        cv.At x y = ⟨255, 255, 255, 255⟩) ∧
      (∀ (resize : Nat → Nat → Image → Image) (silhouette : Bool) (files : List FileInfo),
        (∀ f ∈ files, MatchString pngPattern f.Name = false) →
        main maxAlloc resize tw th maxSize silhouette files = some cv) ∧
      (0 < tw + maxSize → tw + maxSize < 2 ^ 32 → 0 < th + maxSize → th + maxSize < 2 ^ 32 →
        sortedPng cv = some cv) := by
  have hnew := newImg_eq_some maxAlloc tw th maxSize htw hth hM hw hh hlen hfit
  have hB : (whiten ⟨⟨0, 0, tw + maxSize, th + maxSize⟩, fun _ _ => ⟨0, 0, 0, 0⟩⟩).Bounds =
      ⟨0, 0, tw + maxSize, th + maxSize⟩ := by
    rw [whiten_Bounds]
  have ex : (⟨0, 0, tw + maxSize, th + maxSize⟩ : Rectangle).Dx = tw + maxSize := by
    unfold Rectangle.Dx
    simp only [sub_zero]
    exact wrapInt_of_range _ (by omega) (by omega)
  have ey : (⟨0, 0, tw + maxSize, th + maxSize⟩ : Rectangle).Dy = th + maxSize := by
    unfold Rectangle.Dy
    simp only [sub_zero]
    exact wrapInt_of_range _ (by omega) hh
  refine ⟨_, hnew, hB, ?_, ?_, ?_, ?_, ?_⟩
  · rw [hB, ex]
  · rw [hB, ey]
  · intro x y hx0 hx1 hy0 hy1
    rw [whiten_At]
    dsimp only
    rw [ex, ey]
    have hc : (⟨0, 0, tw + maxSize, th + maxSize⟩ : Rectangle).Contains x y ∧ 0 ≤ x ∧
        x < ((tw + maxSize).toNat : ℤ) ∧ 0 ≤ y ∧ y < ((th + maxSize).toNat : ℤ) :=
      ⟨⟨hx0, hx1, hy0, hy1⟩, hx0, by omega, hy0, by omega⟩
    rw [if_pos hc]
  · intro resize silhouette files hskip
    unfold main
    rw [hnew]
    exact foldl_fileStep_skip resize tw th maxSize silhouette files hskip _
  · intro h1 h2 h3 h4
    unfold sortedPng
    rw [hB, ex, ey, if_pos ⟨h1, h2, h3, h4⟩]

theorem newImg_white_witness :
    ∃ cv, newImg 78400 100 100 40 = some cv ∧ cv.Bounds = ⟨0, 0, 100 + 40, 100 + 40⟩ ∧
      sortedPng cv = some cv := by
  obtain ⟨cv, h1, h2, _, _, _, _, h7⟩ := newImg_white 78400 100 100 40 (by decide) (by decide)
    (by decide) (by decide) (by decide) (by decide) (by decide)
  exact ⟨cv, h1, h2, h7 (by decide) (by decide) (by decide) (by decide)⟩

/-- C13 fails as stated. With `tw = th = maxSize = 2 ^ 63 - 1` both sums wrap to
`-2`: the canvas is the `2 x 2` rectangle `(-2, -2) - (0, 0)` (a buffer of `16`
bytes), the initialisation loops write outside it, and its pixel `(-1, -1)` is
not white. -/
theorem newImg_wrapped :
    ∃ cv, newImg 16 (2 ^ 63 - 1) (2 ^ 63 - 1) (2 ^ 63 - 1) = some cv ∧
      cv.Bounds.Dx ≠ (2 ^ 63 - 1) + (2 ^ 63 - 1) ∧
      cv.Bounds.Contains (-1) (-1) ∧
      cv.At (-1) (-1) ≠ ⟨255, 255, 255, 255⟩ := by
  refine ⟨whiten ⟨⟨-2, -2, 0, 0⟩, fun _ _ => ⟨0, 0, 0, 0⟩⟩, ?_, ?_, ?_, ?_⟩
  · have e : wrapInt (2 ^ 63 - 1 + (2 ^ 63 - 1)) = -2 := by decide
    have hr : Rect 0 0 (-2) (-2) = ⟨-2, -2, 0, 0⟩ := by decide
    have hm : mul3NonNeg 4 (⟨-2, -2, 0, 0⟩ : Rectangle).Dx (⟨-2, -2, 0, 0⟩ : Rectangle).Dy = 16 := by
      decide
    unfold newImg NewRGBA
    rw [e, hr, hm, if_neg (by decide), if_neg (by decide)]
    rfl
  · decide!
  · decide!
  · decide!

/-! ## Frame and sequencing of composites -/

/-- C16. Compositing one picture at `(nx, ny)` with resized dimensions
`(rx, ry)` leaves every canvas pixel `(x, y)` with `x < nx`, `x ≥ nx + rx`,
`y < ny` or `y ≥ ny + ry` as it was, in silhouette and in normal mode. -/
theorem composite_frame (silhouette : Bool) (avgRGBA : RGBA) (resizedImg : Image)
    (nx ny rx ry : ℤ) (cv : Canvas) (x y : ℤ)
    (hout : x < nx ∨ nx + rx ≤ x ∨ y < ny ∨ ny + ry ≤ y) :
    (composite silhouette avgRGBA resizedImg nx ny rx ry cv).At x y = cv.At x y := by
  rw [composite_At]
  have h : ¬ (cv.Bounds.Contains x y ∧ nx ≤ x ∧ x < nx + rx.toNat ∧ ny ≤ y ∧
      y < ny + ry.toNat) := by
    rintro ⟨_, h1, h2, h3, h4⟩
    omega
  rw [if_neg h]

theorem composite_frame_witness :
    (composite true ⟨200, 100, 7, 255⟩ (singlePixel (solid8 200 100 7)) 0 0 1 1
      (whiteCanvas 2 2)).At 1 0 = (whiteCanvas 2 2).At 1 0 :=
  composite_frame true ⟨200, 100, 7, 255⟩ (singlePixel (solid8 200 100 7)) 0 0 1 1
    (whiteCanvas 2 2) 1 0 (Or.inr (Or.inl (by decide)))

/-- C15. When two pictures are composited one after the other, every canvas
pixel the later picture draws (its resized pixel there has alpha above `0`)
holds the colour the later picture writes, whatever the earlier one wrote, and
every other canvas pixel keeps what the earlier composite left. -/
theorem composite_last_write (s1 s2 : Bool) (avg1 avg2 : RGBA) (img1 img2 : Image)
    (nx1 ny1 rx1 ry1 nx2 ny2 rx2 ry2 : ℤ) (cv : Canvas) :
    (∀ i j : Nat, (i : ℤ) < rx2 → (j : ℤ) < ry2 → cv.Bounds.Contains (nx2 + i) (ny2 + j) →
      0 < (img2.At i j).a →
      (composite s2 avg2 img2 nx2 ny2 rx2 ry2
        (composite s1 avg1 img1 nx1 ny1 rx1 ry1 cv)).At (nx2 + i) (ny2 + j) =
        if s2 = true ∧ (img2.At i j).a = 65535 then avg2 else toRGBA (img2.At i j)) ∧
    (∀ u v : ℤ,
      ¬ (∃ i j : Nat, (i : ℤ) < rx2 ∧ (j : ℤ) < ry2 ∧ u = nx2 + i ∧ v = ny2 + j ∧
        cv.Bounds.Contains u v ∧ 0 < (img2.At i j).a) →
      (composite s2 avg2 img2 nx2 ny2 rx2 ry2
        (composite s1 avg1 img1 nx1 ny1 rx1 ry1 cv)).At u v =
        (composite s1 avg1 img1 nx1 ny1 rx1 ry1 cv).At u v) := by
  constructor
  · intro i j hi hj hin ha
    rw [composite_At, composite_Bounds]
    have hrect : cv.Bounds.Contains (nx2 + i) (ny2 + j) ∧ nx2 ≤ nx2 + i ∧
        nx2 + i < nx2 + rx2.toNat ∧ ny2 ≤ ny2 + j ∧ ny2 + j < ny2 + ry2.toNat :=
      ⟨hin, by omega, by omega, by omega, by omega⟩
    have ei : (nx2 + i - nx2).toNat = i := by omega
    have ej : (ny2 + j - ny2).toNat = j := by omega
    rw [if_pos hrect, ei, ej]
    unfold drawn
    by_cases hs : s2 = true ∧ (img2.At i j).a = 65535
    · rw [if_pos hs, if_pos hs]
    · rw [if_neg hs, if_neg hs, if_pos ha]
  · intro u v hnot
    rw [composite_At, composite_Bounds]
    by_cases hrect : cv.Bounds.Contains u v ∧ nx2 ≤ u ∧ u < nx2 + rx2.toNat ∧ ny2 ≤ v ∧
        v < ny2 + ry2.toNat
    · rw [if_pos hrect]
      obtain ⟨hc, h1, h2, h3, h4⟩ := hrect
      have ha : ¬ (0 < (img2.At (u - nx2).toNat (v - ny2).toNat).a) := by
        intro ha
        exact hnot ⟨(u - nx2).toNat, (v - ny2).toNat, by omega, by omega, by omega, by omega,
          hc, ha⟩
      have hs : ¬ (s2 = true ∧ (img2.At (u - nx2).toNat (v - ny2).toNat).a = 65535) := by
        rintro ⟨_, h⟩
        apply ha
        omega
      unfold drawn
      rw [if_neg hs, if_neg ha]
    · rw [if_neg hrect]

/-! ## Pictures too flat or too tall for the resize policy -/

theorem composite_no_rows (silhouette : Bool) (avgRGBA : RGBA) (resizedImg : Image)
    (nx ny rx : ℤ) (cv : Canvas) :
    composite silhouette avgRGBA resizedImg nx ny rx 0 cv = cv := by
  unfold composite
  generalize rx.toNat = n
  induction n with
  | zero => rfl
  | succ n ih =>
    rw [List.range_succ, List.foldl_append, ih]
    rfl

theorem composite_no_columns (silhouette : Bool) (avgRGBA : RGBA) (resizedImg : Image)
    (nx ny ry : ℤ) (cv : Canvas) :
    composite silhouette avgRGBA resizedImg nx ny 0 ry cv = cv := by
  unfold composite
  rfl

/-- Rounding a positive normal number raises it by at most one part in `2 ^ 53`. -/
theorem f64_le_rel (x : ℚ) (hx : 2 ^ (-1021 : ℤ) ≤ x) : f64 x ≤ x * (1 + 1 / 2 ^ 53) := by
  have hx0 : 0 < x := lt_of_lt_of_le (two_zpow_pos _) hx
  have hlog : -1021 ≤ Int.log 2 x :=
    (Int.zpow_le_iff_le_log (by norm_num) hx0).mp (by exact_mod_cast hx)
  have hn : -1074 < ulpExp x := by
    unfold ulpExp
    rw [abs_of_pos hx0]
    have := le_max_left (Int.log 2 x) (-1022)
    omega
  have hb := bottom_le_of_binade hx0 hn
  have hu := two_zpow_pos (ulpExp x)
  have hs := roundEven_spec (x / 2 ^ ulpExp x)
  have hle : |x / 2 ^ ulpExp x - roundEven (x / 2 ^ ulpExp x)| ≤ 1 / 2 := by
    rcases hs with h | h
    · exact le_of_lt h
    · exact le_of_eq h.1
  rw [abs_le] at hle
  have h1 : (roundEven (x / 2 ^ ulpExp x) : ℚ) ≤ x / 2 ^ ulpExp x + 1 / 2 := by linarith
  have h2 : f64 x ≤ (x / 2 ^ ulpExp x + 1 / 2) * 2 ^ ulpExp x := by
    unfold f64
    exact mul_le_mul_of_nonneg_right h1 (le_of_lt hu)
  have h3 : (x / 2 ^ ulpExp x + 1 / 2) * 2 ^ ulpExp x = x + 2 ^ ulpExp x / 2 := by
    field_simp
    ring
  rw [h3] at h2
  rw [zpow_add₀ (by norm_num : (2 : ℚ) ≠ 0)] at hb
  have e : (2 : ℚ) ^ (52 : ℤ) = 2 ^ 52 := by norm_cast
  rw [e] at hb
  have h4 : (2 : ℚ) ^ ulpExp x / 2 ≤ x * (1 / 2 ^ 53) := by
    have : (2 : ℚ) ^ ulpExp x * 2 ^ 52 * (1 / 2 ^ 53) ≤ x * (1 / 2 ^ 53) :=
      mul_le_mul_of_nonneg_right hb (by norm_num)
    have e2 : (2 : ℚ) ^ ulpExp x * 2 ^ 52 * (1 / 2 ^ 53) = 2 ^ ulpExp x / 2 := by
      field_simp
      ring
    rwa [e2] at this
  linarith

/-- The largest double below one. -/
theorem f64_below_one : f64 (1 - 1 / 2 ^ 53) = 1 - 1 / 2 ^ 53 := by
  have h := f64_repr (2 ^ 53 - 1) (-53) (by norm_num) (by norm_num)
  have e : (((2 ^ 53 - 1 : ℤ) : ℚ)) * 2 ^ (-53 : ℤ) = 1 - 1 / 2 ^ 53 := by
    rw [zpow_neg]
    norm_num
  rwa [e] at h

/-- A side scaled by less than `1 / side` truncates to zero. -/
theorem scaled_side_zero (M s t : ℤ) (hM : 0 ≤ M) (ht : 1 ≤ t) (hlt : M * t < s)
    (hs : s < 2 ^ 31) :
    truncInt (fmul (fdiv (ofInt M) (ofInt s)) (ofInt t)) = 0 := by
  rcases eq_or_lt_of_le hM with h0 | hpos
  · have e0 : ofInt M = 0 := by
      rw [← h0]
      unfold ofInt
      simp [f64_zero]
    have e1 : fdiv (ofInt M) (ofInt s) = 0 := by
      unfold fdiv
      rw [e0, zero_div, f64_zero]
    have e2 : fmul (fdiv (ofInt M) (ofInt s)) (ofInt t) = 0 := by
      unfold fmul
      rw [e1, zero_mul, f64_zero]
    rw [e2]
    exact truncInt_eq 0 0 (le_refl _) (by norm_num) (by norm_num)
  · have hM1 : 1 ≤ M := hpos
    have hts : t < s := by nlinarith
    have hMs : M < s := by nlinarith
    have eM : ofInt M = M := ofInt_exact M (by omega) (by omega)
    have es : ofInt s = s := ofInt_exact s (by omega) (by omega)
    have et : ofInt t = t := ofInt_exact t (by omega) (by omega)
    have hsq : (0 : ℚ) < s := by exact_mod_cast (by omega : (0 : ℤ) < s)
    have htq : (1 : ℚ) ≤ t := by exact_mod_cast ht
    have hMq : (1 : ℚ) ≤ M := by exact_mod_cast hM1
    have hs31 : (s : ℚ) ≤ 2 ^ 31 := by exact_mod_cast (le_of_lt hs)
    have hprod : (M : ℚ) * t ≤ s - 1 := by exact_mod_cast (by omega : M * t ≤ s - 1)
    have hx : (2 : ℚ) ^ (-1021 : ℤ) ≤ (M : ℚ) / s := by
      have h1 : (2 : ℚ) ^ (-1021 : ℤ) ≤ 1 / 2 ^ 31 := by
        have e : (2 : ℚ) ^ (-1021 : ℤ) ≤ 2 ^ (-31 : ℤ) :=
          zpow_le_zpow_right₀ (by norm_num) (by norm_num)
        have e2 : (2 : ℚ) ^ (-31 : ℤ) = 1 / 2 ^ 31 := by
          rw [zpow_neg, one_div]
          norm_cast
        rwa [e2] at e
      have h2 : (1 : ℚ) / 2 ^ 31 ≤ (M : ℚ) / s := by
        rw [div_le_div_iff₀ (by norm_num) hsq]
        nlinarith
      linarith
    have hq := f64_le_rel _ hx
    have hq0 : 0 ≤ f64 ((M : ℚ) / s) := f64_nonneg (by positivity)
    have hbound : f64 ((M : ℚ) / s) * t ≤ 1 - 1 / 2 ^ 53 := by
      have h1 : f64 ((M : ℚ) / s) * t ≤ (M : ℚ) / s * (1 + 1 / 2 ^ 53) * t :=
        mul_le_mul_of_nonneg_right hq (by linarith)
      have h2 : (M : ℚ) / s * (1 + 1 / 2 ^ 53) * t = (M * t) / s * (1 + 1 / 2 ^ 53) := by
        field_simp
        ring
      have h3 : ((M : ℚ) * t) / s ≤ (s - 1) / s :=
        div_le_div_of_nonneg_right hprod (le_of_lt hsq)
      have h4 : ((s : ℚ) - 1) / s * (1 + 1 / 2 ^ 53) ≤ 1 - 1 / 2 ^ 53 := by
        rw [div_mul_eq_mul_div, div_le_iff₀ hsq]
        nlinarith
      have h5 : ((M : ℚ) * t) / s * (1 + 1 / 2 ^ 53) ≤ (s - 1) / s * (1 + 1 / 2 ^ 53) :=
        mul_le_mul_of_nonneg_right h3 (by norm_num)
      linarith
    have hf : fmul (fdiv (ofInt M) (ofInt s)) (ofInt t) ≤ 1 - 1 / 2 ^ 53 := by
      unfold fmul fdiv
      rw [eM, es, et]
      exact f64_le_of_le f64_below_one hbound
    have hf0 : 0 ≤ fmul (fdiv (ofInt M) (ofInt s)) (ofInt t) := by
      unfold fmul fdiv
      rw [eM, es, et]
      exact f64_nonneg (mul_nonneg hq0 (by linarith))
    have hlt1 : fmul (fdiv (ofInt M) (ofInt s)) (ofInt t) < 1 := by
      have : (1 : ℚ) - 1 / 2 ^ 53 < 1 := by norm_num
      linarith
    exact truncInt_eq _ 0 hf0 (by simpa using hf0) (by simpa using hlt1)

/-- C19. For a decoded picture (sides below `2 ^ 31`, at least `1`) whose
longer side exceeds `maxSize` times its shorter side, the resize policy gives
`0` for the shorter side, the compositing loops visit no pixel, and the canvas
is returned unchanged by the loop body. -/
theorem resizeDims_degenerate (srcImg : Image) (maxSize : ℤ) (hsx : 1 ≤ srcImg.width)
    (hsy : 1 ≤ srcImg.height) (hM : 0 ≤ maxSize) (hbx : srcImg.width < 2 ^ 31)
    (hby : srcImg.height < 2 ^ 31)
    (hflat : (srcImg.height ≤ srcImg.width ∧ maxSize * srcImg.height < srcImg.width) ∨
      (srcImg.width < srcImg.height ∧ maxSize * srcImg.width < srcImg.height)) :
    (srcImg.height ≤ srcImg.width →
      resizeDims srcImg.width srcImg.height maxSize = (maxSize, 0)) ∧
    (srcImg.width < srcImg.height →
      resizeDims srcImg.width srcImg.height maxSize = (0, maxSize)) ∧
    (∀ (silhouette : Bool) (avgRGBA : RGBA) (resizedImg : Image) (nx ny : ℤ) (cv : Canvas),
      composite silhouette avgRGBA resizedImg nx ny
        (resizeDims srcImg.width srcImg.height maxSize).1
        (resizeDims srcImg.width srcImg.height maxSize).2 cv = cv) ∧
    (∀ (resize : Nat → Nat → Image → Image) (tw th : ℤ) (silhouette : Bool) (cv : Canvas),
      HasSolid srcImg → placeImage resize tw th maxSize silhouette cv srcImg = some cv) := by
  have ex : ofInt (srcImg.width : ℤ) = (srcImg.width : ℤ) :=
    ofInt_exact _ (by omega) (by omega)
  have ey : ofInt (srcImg.height : ℤ) = (srcImg.height : ℤ) :=
    ofInt_exact _ (by omega) (by omega)
  have hwide : srcImg.height ≤ srcImg.width →
      resizeDims srcImg.width srcImg.height maxSize = (maxSize, 0) := by
    intro hle
    have hlt : maxSize * srcImg.height < srcImg.width := by
      rcases hflat with h | h
      · exact h.2
      · omega
    have hz := scaled_side_zero maxSize srcImg.width srcImg.height hM (by omega) hlt (by omega)
    have hmax : max (ofInt (srcImg.width : ℤ)) (ofInt (srcImg.height : ℤ)) =
        ofInt (srcImg.width : ℤ) := by
      rw [ex, ey]
      exact max_eq_left (by exact_mod_cast hle)
    unfold resizeDims
    dsimp only
    rw [hmax, if_pos rfl, hz]
  have htall : srcImg.width < srcImg.height →
      resizeDims srcImg.width srcImg.height maxSize = (0, maxSize) := by
    intro hgt
    have hlt : maxSize * srcImg.width < srcImg.height := by
      rcases hflat with h | h
      · omega
      · exact h.2
    have hz := scaled_side_zero maxSize srcImg.height srcImg.width hM (by omega) hlt (by omega)
    have hmax : max (ofInt (srcImg.width : ℤ)) (ofInt (srcImg.height : ℤ)) =
        ofInt (srcImg.height : ℤ) := by
      rw [ex, ey]
      exact max_eq_right (by exact_mod_cast (le_of_lt hgt))
    have hne : ¬ (ofInt (srcImg.height : ℤ) = ofInt (srcImg.width : ℤ)) := by
      rw [ex, ey]
      intro h
      have : (srcImg.height : ℤ) = srcImg.width := by exact_mod_cast h
      omega
    unfold resizeDims
    dsimp only
    rw [hmax, if_neg hne, hz]
  have hcomp : ∀ (silhouette : Bool) (avgRGBA : RGBA) (resizedImg : Image) (nx ny : ℤ)
      (cv : Canvas), composite silhouette avgRGBA resizedImg nx ny
        (resizeDims srcImg.width srcImg.height maxSize).1
        (resizeDims srcImg.width srcImg.height maxSize).2 cv = cv := by
    intro silhouette avgRGBA resizedImg nx ny cv
    rcases Nat.lt_or_ge srcImg.width srcImg.height with h | h
    · rw [htall h]
      exact composite_no_columns _ _ _ _ _ _ _
    · rw [hwide h]
      exact composite_no_rows _ _ _ _ _ _ _
  refine ⟨hwide, htall, hcomp, ?_⟩
  intro resize tw th silhouette cv hsolid
  unfold placeImage
  have hsome : ∃ c, getAverageColor srcImg = some c := by
    have hpos : solidCount srcImg ≠ 0 :=
      Nat.pos_iff_ne_zero.mp ((solidCount_pos_iff srcImg).mpr hsolid)
    unfold getAverageColor
    simp only [scanImage_eq, hpos, if_false]
    exact ⟨_, rfl⟩
  obtain ⟨c, hc⟩ := hsome
  rw [hc]
  dsimp only
  rw [hcomp]

theorem resizeDims_degenerate_witness :
    resizeDims stripe.width stripe.height 2 = (2, 0) :=
  (resizeDims_degenerate stripe 2 (by decide) (by decide) (by decide) (by decide) (by decide)
    (Or.inl ⟨by decide, by decide⟩)).1 (by decide)

/-! ## The mean of the fully opaque pixels lies between their extremes -/

theorem shift_le_iff (x lo : Nat) : lo ≤ x >>> 8 ↔ lo * 256 ≤ x := by
  rw [Nat.shiftRight_eq_div_pow]
  constructor
  · intro h
    have := Nat.div_mul_le_self x (2 ^ 8)
    nlinarith
  · intro h
    exact (Nat.le_div_iff_mul_le (by norm_num)).mpr h

theorem shift_ge_iff (x hi : Nat) : x >>> 8 ≤ hi ↔ x ≤ hi * 256 + 255 := by
  rw [Nat.shiftRight_eq_div_pow]
  omega

/-- The high byte of the mean lies between the high bytes of the samples. -/
theorem mean_high_byte_between (img : Image) (f : Color16 → Nat) (lo hi : Nat)
    (hpos : solidCount img ≠ 0)
    (h : ∀ i j, i < img.width → j < img.height → (img.At i j).a = 65535 →
      lo ≤ f (img.At i j) >>> 8 ∧ f (img.At i j) >>> 8 ≤ hi) :
    lo ≤ (solidSum img f / solidCount img) >>> 8 ∧
      (solidSum img f / solidCount img) >>> 8 ≤ hi := by
  have h1 := le_solidSum img f (lo * 256)
    (fun i j hi' hj ha => (shift_le_iff _ _).mp (h i j hi' hj ha).1)
  have h2 := solidSum_le img f (hi * 256 + 255)
    (fun i j hi' hj ha => (shift_ge_iff _ _).mp (h i j hi' hj ha).2)
  have hn : 0 < solidCount img := Nat.pos_of_ne_zero hpos
  constructor
  · rw [shift_le_iff]
    exact (Nat.le_div_iff_mul_le hn).mpr h1
  · rw [shift_ge_iff]
    exact Nat.div_le_of_le_mul (by rw [Nat.mul_comm]; exact h2)

/-- C20. For a picture with 16-bit samples and at least one fully opaque pixel,
each channel returned by `getAverageColor` is the untruncated `(sum / n) >> 8`
and lies between any bounds `lo` and `hi` on the high bytes of that channel
over the fully opaque pixels; hence when these pixels all have the same 8-bit
colour `(R, G, B)` the result is exactly `(R, G, B, 255)`, however many they
are and whatever the other pixels hold. -/
theorem getAverageColor_between (img : Image) (hwf : img.WF) (hop : HasSolid img) :
    ∃ c : RGBA, getAverageColor img = some c ∧ c.A = 255 ∧
      c.R = (solidSum img Color16.r / solidCount img) >>> 8 ∧
      c.G = (solidSum img Color16.g / solidCount img) >>> 8 ∧
      c.B = (solidSum img Color16.b / solidCount img) >>> 8 ∧
      (∀ lo hi : Nat,
        (∀ i j, i < img.width → j < img.height → (img.At i j).a = 65535 →
          lo ≤ (img.At i j).r >>> 8 ∧ (img.At i j).r >>> 8 ≤ hi) → lo ≤ c.R ∧ c.R ≤ hi) ∧
      (∀ lo hi : Nat,
        (∀ i j, i < img.width → j < img.height → (img.At i j).a = 65535 →
          lo ≤ (img.At i j).g >>> 8 ∧ (img.At i j).g >>> 8 ≤ hi) → lo ≤ c.G ∧ c.G ≤ hi) ∧
      (∀ lo hi : Nat,
        (∀ i j, i < img.width → j < img.height → (img.At i j).a = 65535 →
          lo ≤ (img.At i j).b >>> 8 ∧ (img.At i j).b >>> 8 ≤ hi) → lo ≤ c.B ∧ c.B ≤ hi) ∧
      (∀ R G B : Nat, R ≤ 255 → G ≤ 255 → B ≤ 255 →
        (∀ i j, i < img.width → j < img.height → (img.At i j).a = 65535 →
          img.At i j = solid8 R G B) → c = ⟨R, G, B, 255⟩) := by
  have hpos : solidCount img ≠ 0 := Nat.pos_iff_ne_zero.mp ((solidCount_pos_iff img).mpr hop)
  have hc : getAverageColor img = some
      { R := (solidSum img Color16.r / solidCount img) >>> 8
        G := (solidSum img Color16.g / solidCount img) >>> 8
        B := (solidSum img Color16.b / solidCount img) >>> 8
        A := 255 } := by
    unfold getAverageColor
    simp only [scanImage_eq, hpos, if_false]
    rw [uint8_avg img Color16.r (fun i j hi hj _ => (hwf i j hi hj).1),
      uint8_avg img Color16.g (fun i j hi hj _ => (hwf i j hi hj).2.1),
      uint8_avg img Color16.b (fun i j hi hj _ => (hwf i j hi hj).2.2.1)]
  refine ⟨_, hc, rfl, rfl, rfl, rfl, ?_, ?_, ?_, ?_⟩
  · intro lo hi h
    exact mean_high_byte_between img Color16.r lo hi hpos h
  · intro lo hi h
    exact mean_high_byte_between img Color16.g lo hi hpos h
  · intro lo hi h
    exact mean_high_byte_between img Color16.b lo hi hpos h
  · intro R G B hR hG hB hsame
    have hr := mean_high_byte_between img Color16.r R R hpos (by
      intro i j hi hj ha
      rw [hsame i j hi hj ha]
      simp only [solid8, Nat.shiftRight_eq_div_pow]
      omega)
    have hg := mean_high_byte_between img Color16.g G G hpos (by
      intro i j hi hj ha
      rw [hsame i j hi hj ha]
      simp only [solid8, Nat.shiftRight_eq_div_pow]
      omega)
    have hb := mean_high_byte_between img Color16.b B B hpos (by
      intro i j hi hj ha
      rw [hsame i j hi hj ha]
      simp only [solid8, Nat.shiftRight_eq_div_pow]
      omega)
    have e1 := le_antisymm hr.2 hr.1
    have e2 := le_antisymm hg.2 hg.1
    have e3 := le_antisymm hb.2 hb.1
    rw [e1, e2, e3]

theorem getAverageColor_between_witness :
    ∃ c : RGBA, getAverageColor samplePair = some c ∧ c.A = 255 := by
  obtain ⟨c, h1, h2, _⟩ := getAverageColor_between samplePair
    (fun i j _ _ => by by_cases h : i = 0 <;> simp [samplePair, solid8, h])
    ⟨0, 0, by decide, by decide, rfl⟩
  exact ⟨c, h1, h2⟩

/-! ## Ties for the maximum channel -/

/-- With an integer quotient `q` the rounded hue of a branch is exactly `60 * (q + k)`. -/
theorem hue_branch_int (q k : ℤ) (hq1 : -1 ≤ q) (hq2 : q ≤ 1) (hk1 : 1 ≤ k) (hk2 : k ≤ 100) :
    Round (fmul 60 (fadd q k)) = 60 * (q + k) := by
  have e1 : fadd (q : ℚ) (k : ℚ) = ((q + k : ℤ) : ℚ) := by
    unfold fadd
    have h := f64_intCast (q + k) (abs_le.mpr ⟨by omega, by omega⟩)
    push_cast at h ⊢
    exact h
  have e2 : fmul 60 (((q + k : ℤ) : ℚ)) = 60 * ((q + k : ℤ) : ℚ) := by
    unfold fmul
    have h := f64_intCast (60 * (q + k)) (abs_le.mpr ⟨by omega, by omega⟩)
    push_cast at h ⊢
    exact h
  have e3 : fadd (60 * ((q + k : ℤ) : ℚ)) (1 / 2) = 60 * ((q + k : ℤ) : ℚ) + 1 / 2 := by
    unfold fadd
    have h := f64_half_exact (120 * (q + k) + 1) (by omega) (by omega)
    have e : (((120 * (q + k) + 1 : ℤ) : ℚ)) / 2 = 60 * ((q + k : ℤ) : ℚ) + 1 / 2 := by
      push_cast
      ring
    rwa [e] at h
  rw [Round_eq_floor, e1, e2, e3, Int.floor_eq_iff]
  push_cast
  constructor <;> linarith

theorem fdiv_self (d : ℚ) (hd : d ≠ 0) : fdiv d d = 1 := by
  unfold fdiv
  rw [div_self hd, f64_one]

theorem fdiv_neg_self (d : ℚ) (hd : d ≠ 0) : fdiv (-d) d = -1 := by
  unfold fdiv
  rw [neg_div, div_self hd, f64_neg_one]

theorem fsub_swap (a b : ℚ) : fsub b a = -fsub a b := by
  unfold fsub
  rw [← f64_neg, neg_sub]

/-- The three branch formulas when the quotient is `1` or `-1`. -/
theorem hue_branch_values (x y d : ℚ) (hd : d ≠ 0) :
    (fsub x y = d → hueRed x y d = 60 ∧ hueGreen x y d = 180 ∧ hueBlue x y d = 300) ∧
    (fsub x y = -d → hueRed x y d = 300 ∧ hueGreen x y d = 60 ∧ hueBlue x y d = 180) := by
  have a1 := hue_branch_int 1 6 (by norm_num) (by norm_num) (by norm_num) (by norm_num)
  have a2 := hue_branch_int (-1) 2 (by norm_num) (by norm_num) (by norm_num) (by norm_num)
  have a3 := hue_branch_int 1 2 (by norm_num) (by norm_num) (by norm_num) (by norm_num)
  have a4 := hue_branch_int (-1) 4 (by norm_num) (by norm_num) (by norm_num) (by norm_num)
  have a5 := hue_branch_int (-1) 6 (by norm_num) (by norm_num) (by norm_num) (by norm_num)
  have a6 := hue_branch_int 1 4 (by norm_num) (by norm_num) (by norm_num) (by norm_num)
  norm_num at a1 a2 a3 a4 a5 a6
  constructor
  · intro h
    unfold hueRed hueGreen hueBlue
    rw [h, fdiv_self d hd, a1, a3, a6]
    exact ⟨rfl, rfl, rfl⟩
  · intro h
    unfold hueRed hueGreen hueBlue
    rw [h, fdiv_neg_self d hd, a5, a2, a4]
    exact ⟨rfl, rfl, rfl⟩

/-- The hue of `RGBAtoHSV` in terms of the branch formulas. -/
theorem hue_by_branch (c : RGBA) :
    (chanSpread c ≠ 0 → chanMax c = channel c.R →
      (RGBAtoHSV c).1 = hueRed (channel c.G) (channel c.B) (chanSpread c)) ∧
    (chanSpread c ≠ 0 → chanMax c ≠ channel c.R → chanMax c = channel c.G →
      (RGBAtoHSV c).1 = hueGreen (channel c.B) (channel c.R) (chanSpread c)) ∧
    (chanSpread c ≠ 0 → chanMax c ≠ channel c.R → chanMax c ≠ channel c.G →
      chanMax c = channel c.B →
      (RGBAtoHSV c).1 = hueBlue (channel c.R) (channel c.G) (chanSpread c)) := by
  refine ⟨?_, ?_, ?_⟩
  · intro hd h1
    unfold chanSpread chanMax chanMin channel at hd
    unfold chanMax channel at h1
    unfold RGBAtoHSV
    dsimp only
    rw [if_pos hd, if_pos h1]
    rfl
  · intro hd h1 h2
    unfold chanSpread chanMax chanMin channel at hd
    unfold chanMax channel at h1 h2
    unfold RGBAtoHSV
    dsimp only
    rw [if_pos hd, if_neg h1, if_pos h2]
    rfl
  · intro hd h1 h2 h3
    unfold chanSpread chanMax chanMin channel at hd
    unfold chanMax channel at h1 h2 h3
    unfold RGBAtoHSV
    dsimp only
    rw [if_pos hd, if_neg h1, if_neg h2, if_pos h3]
    rfl

/-- C17. For a colour with `d ≠ 0`: when red and green tie for the maximum the
red and the green branch formulas both give `60`; when green and blue tie the
green and the blue formulas both give `180`; when red and blue tie the red and
the blue formulas both give `300`; and `RGBAtoHSV` returns that hue. -/
theorem hue_tie_agree (c : RGBA) (hd : chanSpread c ≠ 0) :
    (channel c.R = chanMax c → channel c.G = chanMax c →
      hueRed (channel c.G) (channel c.B) (chanSpread c) = 60 ∧
      hueGreen (channel c.B) (channel c.R) (chanSpread c) = 60 ∧ (RGBAtoHSV c).1 = 60) ∧
    (channel c.G = chanMax c → channel c.B = chanMax c →
      hueGreen (channel c.B) (channel c.R) (chanSpread c) = 180 ∧
      hueBlue (channel c.R) (channel c.G) (chanSpread c) = 180 ∧ (RGBAtoHSV c).1 = 180) ∧
    (channel c.R = chanMax c → channel c.B = chanMax c →
      hueRed (channel c.G) (channel c.B) (chanSpread c) = 300 ∧
      hueBlue (channel c.R) (channel c.G) (chanSpread c) = 300 ∧ (RGBAtoHSV c).1 = 300) := by
  have hc := channels_facts (channel c.R) (channel c.G) (channel c.B)
  have hb := hue_by_branch c
  refine ⟨?_, ?_, ?_⟩
  · intro hR hG
    have hmin : chanMin c = channel c.B := by
      unfold chanMin
      rw [hR, hG, min_self]
      exact min_eq_right hc.2.2.2.2.2
    have e1 : fsub (channel c.G) (channel c.B) = chanSpread c := by
      unfold chanSpread
      rw [hG, hmin]
    have e2 : fsub (channel c.B) (channel c.R) = -chanSpread c := by
      rw [fsub_swap]
      unfold chanSpread
      rw [hR, hmin]
    have v1 := ((hue_branch_values _ _ _ hd).1 e1).1
    have v2 := ((hue_branch_values _ _ _ hd).2 e2).2.1
    refine ⟨v1, v2, ?_⟩
    rw [hb.1 hd hR.symm, v1]
  · intro hG hB
    have hmin : chanMin c = channel c.R := by
      unfold chanMin
      rw [hG, hB, min_assoc, min_self]
      exact min_eq_left hc.2.2.2.1
    have hne : chanMax c ≠ channel c.R := by
      intro h
      apply hd
      unfold chanSpread
      rw [hmin, h]
      unfold fsub
      rw [sub_self, f64_zero]
    have e1 : fsub (channel c.B) (channel c.R) = chanSpread c := by
      unfold chanSpread
      rw [hB, hmin]
    have e2 : fsub (channel c.R) (channel c.G) = -chanSpread c := by
      rw [fsub_swap]
      unfold chanSpread
      rw [hG, hmin]
    have v1 := ((hue_branch_values _ _ _ hd).1 e1).2.1
    have v2 := ((hue_branch_values _ _ _ hd).2 e2).2.2
    refine ⟨v1, v2, ?_⟩
    rw [hb.2.1 hd hne hG.symm, v1]
  · intro hR hB
    have hmin : chanMin c = channel c.G := by
      unfold chanMin
      rw [hR, hB, min_comm (chanMax c) (channel c.G), min_assoc, min_self]
      exact min_eq_left hc.2.2.2.2.1
    have e1 : fsub (channel c.G) (channel c.B) = -chanSpread c := by
      rw [fsub_swap]
      unfold chanSpread
      rw [hB, hmin]
    have e2 : fsub (channel c.R) (channel c.G) = chanSpread c := by
      unfold chanSpread
      rw [hR, hmin]
    have v1 := ((hue_branch_values _ _ _ hd).2 e1).1
    have v2 := ((hue_branch_values _ _ _ hd).1 e2).2.2
    refine ⟨v1, v2, ?_⟩
    rw [hb.1 hd hR.symm, v1]

theorem yellow_facts :
    chanSpread ⟨255, 255, 0, 255⟩ ≠ 0 ∧
    channel (⟨255, 255, 0, 255⟩ : RGBA).R = chanMax ⟨255, 255, 0, 255⟩ ∧
    channel (⟨255, 255, 0, 255⟩ : RGBA).G = chanMax ⟨255, 255, 0, 255⟩ := by
  have c1 : channel 255 = 1 := channel_full
  have c0 : channel 0 = 0 := channel_none
  have hmax : chanMax ⟨255, 255, 0, 255⟩ = 1 := by
    unfold chanMax
    dsimp only
    rw [c1, c0]
    norm_num
  have hmin : chanMin ⟨255, 255, 0, 255⟩ = 0 := by
    unfold chanMin
    dsimp only
    rw [c1, c0]
    norm_num
  refine ⟨?_, ?_, ?_⟩
  · unfold chanSpread
    rw [hmax, hmin]
    unfold fsub
    rw [sub_zero, f64_one]
    norm_num
  · rw [hmax]
    exact c1
  · rw [hmax]
    exact c1

theorem hue_tie_agree_witness : (RGBAtoHSV ⟨255, 255, 0, 255⟩).1 = 60 :=
  ((hue_tie_agree ⟨255, 255, 0, 255⟩ yellow_facts.1).1 yellow_facts.2.1 yellow_facts.2.2).2.2

/-! ## Monotone placement -/

theorem tdiv_mono (a b : ℤ) (h : a ≤ b) : a.tdiv 360 ≤ b.tdiv 360 := by
  rcases le_or_lt 0 a with ha | ha
  · rw [Int.tdiv_eq_ediv ha (by norm_num), Int.tdiv_eq_ediv (le_trans ha h) (by norm_num)]
    omega
  · rcases le_or_lt 0 b with hb | hb
    · have e : a.tdiv 360 = -((-a).tdiv 360) := by rw [Int.neg_tdiv, neg_neg]
      rw [e, Int.tdiv_eq_ediv (by omega) (by norm_num), Int.tdiv_eq_ediv hb (by norm_num)]
      omega
    · have e : a.tdiv 360 = -((-a).tdiv 360) := by rw [Int.neg_tdiv, neg_neg]
      have e2 : b.tdiv 360 = -((-b).tdiv 360) := by rw [Int.neg_tdiv, neg_neg]
      rw [e, e2, Int.tdiv_eq_ediv (by omega) (by norm_num),
        Int.tdiv_eq_ediv (by omega) (by norm_num)]
      omega

theorem tdiv_bounds (a : ℤ) : -|a| ≤ 360 * a.tdiv 360 ∧ 360 * a.tdiv 360 ≤ |a| := by
  rcases le_or_lt 0 a with ha | ha
  · rw [Int.tdiv_eq_ediv ha (by norm_num), abs_of_nonneg ha]
    omega
  · have e : a.tdiv 360 = -((-a).tdiv 360) := by rw [Int.neg_tdiv, neg_neg]
    rw [e, Int.tdiv_eq_ediv (by omega) (by norm_num), abs_of_neg ha]
    omega

theorem truncInt_mono_nonneg (f g : ℚ) (hf : 0 ≤ f) (hfg : f ≤ g) : truncInt f ≤ truncInt g := by
  unfold truncInt
  rw [if_pos hf, if_pos (le_trans hf hfg)]
  exact Int.floor_mono hfg

/-- C18, amended. For `tw, th, maxSize ≥ 0` and resized dimensions within
`[0, maxSize]`, as long as the products `tw * H1`, `tw * H2` fit a Go `int`,
`th ≤ 2 ^ 53` and `V2 ≤ 1`: `H1 ≤ H2` gives `nx` for `H1` at most `nx` for
`H2`, and `0 ≤ V1 ≤ V2` gives `ny` for `V1` at most `ny` for `V2`. -/
theorem placement_monotone (tw th maxSize rx ry H1 H2 : ℤ) (V1 V2 : ℚ)
    (htw : 0 ≤ tw) (hth : 0 ≤ th) (hM : 0 ≤ maxSize) (hMint : maxSize < 2 ^ 63)
    (hrx0 : 0 ≤ rx) (hrx1 : rx ≤ maxSize) (hry0 : 0 ≤ ry) (hry1 : ry ≤ maxSize)
    (hp1 : -2 ^ 63 ≤ tw * H1) (hp2 : tw * H2 < 2 ^ 63) (hth53 : th ≤ 2 ^ 53)
    (hV2 : V2 ≤ 1) :
    (H1 ≤ H2 →
      (placement tw th maxSize H1 V1 rx ry).1 ≤ (placement tw th maxSize H2 V1 rx ry).1) ∧
    (0 ≤ V1 → V1 ≤ V2 →
      (placement tw th maxSize H1 V1 rx ry).2 ≤ (placement tw th maxSize H1 V2 rx ry).2) := by
  constructor
  · intro hH
    have hp : tw * H1 ≤ tw * H2 := mul_le_mul_of_nonneg_left hH htw
    unfold placement
    dsimp only
    generalize tw * H1 = p1 at hp hp1
    generalize tw * H2 = p2 at hp hp2
    rw [wrapInt_of_range p1 hp1 (by omega), wrapInt_of_range p2 (by omega) hp2]
    have hm := tdiv_mono p1 p2 hp
    have b1 := tdiv_bounds p1
    have b2 := tdiv_bounds p2
    have a1 : |p1| ≤ 2 ^ 63 := abs_le.mpr ⟨by omega, by omega⟩
    have a2 : |p2| ≤ 2 ^ 63 := abs_le.mpr ⟨by omega, by omega⟩
    generalize p1.tdiv 360 = q1 at hm b1
    generalize p2.tdiv 360 = q2 at hm b2
    generalize |p1| = m1 at b1 a1
    generalize |p2| = m2 at b2 a2
    rw [Int.tdiv_eq_ediv hM (by norm_num), Int.tdiv_eq_ediv hrx0 (by norm_num)]
    rw [wrapInt_of_range (maxSize / 2 + q1) (by omega) (by omega),
      wrapInt_of_range (maxSize / 2 + q2) (by omega) (by omega),
      wrapInt_of_range (maxSize / 2 + q1 - rx / 2) (by omega) (by omega),
      wrapInt_of_range (maxSize / 2 + q2 - rx / 2) (by omega) (by omega)]
    omega
  · intro hV0 hV
    obtain ⟨u0, u1⟩ := value_offset_range th V1 hth hth53 hV0 (le_trans hV hV2)
    obtain ⟨w0, w1⟩ := value_offset_range th V2 hth hth53 (le_trans hV0 hV) hV2
    have hmono : truncInt (fmul (ofInt th) V1) ≤ truncInt (fmul (ofInt th) V2) := by
      have h0 : (0 : ℚ) ≤ ofInt th := f64_nonneg (by exact_mod_cast hth)
      apply truncInt_mono_nonneg
      · exact f64_nonneg (mul_nonneg h0 hV0)
      · exact f64_mono (mul_le_mul_of_nonneg_left hV h0)
    unfold placement
    dsimp only
    generalize truncInt (fmul (ofInt th) V1) = t1 at u0 u1 hmono
    generalize truncInt (fmul (ofInt th) V2) = t2 at w0 w1 hmono
    rw [Int.tdiv_eq_ediv hM (by norm_num), Int.tdiv_eq_ediv hry0 (by norm_num)]
    rw [wrapInt_of_range (maxSize / 2 + t1) (by omega) (by omega),
      wrapInt_of_range (maxSize / 2 + t2) (by omega) (by omega),
      wrapInt_of_range (maxSize / 2 + t1 - ry / 2) (by omega) (by omega),
      wrapInt_of_range (maxSize / 2 + t2 - ry / 2) (by omega) (by omega)]
    omega

theorem placement_monotone_witness :
    (placement 100 100 40 1 0 2 2).1 ≤ (placement 100 100 40 5 0 2 2).1 :=
  (placement_monotone 100 100 40 2 2 1 5 0 1 (by decide) (by decide) (by decide) (by decide)
    (by decide) (by decide) (by decide) (by decide) (by decide) (by decide) (by decide)
    (by decide)).1 (by decide)

/-- C18 fails as stated. With `tw = 2 ^ 61` and everything else `0`, the hue `5`
makes `tw * H` wrap to a negative number, so its `nx` is below the `nx` of the
hue `1`. -/
theorem placement_not_monotone :
    (1 : ℤ) ≤ 5 ∧
    ¬ ((placement 2305843009213693952 0 0 1 0 0 0).1 ≤
      (placement 2305843009213693952 0 0 5 0 0 0).1) := by
  unfold placement
  decide

/-! ## The file filter -/

/-- What `.+` followed by `k` matches. -/
theorem matchAnyPlus_iff (k : List Char → Bool) (s : List Char) :
    matchAnyPlus k s = true ↔
      ∃ pre rest, pre ≠ [] ∧ (∀ c ∈ pre, c ≠ Char.ofNat 10) ∧ s = pre ++ rest ∧
        k rest = true := by
  induction s with
  | nil =>
    constructor
    · intro h
      simp [matchAnyPlus] at h
    · rintro ⟨pre, rest, hne, _, hs, _⟩
      cases pre with
      | nil => exact absurd rfl hne
      | cons p ps => simp at hs
  | cons x xs ih =>
    rw [matchAnyPlus]
    constructor
    · intro h
      rw [Bool.and_eq_true, Bool.or_eq_true] at h
      obtain ⟨hx, hk | hrec⟩ := h
      · refine ⟨[x], xs, by simp, ?_, rfl, hk⟩
        intro c hc
        simp only [List.mem_singleton] at hc
        rw [hc]
        simpa using hx
      · obtain ⟨pre, rest, _, hall, hs, hk⟩ := ih.mp hrec
        refine ⟨x :: pre, rest, by simp, ?_, by rw [hs]; rfl, hk⟩
        intro c hc
        rcases List.mem_cons.mp hc with h | h
        · rw [h]
          simpa using hx
        · exact hall c h
    · rintro ⟨pre, rest, hne, hall, hs, hk⟩
      cases pre with
      | nil => exact absurd rfl hne
      | cons p ps =>
        rw [List.cons_append, List.cons.injEq] at hs
        obtain ⟨hxp, hxs⟩ := hs
        rw [Bool.and_eq_true, Bool.or_eq_true]
        constructor
        · have := hall p (List.mem_cons_self _ _)
          rw [hxp]
          simpa using this
        · cases ps with
          | nil =>
            left
            rw [hxs]
            exact hk
          | cons q qs =>
            right
            exact ih.mpr ⟨q :: qs, rest, by simp, fun c hc => hall c (List.mem_cons_of_mem _ hc),
              hxs, hk⟩

/-- The pieces `png$` match exactly the text `png`. -/
theorem matchHere_tail (rest : List Char) :
    matchHere [RegexItem.lit 'p', RegexItem.lit 'n', RegexItem.lit 'g', RegexItem.endText]
      false rest = true ↔ rest = ['p', 'n', 'g'] := by
  constructor
  · intro h
    match rest, h with
    | [], h => simp [matchHere] at h
    | [a], h => simp [matchHere] at h
    | [a, b], h => simp [matchHere] at h
    | [a, b, c], h =>
      simp [matchHere] at h
      obtain ⟨h1, h2, h3⟩ := h
      rw [h1, h2, h3]
    | a :: b :: c :: d :: r, h => simp [matchHere] at h
  · intro h
    rw [h]
    decide

theorem matchHere_not_start (s : List Char) : matchHere pngPattern false s = false := by
  simp [pngPattern, matchHere]

theorem searchFrom_not_start (s : List Char) : searchFrom pngPattern false s = false := by
  induction s with
  | nil => simp [searchFrom, matchHere_not_start]
  | cons x xs ih => simp [searchFrom, matchHere_not_start, ih]

/-- What the expression `^.+png$` matches. -/
theorem MatchString_png_iff (name : List Char) :
    MatchString pngPattern name = true ↔
      ∃ pre, pre ≠ [] ∧ (∀ c ∈ pre, c ≠ Char.ofNat 10) ∧ name = pre ++ ['p', 'n', 'g'] := by
  have hstart : MatchString pngPattern name = matchAnyPlus
      (matchHere [RegexItem.lit 'p', RegexItem.lit 'n', RegexItem.lit 'g', RegexItem.endText]
        false) name := by
    unfold MatchString
    cases name with
    | nil => simp [searchFrom, pngPattern, matchHere]
    | cons x xs =>
      rw [searchFrom, searchFrom_not_start, Bool.or_false]
      simp [pngPattern, matchHere]
  rw [hstart, matchAnyPlus_iff]
  constructor
  · rintro ⟨pre, rest, hne, hall, hs, hk⟩
    rw [matchHere_tail] at hk
    exact ⟨pre, hne, hall, by rw [hs, hk]⟩
  · rintro ⟨pre, hne, hall, hs⟩
    exact ⟨pre, ['p', 'n', 'g'], hne, hall, hs, (matchHere_tail _).mpr rfl⟩

/-- C14, amended. A directory entry is processed exactly when its name is `png`
preceded by at least one character, none of them a line feed; otherwise it is
skipped.  In particular a name that does not end in `png` is skipped and
`xpng` is processed. -/
theorem fileStep_filter (resize : Nat → Nat → Image → Image) (tw th maxSize : ℤ)
    (silhouette : Bool) (cv : Canvas) (file : FileInfo) :
    ((∃ pre, pre ≠ [] ∧ (∀ c ∈ pre, c ≠ Char.ofNat 10) ∧ file.Name = pre ++ ['p', 'n', 'g']) →
      fileStep resize tw th maxSize silhouette cv file =
        file.decoded.bind (placeImage resize tw th maxSize silhouette cv)) ∧
    (¬ (∃ pre, pre ≠ [] ∧ (∀ c ∈ pre, c ≠ Char.ofNat 10) ∧
        file.Name = pre ++ ['p', 'n', 'g']) →
      fileStep resize tw th maxSize silhouette cv file = some cv) ∧
    (¬ (∃ pre, file.Name = pre ++ ['p', 'n', 'g']) →
      fileStep resize tw th maxSize silhouette cv file = some cv) ∧
    MatchString pngPattern ['x', 'p', 'n', 'g'] = true := by
  have hskip : ¬ (∃ pre, pre ≠ [] ∧ (∀ c ∈ pre, c ≠ Char.ofNat 10) ∧
      file.Name = pre ++ ['p', 'n', 'g']) →
      fileStep resize tw th maxSize silhouette cv file = some cv := by
    intro h
    have hm : ¬ (MatchString pngPattern file.Name = true) := fun hm =>
      h ((MatchString_png_iff _).mp hm)
    unfold fileStep
    rw [if_neg hm]
  refine ⟨?_, hskip, ?_, by decide⟩
  · intro h
    have hm : MatchString pngPattern file.Name = true := (MatchString_png_iff _).mpr h
    unfold fileStep
    rw [if_pos hm]
    cases file.decoded <;> rfl
  · intro h
    apply hskip
    rintro ⟨pre, _, _, hs⟩
    exact h ⟨pre, hs⟩

/-- C14 fails as stated. The name `png` ends with `png` and is not matched by
`^.+png$`, so the file is skipped. -/
theorem png_alone_skipped :
    (∃ pre : List Char, ['p', 'n', 'g'] = pre ++ ['p', 'n', 'g']) ∧
    MatchString pngPattern ['p', 'n', 'g'] = false :=
  ⟨⟨[], rfl⟩, by decide⟩

/-! ## One red square, end to end -/

theorem hsv_red : RGBAtoHSV ⟨255, 0, 0, 255⟩ = (0, 1, 1) := by
  have hd : fsub 1 0 = 1 := by
    unfold fsub
    norm_num [f64_one]
  have hs : fdiv 1 1 = 1 := by
    unfold fdiv
    norm_num [f64_one]
  have h6 := hue_branch_zero 6 (by norm_num) (by norm_num)
  norm_num at h6
  have m1 : max (max (1 : ℚ) 0) 0 = 1 := by norm_num
  have n1 : min (min (1 : ℚ) 0) 0 = 0 := by norm_num
  have one_ne : (1 : ℚ) ≠ 0 := by norm_num
  unfold RGBAtoHSV
  dsimp only
  rw [channel_full, channel_none, m1, n1, hd, if_pos one_ne, if_pos rfl, quotient_zero, h6,
    if_pos one_ne, hs]
  rfl

theorem resizeDims_red : resizeDims 2 2 40 = (40, 40) := by
  have o2 : ofInt ((2 : ℕ) : ℤ) = 2 := by
    rw [ofInt_exact _ (by norm_num) (by norm_num)]
    norm_num
  have i40 : ofInt 40 = 40 := by
    rw [ofInt_exact _ (by norm_num) (by norm_num)]
    norm_num
  have d : fdiv 40 2 = 20 := by
    unfold fdiv
    have h := f64_intCast 20 (by norm_num)
    norm_num at h ⊢
    exact h
  have p : fmul 20 2 = 40 := by
    unfold fmul
    have h := f64_intCast 40 (by norm_num)
    norm_num at h ⊢
    exact h
  unfold resizeDims
  dsimp only
  rw [o2, i40, max_self, if_pos rfl, d, p]
  have t : truncInt 40 = 40 := truncInt_eq 40 40 (by norm_num) (by norm_num) (by norm_num)
  rw [t]

theorem placement_red : placement 100 100 40 0 1 40 40 = (0, 100) := by
  have i100 : ofInt 100 = 100 := by
    rw [ofInt_exact _ (by norm_num) (by norm_num)]
    norm_num
  have p : fmul 100 1 = 100 := by
    unfold fmul
    have h := f64_intCast 100 (by norm_num)
    norm_num at h ⊢
    exact h
  have t : truncInt 100 = 100 := truncInt_eq 100 100 (by norm_num) (by norm_num) (by norm_num)
  unfold placement
  rw [i100, p, t]
  decide

theorem getAverageColor_red : getAverageColor redSquare = some ⟨255, 0, 0, 255⟩ := by
  decide!

theorem nearestNeighbor_red (i j : Nat) :
    (nearestNeighbor 40 40 redSquare).At i j = solid8 255 0 0 := rfl

/-- The run of `main` on a directory holding one `2 x 2` red picture, with
`-w 100 -h 100 -m 40` and no silhouette. -/
theorem main_red_square (maxAlloc : ℤ) (resize : Nat → Nat → Image → Image)
    (hfit : 78400 ≤ maxAlloc)
    (hred : ∀ i j : Nat, i < 40 → j < 40 → (resize 40 40 redSquare).At i j = solid8 255 0 0)
    (name : List Char) (hname : MatchString pngPattern name = true) :
    ∃ cv, main maxAlloc resize 100 100 40 false [⟨name, some redSquare⟩] = some cv ∧
      cv.Bounds = ⟨0, 0, 140, 140⟩ ∧
      (∀ x y : ℤ, 0 ≤ x → x < 140 → 0 ≤ y → y < 140 →
        cv.At x y = if x < 40 ∧ 100 ≤ y then ⟨255, 0, 0, 255⟩ else ⟨255, 255, 255, 255⟩) ∧
      sortedPng cv = some cv := by
  have hnew : newImg maxAlloc 100 100 40 =
      some (whiten ⟨⟨0, 0, 140, 140⟩, fun _ _ => ⟨0, 0, 0, 0⟩⟩) :=
    newImg_eq_some maxAlloc 100 100 40 (by norm_num) (by norm_num) (by norm_num) (by norm_num)
      (by norm_num) (by norm_num) (by norm_num; exact hfit)
  have ex : (⟨0, 0, 140, 140⟩ : Rectangle).Dx = 140 := by decide
  have ey : (⟨0, 0, 140, 140⟩ : Rectangle).Dy = 140 := by decide
  have hB : (whiten ⟨⟨0, 0, 140, 140⟩, fun _ _ => ⟨0, 0, 0, 0⟩⟩).Bounds = ⟨0, 0, 140, 140⟩ := by
    rw [whiten_Bounds]
  have hW : ∀ x y : ℤ, 0 ≤ x → x < 140 → 0 ≤ y → y < 140 →
      (whiten ⟨⟨0, 0, 140, 140⟩, fun _ _ => ⟨0, 0, 0, 0⟩⟩).At x y = ⟨255, 255, 255, 255⟩ := by
    intro x y hx0 hx1 hy0 hy1
    rw [whiten_At]
    dsimp only
    rw [ex, ey]
    have hc : (⟨0, 0, 140, 140⟩ : Rectangle).Contains x y ∧ 0 ≤ x ∧
        x < (((140 : ℤ)).toNat : ℤ) ∧ 0 ≤ y ∧ y < (((140 : ℤ)).toNat : ℤ) :=
      ⟨⟨hx0, hx1, hy0, hy1⟩, hx0, by omega, hy0, by omega⟩
    rw [if_pos hc]
  have hstep : main maxAlloc resize 100 100 40 false [⟨name, some redSquare⟩] =
      some (composite false ⟨255, 0, 0, 255⟩ (resize 40 40 redSquare) 0 100 40 40
        (whiten ⟨⟨0, 0, 140, 140⟩, fun _ _ => ⟨0, 0, 0, 0⟩⟩)) := by
    unfold main
    rw [hnew, List.foldl_cons, List.foldl_nil, Option.some_bind]
    unfold fileStep
    dsimp only
    rw [if_pos hname]
    unfold placeImage
    have hdims : resizeDims redSquare.width redSquare.height 40 = (40, 40) := resizeDims_red
    rw [getAverageColor_red]
    dsimp only
    rw [hsv_red, hdims]
    dsimp only
    rw [placement_red]
    rfl
  refine ⟨_, hstep, ?_, ?_, ?_⟩
  · rw [composite_Bounds, hB]
  · intro x y hx0 hx1 hy0 hy1
    rw [composite_At, hB, hW x y hx0 hx1 hy0 hy1]
    by_cases hin : x < 40 ∧ 100 ≤ y
    · have hrect : (⟨0, 0, 140, 140⟩ : Rectangle).Contains x y ∧ (0 : ℤ) ≤ x ∧
          x < 0 + ((40 : ℤ).toNat : ℤ) ∧ (100 : ℤ) ≤ y ∧ y < 100 + ((40 : ℤ).toNat : ℤ) :=
        ⟨⟨hx0, hx1, hy0, hy1⟩, hx0, by omega, hin.2, by omega⟩
      rw [if_pos hrect, if_pos hin]
      unfold drawn
      rw [hred _ _ (by omega) (by omega)]
      decide
    · have hrect : ¬ ((⟨0, 0, 140, 140⟩ : Rectangle).Contains x y ∧ (0 : ℤ) ≤ x ∧
          x < 0 + ((40 : ℤ).toNat : ℤ) ∧ (100 : ℤ) ≤ y ∧ y < 100 + ((40 : ℤ).toNat : ℤ)) := by
        rintro ⟨_, _, h1, h2, _⟩
        apply hin
        constructor <;> omega
      rw [if_neg hrect, if_neg hin]
  · unfold sortedPng
    rw [composite_Bounds, hB, ex, ey, if_pos (by decide)]

/-- C11, amended. For a source directory holding a single `2 x 2` fully opaque
red picture, with width `100`, height `100`, maxSize `40` and no silhouette, on
a machine that allocates the canvas buffer of `4 * 140 * 140 = 78400` bytes and
with a resampler whose answer to the request `40 x 40` on this picture has the
picture's opaque red at every pixel, the output canvas is `140 x 140` and is
opaque white everywhere except a red `40 x 40` block whose top-left offset is
`(20 + 100 * 0 / 360 - 20, 20 + 100 * 1.0 - 20) = (0, 100)`: the picture is
resized to `40 x 40` before it is placed.  This canvas is what the output file
holds. -/
theorem main_red_square_canvas (maxAlloc : ℤ) (resize : Nat → Nat → Image → Image)
    (hfit : 78400 ≤ maxAlloc)
    (hred : ∀ i j : Nat, i < 40 → j < 40 → (resize 40 40 redSquare).At i j = solid8 255 0 0)
    (name : List Char) (hname : MatchString pngPattern name = true) :
    ∃ cv, main maxAlloc resize 100 100 40 false [⟨name, some redSquare⟩] = some cv ∧
      cv.Bounds = ⟨0, 0, 140, 140⟩ ∧
      (∀ x y : ℤ, 0 ≤ x → x < 140 → 0 ≤ y → y < 140 →
        cv.At x y = if x < 40 ∧ 100 ≤ y then ⟨255, 0, 0, 255⟩ else ⟨255, 255, 255, 255⟩) ∧
      sortedPng cv = some cv :=
  main_red_square maxAlloc resize hfit hred name hname

theorem main_red_square_canvas_witness :
    ∃ cv, main 78400 nearestNeighbor 100 100 40 false
        [⟨['r', '.', 'p', 'n', 'g'], some redSquare⟩] = some cv ∧
      cv.Bounds = ⟨0, 0, 140, 140⟩ ∧ cv.At 39 100 = ⟨255, 0, 0, 255⟩ ∧
      cv.At 40 100 = ⟨255, 255, 255, 255⟩ := by
  obtain ⟨cv, h1, h2, h3, _⟩ := main_red_square_canvas 78400 nearestNeighbor (by decide)
    (fun i j _ _ => nearestNeighbor_red i j) ['r', '.', 'p', 'n', 'g'] (by decide)
  refine ⟨cv, h1, h2, ?_, ?_⟩
  · rw [h3 39 100 (by norm_num) (by norm_num) (by norm_num) (by norm_num)]
    decide
  · rw [h3 40 100 (by norm_num) (by norm_num) (by norm_num) (by norm_num)]
    decide

/-- C11 fails as stated. The canvas pixels `(0, 100)`, `(39, 139)` and
`(19, 118)`, all outside the `2 x 2` block at `(19, 119)`, are red. -/
theorem main_red_square_not_2x2 :
    ∃ cv, main 78400 nearestNeighbor 100 100 40 false
        [⟨['r', '.', 'p', 'n', 'g'], some redSquare⟩] = some cv ∧
      cv.At 0 100 = ⟨255, 0, 0, 255⟩ ∧ cv.At 39 139 = ⟨255, 0, 0, 255⟩ ∧
      cv.At 19 118 = ⟨255, 0, 0, 255⟩ := by
  obtain ⟨cv, h1, _, h3, _⟩ := main_red_square 78400 nearestNeighbor (by decide)
    (fun i j _ _ => nearestNeighbor_red i j) ['r', '.', 'p', 'n', 'g'] (by decide)
  refine ⟨cv, h1, ?_, ?_, ?_⟩
  · rw [h3 0 100 (by norm_num) (by norm_num) (by norm_num) (by norm_num)]
    decide
  · rw [h3 39 139 (by norm_num) (by norm_num) (by norm_num) (by norm_num)]
    decide
  · rw [h3 19 118 (by norm_num) (by norm_num) (by norm_num) (by norm_num)]
    decide

theorem fileStep_filter_witness :
    MatchString pngPattern ['x', 'p', 'n', 'g'] = true :=
  (fileStep_filter nearestNeighbor 100 100 40 false (whiteCanvas 1 1)
    ⟨['x', 'p', 'n', 'g'], none⟩).2.2.2

/-! ## Hue under a uniform scaling of the channels -/

/-- Evaluation of the hue of a colour `(0, G, B)` with `G < B`, from the values
of the successive roundings. -/
theorem hue_blue_max_eval (c : RGBA) (fG fB q s p z : ℚ) (n : ℤ)
    (hR : channel c.R = 0) (hG : channel c.G = fG) (hB : channel c.B = fB)
    (h0 : 0 < fG) (h1 : fG < fB)
    (hq : f64 (-fG / fB) = q) (hs : f64 (q + 4) = s) (hp : f64 (60 * s) = p)
    (hz : f64 (p + 1 / 2) = z) (hn1 : (n : ℚ) ≤ z) (hn2 : z < n + 1) :
    (RGBAtoHSV c).1 = n := by
  have hGd : f64 fG = fG := by
    rw [← hG]
    unfold channel fdiv
    exact f64_idem _
  have hBd : f64 fB = fB := by
    rw [← hB]
    unfold channel fdiv
    exact f64_idem _
  have hmax : chanMax c = fB := by
    unfold chanMax
    rw [hR, hG, hB, max_eq_right (le_of_lt h0), max_eq_right (le_of_lt h1)]
  have hmin : chanMin c = 0 := by
    unfold chanMin
    rw [hR, hG, hB, min_eq_left (le_of_lt h0), min_eq_left (le_of_lt (lt_trans h0 h1))]
  have hd : chanSpread c = fB := by
    unfold chanSpread fsub
    rw [hmax, hmin, sub_zero, hBd]
  have hb := (hue_by_branch c).2.2 (by rw [hd]; linarith) (by rw [hmax, hR]; linarith)
    (by rw [hmax, hG]; linarith) (by rw [hmax, hB])
  rw [hb, hd, hR, hG]
  unfold hueBlue
  have e1 : fsub 0 fG = -fG := by
    unfold fsub
    rw [zero_sub, f64_neg, hGd]
  rw [e1, Round_eq_floor]
  unfold fdiv fadd fmul
  rw [hq, hs, hp, hz, Int.floor_eq_iff]
  exact ⟨hn1, hn2⟩

/-- The hue of the colour `(0, 13, 24)`, rounding by rounding. -/
theorem hue_13_24 : (RGBAtoHSV ⟨0, 13, 24, 255⟩).1 = 208 := by
  have oG : ofInt ((13 : ℕ) : ℤ) = 13 := by
    rw [ofInt_exact _ (by norm_num) (by norm_num)]
    norm_num
  have oB : ofInt ((24 : ℕ) : ℤ) = 24 := by
    rw [ofInt_exact _ (by norm_num) (by norm_num)]
    norm_num
  have eG : f64 (13 / 255) = (7347048803867162 * 2 ^ (-57 : ℤ)) := by
    have h := f64_eval (13 / 255) (-5) (7347048803867162) (by norm_num) (by norm_num [abs_of_pos])
      (by norm_num [abs_of_pos]) (Or.inl (by norm_num [abs_lt]))
    norm_num at h ⊢
    exact h
  have eB : f64 (24 / 255) = (6781891203569688 * 2 ^ (-56 : ℤ)) := by
    have h := f64_eval (24 / 255) (-4) (6781891203569688) (by norm_num) (by norm_num [abs_of_pos])
      (by norm_num [abs_of_pos]) (Or.inl (by norm_num [abs_lt]))
    norm_num at h ⊢
    exact h
  have eq : f64 (-(7347048803867162 * 2 ^ (-57 : ℤ)) / (6781891203569688 * 2 ^ (-56 : ℤ))) = (-4878899596318037 * 2 ^ (-53 : ℤ)) := by
    have h := f64_eval (-(7347048803867162 * 2 ^ (-57 : ℤ)) / (6781891203569688 * 2 ^ (-56 : ℤ))) (-1) (-4878899596318037) (by norm_num) (by norm_num [abs_of_neg])
      (by norm_num [abs_of_neg]) (Or.inl (by norm_num [abs_lt]))
    norm_num at h ⊢
    exact h
  have es : f64 ((-4878899596318037 * 2 ^ (-53 : ℤ)) + 4) = (7787474355661483 * 2 ^ (-51 : ℤ)) := by
    have h := f64_eval ((-4878899596318037 * 2 ^ (-53 : ℤ)) + 4) (1) (7787474355661483) (by norm_num) (by norm_num [abs_of_pos])
      (by norm_num [abs_of_pos]) (Or.inl (by norm_num [abs_lt]))
    norm_num at h ⊢
    exact h
  have ep : f64 (60 * (7787474355661483 * 2 ^ (-51 : ℤ))) = (7300757208432640 * 2 ^ (-45 : ℤ)) := by
    have h := f64_eval (60 * (7787474355661483 * 2 ^ (-51 : ℤ))) (7) (7300757208432640) (by norm_num) (by norm_num [abs_of_pos])
      (by norm_num [abs_of_pos]) (Or.inl (by norm_num [abs_lt]))
    norm_num at h ⊢
    exact h
  have ez : f64 ((7300757208432640 * 2 ^ (-45 : ℤ)) + 1 / 2) = (7318349394477056 * 2 ^ (-45 : ℤ)) := by
    have h := f64_eval ((7300757208432640 * 2 ^ (-45 : ℤ)) + 1 / 2) (7) (7318349394477056) (by norm_num) (by norm_num [abs_of_pos])
      (by norm_num [abs_of_pos]) (Or.inl (by norm_num [abs_lt]))
    norm_num at h ⊢
    exact h
  have hG : channel (⟨0, 13, 24, 255⟩ : RGBA).G = (7347048803867162 * 2 ^ (-57 : ℤ)) := by
    unfold channel fdiv
    dsimp only
    rw [oG, eG]
  have hB : channel (⟨0, 13, 24, 255⟩ : RGBA).B = (6781891203569688 * 2 ^ (-56 : ℤ)) := by
    unfold channel fdiv
    dsimp only
    rw [oB, eB]
  exact hue_blue_max_eval ⟨0, 13, 24, 255⟩ _ _ _ _ _ _ 208 channel_none hG hB (by norm_num)
    (by norm_num) eq es ep ez (by norm_num) (by norm_num)

/-- The hue of the colour `(0, 39, 72)`, rounding by rounding. -/
theorem hue_39_72 : (RGBAtoHSV ⟨0, 39, 72, 255⟩).1 = 207 := by
  have oG : ofInt ((39 : ℕ) : ℤ) = 39 := by
    rw [ofInt_exact _ (by norm_num) (by norm_num)]
    norm_num
  have oB : ofInt ((72 : ℕ) : ℤ) = 72 := by
    rw [ofInt_exact _ (by norm_num) (by norm_num)]
    norm_num
  have eG : f64 (39 / 255) = (5510286602900372 * 2 ^ (-55 : ℤ)) := by
    have h := f64_eval (39 / 255) (-3) (5510286602900372) (by norm_num) (by norm_num [abs_of_pos])
      (by norm_num [abs_of_pos]) (Or.inl (by norm_num [abs_lt]))
    norm_num at h ⊢
    exact h
  have eB : f64 (72 / 255) = (5086418402677266 * 2 ^ (-54 : ℤ)) := by
    have h := f64_eval (72 / 255) (-2) (5086418402677266) (by norm_num) (by norm_num [abs_of_pos])
      (by norm_num [abs_of_pos]) (Or.inl (by norm_num [abs_lt]))
    norm_num at h ⊢
    exact h
  have eq : f64 (-(5510286602900372 * 2 ^ (-55 : ℤ)) / (5086418402677266 * 2 ^ (-54 : ℤ))) = (-4878899596318038 * 2 ^ (-53 : ℤ)) := by
    have h := f64_eval (-(5510286602900372 * 2 ^ (-55 : ℤ)) / (5086418402677266 * 2 ^ (-54 : ℤ))) (-1) (-4878899596318038) (by norm_num) (by norm_num [abs_of_neg])
      (by norm_num [abs_of_neg]) (Or.inl (by norm_num [abs_lt]))
    norm_num at h ⊢
    exact h
  have es : f64 ((-4878899596318038 * 2 ^ (-53 : ℤ)) + 4) = (7787474355661482 * 2 ^ (-51 : ℤ)) := by
    have h := f64_eval ((-4878899596318038 * 2 ^ (-53 : ℤ)) + 4) (1) (7787474355661482) (by norm_num) (by norm_num [abs_of_pos])
      (by norm_num [abs_of_pos]) (Or.inr ⟨by norm_num [abs_of_pos], by norm_num⟩)
    norm_num at h ⊢
    exact h
  have ep : f64 (60 * (7787474355661482 * 2 ^ (-51 : ℤ))) = (7300757208432639 * 2 ^ (-45 : ℤ)) := by
    have h := f64_eval (60 * (7787474355661482 * 2 ^ (-51 : ℤ))) (7) (7300757208432639) (by norm_num) (by norm_num [abs_of_pos])
      (by norm_num [abs_of_pos]) (Or.inl (by norm_num [abs_lt]))
    norm_num at h ⊢
    exact h
  have ez : f64 ((7300757208432639 * 2 ^ (-45 : ℤ)) + 1 / 2) = (7318349394477055 * 2 ^ (-45 : ℤ)) := by
    have h := f64_eval ((7300757208432639 * 2 ^ (-45 : ℤ)) + 1 / 2) (7) (7318349394477055) (by norm_num) (by norm_num [abs_of_pos])
      (by norm_num [abs_of_pos]) (Or.inl (by norm_num [abs_lt]))
    norm_num at h ⊢
    exact h
  have hG : channel (⟨0, 39, 72, 255⟩ : RGBA).G = (5510286602900372 * 2 ^ (-55 : ℤ)) := by
    unfold channel fdiv
    dsimp only
    rw [oG, eG]
  have hB : channel (⟨0, 39, 72, 255⟩ : RGBA).B = (5086418402677266 * 2 ^ (-54 : ℤ)) := by
    unfold channel fdiv
    dsimp only
    rw [oB, eB]
  exact hue_blue_max_eval ⟨0, 39, 72, 255⟩ _ _ _ _ _ _ 207 channel_none hG hB (by norm_num)
    (by norm_num) eq es ep ez (by norm_num) (by norm_num)

/-- C12 fails as stated. The colour `(0, 13, 24)` has hue `208` and its triple
`(0, 39, 72)` has hue `207`: the exact hue of both colours is `207.5`, and the
roundings of `39/255` and `72/255` put the quotient one unit in the last place
lower than those of `13/255` and `24/255`. -/
theorem hue_scaling_diverges :
    3 * max (max 0 13) 24 ≤ 255 ∧ (RGBAtoHSV ⟨0, 13, 24, 255⟩).1 = 208 ∧
      (RGBAtoHSV ⟨3 * 0, 3 * 13, 3 * 24, 255⟩).1 = 207 :=
  ⟨by norm_num, hue_13_24, hue_39_72⟩

theorem composite_last_write_witness :
    (composite false ⟨1, 2, 3, 255⟩ (singlePixel (solid8 9 8 7)) 0 0 1 1
      (composite false ⟨200, 100, 7, 255⟩ (singlePixel (solid8 200 100 7)) 0 0 1 1
        (whiteCanvas 1 1))).At (0 + ((0 : ℕ) : ℤ)) (0 + ((0 : ℕ) : ℤ)) =
      if false = true ∧ ((singlePixel (solid8 9 8 7)).At 0 0).a = 65535 then ⟨1, 2, 3, 255⟩
      else toRGBA ((singlePixel (solid8 9 8 7)).At 0 0) :=
  (composite_last_write false false ⟨200, 100, 7, 255⟩ ⟨1, 2, 3, 255⟩
    (singlePixel (solid8 200 100 7)) (singlePixel (solid8 9 8 7)) 0 0 1 1 0 0 1 1
    (whiteCanvas 1 1)).1 0 0 (by decide) (by decide) (by decide!) (by decide)

/-! ## Error analysis of the hue branches -/

/-- Absolute error of a rounding: half a unit in the last place of the binade
that bounds the argument. -/
theorem f64_abs_err (x : ℚ) (e : ℤ) (he : -1022 ≤ e) (hx : |x| < 2 ^ (e + 1)) :
    |f64 x - x| ≤ 2 ^ (e - 53) := by
  by_cases h0 : x = 0
  · subst h0
    rw [f64_zero]
    simp only [sub_zero, abs_zero]
    positivity
  have hpos : 0 < |x| := abs_pos.mpr h0
  have hlog : Int.log 2 |x| ≤ e := by
    have h1 := two_zpow_le_abs hpos
    have h2 : (2 : ℚ) ^ Int.log 2 |x| < 2 ^ (e + 1) := lt_of_le_of_lt h1 hx
    have h3 := (zpow_lt_zpow_iff_right₀ (by norm_num : (1 : ℚ) < 2)).mp h2
    omega
  have hu : ulpExp x ≤ e - 52 := by
    unfold ulpExp
    have := max_le hlog he
    omega
  have hu2 : (2 : ℚ) ^ ulpExp x ≤ 2 ^ (e - 52) := zpow_le_zpow_right₀ (by norm_num) hu
  have hp : (0 : ℚ) < 2 ^ ulpExp x := by positivity
  have hle : |x / 2 ^ ulpExp x - roundEven (x / 2 ^ ulpExp x)| ≤ 1 / 2 := by
    rcases roundEven_spec (x / 2 ^ ulpExp x) with h | ⟨h, _⟩
    · exact h.le
    · exact h.le
  have hrew : f64 x - x = -(x / 2 ^ ulpExp x - roundEven (x / 2 ^ ulpExp x)) * 2 ^ ulpExp x := by
    unfold f64
    field_simp
    ring
  rw [hrew, abs_mul, abs_neg, abs_of_pos hp]
  calc |x / 2 ^ ulpExp x - roundEven (x / 2 ^ ulpExp x)| * 2 ^ ulpExp x
      ≤ 1 / 2 * 2 ^ (e - 52) := mul_le_mul hle hu2 hp.le (by norm_num)
    _ = 2 ^ (e - 53) := by
      rw [show e - 52 = (e - 53) + 1 by ring, zpow_add₀ (by norm_num : (2 : ℚ) ≠ 0), zpow_one]
      ring

/-- A channel is within `2 ^ (-53)` of the exact quotient. -/
theorem channel_err (n : Nat) (hn : n ≤ 255) : |channel n - (n : ℚ) / 255| ≤ 2 ^ (-53 : ℤ) := by
  have ho : ofInt ((n : ℕ) : ℤ) = (n : ℚ) := by
    rw [ofInt_exact _ (by have := Int.natCast_nonneg n; linarith)
      (by have : (n : ℤ) ≤ 255 := by exact_mod_cast hn
          linarith)]
    norm_cast
  unfold channel fdiv
  rw [ho]
  have hx : |(n : ℚ) / 255| < 2 ^ ((0 : ℤ) + 1) := by
    have h1 : (0 : ℚ) ≤ (n : ℚ) / 255 := by positivity
    have h2 : (n : ℚ) ≤ 255 := by exact_mod_cast hn
    rw [abs_of_nonneg h1]
    norm_num
    linarith
  have := f64_abs_err ((n : ℚ) / 255) 0 (by norm_num) hx
  simpa using this

/-- The channels grow with the 8-bit sample. -/
theorem channel_mono : Monotone channel := by
  intro m n h
  unfold channel fdiv ofInt
  apply f64_mono
  have h1 : f64 ((m : ℤ) : ℚ) ≤ f64 ((n : ℤ) : ℚ) := f64_mono (by exact_mod_cast h)
  linarith

theorem chanMax_eq (c : RGBA) : chanMax c = channel (max (max c.R c.G) c.B) := by
  unfold chanMax
  rw [channel_mono.map_max, channel_mono.map_max]

theorem chanMin_eq (c : RGBA) : chanMin c = channel (min (min c.R c.G) c.B) := by
  unfold chanMin
  rw [channel_mono.map_min, channel_mono.map_min]

/-- Distinct 8-bit samples have distinct channels. -/
theorem channel_inj (m n : Nat) (hm : m ≤ 255) (hn : n ≤ 255) (h : channel m = channel n) :
    m = n := by
  have h1 := abs_le.mp (channel_err m hm)
  have h2 := abs_le.mp (channel_err n hn)
  have hu : (2 : ℚ) ^ (-53 : ℤ) < 1 / 1000 := by norm_num
  rw [h] at h1
  have h3 : ((m : ℚ) - n) < 1 := by linarith
  have h4 : ((n : ℚ) - m) < 1 := by linarith
  have h5 : ((m : ℤ) : ℚ) - ((n : ℤ) : ℚ) < 1 := by push_cast; linarith
  have h6 : ((n : ℤ) : ℚ) - ((m : ℤ) : ℚ) < 1 := by push_cast; linarith
  have h7 : (m : ℤ) - n < 1 := by exact_mod_cast h5
  have h8 : (n : ℤ) - m < 1 := by exact_mod_cast h6
  omega

/-- Error of the quotient of two approximated differences of channels. -/
theorem quotient_err (t d T D ε : ℚ) (hD : 1 ≤ D) (hT : |T| ≤ D) (hε : 0 ≤ ε)
    (hε1 : ε ≤ 1 / 65280) (ht : |t - T / 255| ≤ ε) (hd : |d - D / 255| ≤ ε) :
    1 / 256 ≤ d ∧ |t / d - T / D| ≤ 512 * ε := by
  have ht1 := abs_le.mp ht
  have hd1 := abs_le.mp hd
  have hT1 := abs_le.mp hT
  have hd0 : 1 / 256 ≤ d := by linarith
  have hdpos : 0 < d := by linarith
  have hDpos : 0 < D := by linarith
  refine ⟨hd0, ?_⟩
  have hrew : t / d - T / D = ((t - T / 255) * D - T * (d - D / 255)) / (d * D) := by
    field_simp
    ring
  have hden : 0 < d * D := mul_pos hdpos hDpos
  have hnum : |(t - T / 255) * D - T * (d - D / 255)| ≤ 2 * ε * D := by
    have h1 : |(t - T / 255) * D| ≤ ε * D := by
      rw [abs_mul, abs_of_pos hDpos]
      exact mul_le_mul_of_nonneg_right ht hDpos.le
    have h2 : |T * (d - D / 255)| ≤ D * ε := by
      rw [abs_mul]
      exact mul_le_mul hT hd (abs_nonneg _) hDpos.le
    have h3 := abs_sub ((t - T / 255) * D) (T * (d - D / 255))
    linarith
  have hbig : 2 * ε * D ≤ 512 * ε * (d * D) := by
    have h1 : 0 ≤ ε * D := mul_nonneg hε hDpos.le
    have h2 : 0 ≤ ε * D * (d - 1 / 256) := mul_nonneg h1 (by linarith)
    nlinarith
  rw [hrew, abs_div, abs_of_pos hden, div_le_iff₀ hden]
  linarith

theorem f64_err_two (x : ℚ) (hx : |x| < 2) : |f64 x - x| ≤ 2 ^ (-53 : ℤ) := by
  have h := f64_abs_err x 0 (by norm_num) (by simpa using hx)
  simpa using h

theorem f64_err_eight (x : ℚ) (hx : |x| < 8) : |f64 x - x| ≤ 4 * 2 ^ (-53 : ℤ) := by
  have h := f64_abs_err x 2 (by norm_num) (by norm_num; exact hx)
  have h2 : (2 : ℚ) ^ ((2 : ℤ) - 53) = 4 * 2 ^ (-53 : ℤ) := by norm_num
  rw [h2] at h
  exact h

theorem f64_err_512 (x : ℚ) (hx : |x| < 512) : |f64 x - x| ≤ 256 * 2 ^ (-53 : ℤ) := by
  have h := f64_abs_err x 8 (by norm_num) (by norm_num; exact hx)
  have h2 : (2 : ℚ) ^ ((8 : ℤ) - 53) = 256 * 2 ^ (-53 : ℤ) := by norm_num
  rw [h2] at h
  exact h

/-- The value handed to `math.Floor` by a hue branch is within `2 ^ (-36)` of
the exact `60 * ((X - Y) / (M - m) + off) + 1 / 2`. -/
theorem hue_branch_err (X Y M m : Nat) (off : ℚ) (hM : M ≤ 255) (hXM : X ≤ M) (hYM : Y ≤ M)
    (hmX : m ≤ X) (hmY : m ≤ Y) (hlt : m < M) (ho0 : 0 ≤ off) (ho6 : off ≤ 6) :
    fsub (channel M) (channel m) ≠ 0 ∧ |((X : ℚ) - Y) / ((M : ℚ) - m)| ≤ 1 ∧
    |fadd (fmul 60 (fadd (fdiv (fsub (channel X) (channel Y))
        (fsub (channel M) (channel m))) off)) (1 / 2) -
      (60 * (((X : ℚ) - Y) / ((M : ℚ) - m) + off) + 1 / 2)| ≤ 2 ^ (-36 : ℤ) := by
  obtain ⟨u, hu⟩ : ∃ u : ℚ, u = 2 ^ (-53 : ℤ) := ⟨_, rfl⟩
  have hu0 : 0 ≤ u := by rw [hu]; positivity
  have hu1 : u ≤ 1 / 1000000000000000 := by rw [hu]; norm_num
  have hu36 : (2 : ℚ) ^ (-36 : ℤ) = 131072 * u := by rw [hu]; norm_num
  have e2 : ∀ x : ℚ, |x| < 2 → |f64 x - x| ≤ u := by
    intro x hx
    rw [hu]
    exact f64_err_two x hx
  have e8 : ∀ x : ℚ, |x| < 8 → |f64 x - x| ≤ 4 * u := by
    intro x hx
    rw [hu]
    exact f64_err_eight x hx
  have e512 : ∀ x : ℚ, |x| < 512 → |f64 x - x| ≤ 256 * u := by
    intro x hx
    rw [hu]
    exact f64_err_512 x hx
  have cX := abs_le.mp (channel_err X (by omega))
  have cY := abs_le.mp (channel_err Y (by omega))
  have cM := abs_le.mp (channel_err M hM)
  have cm := abs_le.mp (channel_err m (by omega))
  rw [← hu] at cX cY cM cm
  have hX0 : (0 : ℚ) ≤ X := Nat.cast_nonneg X
  have hY0 : (0 : ℚ) ≤ Y := Nat.cast_nonneg Y
  have hm0 : (0 : ℚ) ≤ m := Nat.cast_nonneg m
  have hM1 : (M : ℚ) ≤ 255 := by exact_mod_cast hM
  have hXM1 : (X : ℚ) ≤ M := by exact_mod_cast hXM
  have hYM1 : (Y : ℚ) ≤ M := by exact_mod_cast hYM
  have hmX1 : (m : ℚ) ≤ X := by exact_mod_cast hmX
  have hmY1 : (m : ℚ) ≤ Y := by exact_mod_cast hmY
  have hlt1 : (m : ℚ) + 1 ≤ M := by exact_mod_cast hlt
  generalize channel X = fX at cX ⊢
  generalize channel Y = fY at cY ⊢
  generalize channel M = fM at cM ⊢
  generalize channel m = fm at cm ⊢
  have ht : |fsub fX fY - ((X : ℚ) - Y) / 255| ≤ 3 * u := by
    have h1 := abs_le.mp (e2 (fX - fY) (by rw [abs_lt]; constructor <;> linarith))
    unfold fsub
    rw [abs_le]
    constructor <;> linarith
  have hd : |fsub fM fm - ((M : ℚ) - m) / 255| ≤ 3 * u := by
    have h1 := abs_le.mp (e2 (fM - fm) (by rw [abs_lt]; constructor <;> linarith))
    unfold fsub
    rw [abs_le]
    constructor <;> linarith
  have hTD : |(X : ℚ) - Y| ≤ (M : ℚ) - m := by
    rw [abs_le]
    constructor <;> linarith
  obtain ⟨hdpos, hq⟩ := quotient_err (fsub fX fY) (fsub fM fm) ((X : ℚ) - Y) ((M : ℚ) - m)
    (3 * u) (by linarith) hTD (by linarith) (by linarith) ht hd
  have hDpos : (0 : ℚ) < (M : ℚ) - m := by linarith
  have hr : |((X : ℚ) - Y) / ((M : ℚ) - m)| ≤ 1 := by
    rw [abs_div, abs_of_pos hDpos]
    exact (div_le_one hDpos).mpr hTD
  refine ⟨by linarith, hr, ?_⟩
  generalize ((X : ℚ) - Y) / ((M : ℚ) - m) = r at hq hr ⊢
  generalize fsub fX fY = t at hq ⊢
  generalize fsub fM fm = d at hq hdpos ⊢
  have hr1 := abs_le.mp hr
  have hq0 := abs_le.mp hq
  have h1 := abs_le.mp (e2 (t / d) (by rw [abs_lt]; constructor <;> linarith))
  unfold fdiv
  generalize f64 (t / d) = q at h1 ⊢
  have h2 := abs_le.mp (e8 (q + off) (by rw [abs_lt]; constructor <;> linarith))
  unfold fadd
  generalize f64 (q + off) = s at h2 ⊢
  have h3 := abs_le.mp (e512 (60 * s) (by rw [abs_lt]; constructor <;> linarith))
  unfold fmul
  generalize f64 (60 * s) = p at h3 ⊢
  have h4 := abs_le.mp (e512 (p + 1 / 2) (by rw [abs_lt]; constructor <;> linarith))
  generalize f64 (p + 1 / 2) = z at h4 ⊢
  rw [hu36, abs_le]
  constructor <;> linarith

/-- Floors of two numbers that are within a quarter of the same value differ by
at most one. -/
theorem floor_near (z1 z2 w ε : ℚ) (hε : ε ≤ 1 / 4) (h1 : |z1 - w| ≤ ε) (h2 : |z2 - w| ≤ ε) :
    ⌊z2⌋ = ⌊z1⌋ ∨ ⌊z2⌋ = ⌊z1⌋ + 1 ∨ ⌊z1⌋ = ⌊z2⌋ + 1 := by
  have a1 := abs_le.mp h1
  have a2 := abs_le.mp h2
  have f1 := Int.floor_le z1
  have g1 := Int.lt_floor_add_one z1
  have f2 := Int.floor_le z2
  have g2 := Int.lt_floor_add_one z2
  have h3 : ((⌊z1⌋ : ℤ) : ℚ) < ((⌊z2⌋ + 2 : ℤ) : ℚ) := by
    push_cast
    linarith
  have h4 : ((⌊z2⌋ : ℤ) : ℚ) < ((⌊z1⌋ + 2 : ℤ) : ℚ) := by
    push_cast
    linarith
  have h5 : ⌊z1⌋ < ⌊z2⌋ + 2 := by exact_mod_cast h3
  have h6 : ⌊z2⌋ < ⌊z1⌋ + 2 := by exact_mod_cast h4
  omega

/-- A number close to a fraction of small denominator that is not an integer has
the floor of that fraction. -/
theorem floor_away (z w ε : ℚ) (N : Nat) (a : ℤ) (hN : 1 ≤ N) (hw : w * N = a)
    (hne : ∀ n : ℤ, w ≠ n) (hε : ε * N < 1) (h : |z - w| ≤ ε) : ⌊z⌋ = ⌊w⌋ := by
  have hNpos : (0 : ℚ) < N := by exact_mod_cast hN
  have a1 := abs_le.mp h
  have f1 := Int.floor_le w
  have g1 := Int.lt_floor_add_one w
  have hlo : (0 : ℚ) < w - ⌊w⌋ := by
    rcases lt_or_eq_of_le f1 with h1 | h1
    · linarith
    · exact absurd h1.symm (hne ⌊w⌋)
  have hlo1 : (1 : ℚ) ≤ (w - ⌊w⌋) * N := by
    have h1 : (0 : ℚ) < ((a - ⌊w⌋ * N : ℤ) : ℚ) := by
      push_cast
      rw [← hw]
      nlinarith
    have h2 : 0 < a - ⌊w⌋ * N := by exact_mod_cast h1
    have h3 : (1 : ℤ) ≤ a - ⌊w⌋ * N := h2
    have h4 : ((1 : ℤ) : ℚ) ≤ ((a - ⌊w⌋ * N : ℤ) : ℚ) := by exact_mod_cast h3
    push_cast at h4
    rw [← hw] at h4
    linarith
  have hhi1 : (1 : ℚ) ≤ (⌊w⌋ + 1 - w) * N := by
    have h1 : (0 : ℚ) < (((⌊w⌋ + 1) * N - a : ℤ) : ℚ) := by
      push_cast
      rw [← hw]
      nlinarith
    have h2 : 0 < (⌊w⌋ + 1) * N - a := by exact_mod_cast h1
    have h3 : (1 : ℤ) ≤ (⌊w⌋ + 1) * N - a := h2
    have h4 : ((1 : ℤ) : ℚ) ≤ (((⌊w⌋ + 1) * N - a : ℤ) : ℚ) := by exact_mod_cast h3
    push_cast at h4
    rw [← hw] at h4
    linarith
  rw [Int.floor_eq_iff]
  constructor
  · have : ε * N < (w - ⌊w⌋) * N := by linarith
    have := lt_of_mul_lt_mul_right this hNpos.le
    linarith
  · have : ε * N < (⌊w⌋ + 1 - w) * N := by linarith
    have := lt_of_mul_lt_mul_right this hNpos.le
    linarith

/-- The exact formula by cases on the integer samples. -/
theorem hueExact_cases (c : RGBA) (M m : Nat) (hM : M = max (max c.R c.G) c.B)
    (hm : m = min (min c.R c.G) c.B) :
    (m = M → hueExact c = 0) ∧
    (m < M → c.R = M → hueExact c = 60 * (((c.G : ℚ) - c.B) / ((M : ℚ) - m) + 6)) ∧
    (m < M → c.R ≠ M → c.G = M →
      hueExact c = 60 * (((c.B : ℚ) - c.R) / ((M : ℚ) - m) + 2)) ∧
    (m < M → c.R ≠ M → c.G ≠ M →
      hueExact c = 60 * (((c.R : ℚ) - c.G) / ((M : ℚ) - m) + 4)) := by
  have hmx : max (max ((c.R : ℚ) / 255) ((c.G : ℚ) / 255)) ((c.B : ℚ) / 255) = (M : ℚ) / 255 := by
    rw [hM]
    push_cast
    rw [max_div_div_right (by norm_num), max_div_div_right (by norm_num)]
  have hmn : min (min ((c.R : ℚ) / 255) ((c.G : ℚ) / 255)) ((c.B : ℚ) / 255) = (m : ℚ) / 255 := by
    rw [hm]
    push_cast
    rw [min_div_div_right (by norm_num), min_div_div_right (by norm_num)]
  have hd : ∀ x y : ℚ, (x / 255 - y / 255) / ((M : ℚ) / 255 - (m : ℚ) / 255) =
      (x - y) / ((M : ℚ) - m) := by
    intro x y
    rw [← sub_div, ← sub_div, div_div_div_cancel_right₀ (by norm_num)]
  have hq : ∀ x y : Nat, ((x : ℚ) / 255 = (y : ℚ) / 255) ↔ x = y := by
    intro x y
    rw [div_left_inj' (by norm_num)]
    exact Nat.cast_inj
  have hz : ((M : ℚ) / 255 - (m : ℚ) / 255 ≠ 0) ↔ m ≠ M := by
    rw [sub_ne_zero, Ne, hq]
    exact ⟨fun h h2 => h h2.symm, fun h h2 => h h2.symm⟩
  have hBM : c.R ≠ M → c.G ≠ M → c.B = M := by
    intro h1 h2
    rw [hM] at h1 h2 ⊢
    omega
  unfold hueExact
  dsimp only
  rw [hmx, hmn]
  refine ⟨?_, ?_, ?_, ?_⟩
  · intro h
    rw [if_neg (by rw [hz]; exact fun h2 => h2 h)]
  · intro h h1
    rw [if_pos (hz.mpr (by omega)), if_pos ((hq M c.R).mpr h1.symm), hd]
  · intro h h1 h2
    rw [if_pos (hz.mpr (by omega)), if_neg (fun h3 => h1 ((hq M c.R).mp h3).symm),
      if_pos ((hq M c.G).mpr h2.symm), hd]
  · intro h h1 h2
    rw [if_pos (hz.mpr (by omega)), if_neg (fun h3 => h1 ((hq M c.R).mp h3).symm),
      if_neg (fun h3 => h2 ((hq M c.G).mp h3).symm),
      if_pos ((hq M c.B).mpr (hBM h1 h2).symm), hd]

/-- The hue returned by `RGBAtoHSV` is the floor, reduced modulo `360`, of a
number within `2 ^ (-36)` of the exact formula plus one half. -/
theorem hue_near (c : RGBA) (hR : c.R ≤ 255) (hG : c.G ≤ 255) (hB : c.B ≤ 255) :
    ∃ z : ℚ, (RGBAtoHSV c).1 = ⌊z⌋ % 360 ∧ |z - (hueExact c + 1 / 2)| ≤ 2 ^ (-36 : ℤ) := by
  obtain ⟨M, hM⟩ : ∃ M, M = max (max c.R c.G) c.B := ⟨_, rfl⟩
  obtain ⟨m, hm⟩ : ∃ m, m = min (min c.R c.G) c.B := ⟨_, rfl⟩
  have hM255 : M ≤ 255 := by omega
  obtain ⟨e0, e1, e2, e3⟩ := hueExact_cases c M m hM hm
  obtain ⟨b1, b2, b3⟩ := hue_by_branch c
  have hmax : chanMax c = channel M := by rw [chanMax_eq, hM]
  have hmin : chanMin c = channel m := by rw [chanMin_eq, hm]
  have hsp : chanSpread c = fsub (channel M) (channel m) := by
    unfold chanSpread
    rw [hmax, hmin]
  have hu : (2 : ℚ) ^ (-36 : ℤ) ≤ 1 / 1000 := by norm_num
  have hinj : ∀ x : Nat, x ≤ 255 → x ≠ M → chanMax c ≠ channel x := by
    intro x hx hne h
    rw [hmax] at h
    exact hne (channel_inj M x hM255 hx h).symm
  rcases Nat.eq_or_lt_of_le (show m ≤ M by omega) with h | h
  · refine ⟨1 / 2, ?_, ?_⟩
    · have hz : chanSpread c = 0 := by
        rw [hsp, h]
        unfold fsub
        rw [sub_self, f64_zero]
      have hz2 : ¬ (chanSpread c ≠ 0) := fun h2 => h2 hz
      unfold chanSpread chanMax chanMin channel at hz2
      unfold RGBAtoHSV
      dsimp only
      rw [if_neg hz2]
      norm_num
    · rw [e0 h]
      norm_num
  · by_cases hr : c.R = M
    · obtain ⟨hd, hq, herr⟩ := hue_branch_err c.G c.B M m 6 hM255 (by omega) (by omega)
        (by omega) (by omega) h (by norm_num) (by norm_num)
      refine ⟨_, ?_, by rw [e1 h hr]; exact herr⟩
      rw [b1 (by rw [hsp]; exact hd) (by rw [hmax, hr])]
      unfold hueRed
      rw [hsp, Round_eq_floor]
      apply Int.tmod_eq_emod _ (by norm_num)
      apply Int.floor_nonneg.mpr
      have h1 := abs_le.mp herr
      have h2 := abs_le.mp hq
      linarith
    · by_cases hg : c.G = M
      · obtain ⟨hd, hq, herr⟩ := hue_branch_err c.B c.R M m 2 hM255 (by omega) (by omega)
          (by omega) (by omega) h (by norm_num) (by norm_num)
        refine ⟨_, ?_, by rw [e2 h hr hg]; exact herr⟩
        rw [b2 (by rw [hsp]; exact hd) (hinj c.R hR hr) (by rw [hmax, hg])]
        unfold hueGreen
        rw [hsp, Round_eq_floor]
        have h1 := abs_le.mp herr
        have h2 := abs_le.mp hq
        symm
        apply Int.emod_eq_of_lt
        · apply Int.floor_nonneg.mpr
          linarith
        · rw [Int.floor_lt]
          push_cast
          linarith
      · have hb : c.B = M := by omega
        obtain ⟨hd, hq, herr⟩ := hue_branch_err c.R c.G M m 4 hM255 (by omega) (by omega)
          (by omega) (by omega) h (by norm_num) (by norm_num)
        refine ⟨_, ?_, by rw [e3 h hr hg]; exact herr⟩
        rw [b3 (by rw [hsp]; exact hd) (hinj c.R hR hr) (hinj c.G hG hg) (by rw [hmax, hb])]
        unfold hueBlue
        rw [hsp, Round_eq_floor]
        have h1 := abs_le.mp herr
        have h2 := abs_le.mp hq
        symm
        apply Int.emod_eq_of_lt
        · apply Int.floor_nonneg.mpr
          linarith
        · rw [Int.floor_lt]
          push_cast
          linarith

/-- The exact formula does not change under a uniform scaling of the samples. -/
theorem hueExact_scale (c : RGBA) (k : Nat) (hk : 1 ≤ k) (A : Nat) :
    hueExact ⟨k * c.R, k * c.G, k * c.B, A⟩ = hueExact c := by
  obtain ⟨e0, e1, e2, e3⟩ := hueExact_cases c _ _ rfl rfl
  obtain ⟨s0, s1, s2, s3⟩ := hueExact_cases ⟨k * c.R, k * c.G, k * c.B, A⟩
    (k * max (max c.R c.G) c.B) (k * min (min c.R c.G) c.B)
    (by rw [← Nat.mul_max_mul_left, ← Nat.mul_max_mul_left])
    (by rw [← Nat.mul_min_mul_left, ← Nat.mul_min_mul_left])
  dsimp only at s0 s1 s2 s3
  have hk0 : (k : ℚ) ≠ 0 := by
    have : (1 : ℚ) ≤ k := by exact_mod_cast hk
    linarith
  have hratio : ∀ x y M m : Nat, (((k * x : Nat) : ℚ) - ((k * y : Nat) : ℚ)) /
      (((k * M : Nat) : ℚ) - ((k * m : Nat) : ℚ)) = ((x : ℚ) - y) / ((M : ℚ) - m) := by
    intro x y M m
    push_cast
    rw [← mul_sub, ← mul_sub, mul_div_mul_left _ _ hk0]
  have hkpos : 0 < k := hk
  have hlt : ∀ a b : Nat, a < b → k * a < k * b := fun a b h => Nat.mul_lt_mul_of_pos_left h hkpos
  have hne : ∀ a b : Nat, a ≠ b → k * a ≠ k * b :=
    fun a b h h2 => h (Nat.eq_of_mul_eq_mul_left hkpos h2)
  rcases Nat.eq_or_lt_of_le (show min (min c.R c.G) c.B ≤ max (max c.R c.G) c.B by omega)
    with h | h
  · rw [e0 h, s0 (by rw [h])]
  · by_cases hr : c.R = max (max c.R c.G) c.B
    · rw [e1 h hr, s1 (hlt _ _ h) (congrArg (k * ·) hr), hratio]
    · by_cases hg : c.G = max (max c.R c.G) c.B
      · rw [e2 h hr hg, s2 (hlt _ _ h) (hne _ _ hr) (congrArg (k * ·) hg), hratio]
      · rw [e3 h hr hg, s3 (hlt _ _ h) (hne _ _ hr) (hne _ _ hg), hratio]

/-- The exact formula plus one half is a fraction of denominator at most `510`. -/
theorem hueExact_den (c : RGBA) (hR : c.R ≤ 255) (hG : c.G ≤ 255) (hB : c.B ≤ 255) :
    ∃ (N : Nat) (a : ℤ), 1 ≤ N ∧ N ≤ 510 ∧ (hueExact c + 1 / 2) * N = a := by
  obtain ⟨M, hM⟩ : ∃ M, M = max (max c.R c.G) c.B := ⟨_, rfl⟩
  obtain ⟨m, hm⟩ : ∃ m, m = min (min c.R c.G) c.B := ⟨_, rfl⟩
  have hM255 : M ≤ 255 := by omega
  obtain ⟨e0, e1, e2, e3⟩ := hueExact_cases c M m hM hm
  rcases Nat.eq_or_lt_of_le (show m ≤ M by omega) with h | h
  · refine ⟨2, 1, by norm_num, by norm_num, ?_⟩
    rw [e0 h]
    norm_num
  · have hD : ((M - m : Nat) : ℚ) = (M : ℚ) - m := Nat.cast_sub h.le
    have hDpos : (0 : ℚ) < (M : ℚ) - m := by
      have : (m : ℚ) < M := by exact_mod_cast h
      linarith
    have hgen : ∀ (x y : Nat) (off : ℤ),
        (60 * (((x : ℚ) - y) / ((M : ℚ) - m) + off) + 1 / 2) * ((2 * (M - m) : Nat) : ℚ) =
          ((120 * ((x : ℤ) - y) + (120 * off + 1) * ((M : ℤ) - m) : ℤ) : ℚ) := by
      intro x y off
      push_cast
      rw [hD]
      field_simp
      ring
    by_cases hr : c.R = M
    · refine ⟨2 * (M - m), 120 * ((c.G : ℤ) - c.B) + (120 * 6 + 1) * ((M : ℤ) - m),
        by omega, by omega, ?_⟩
      rw [e1 h hr]
      exact hgen c.G c.B 6
    · by_cases hg : c.G = M
      · refine ⟨2 * (M - m), 120 * ((c.B : ℤ) - c.R) + (120 * 2 + 1) * ((M : ℤ) - m),
        by omega, by omega, ?_⟩
        rw [e2 h hr hg]
        exact hgen c.B c.R 2
      · refine ⟨2 * (M - m), 120 * ((c.R : ℤ) - c.G) + (120 * 4 + 1) * ((M : ℤ) - m),
        by omega, by omega, ?_⟩
        rw [e3 h hr hg]
        exact hgen c.R c.G 4

/-- C12, amended. For every 8-bit colour `(R, G, B)` and every `k ≥ 1` with
`k * R, k * G, k * B ≤ 255`, the hue returned for `(k * R, k * G, k * B)` is the
hue returned for `(R, G, B)` or a neighbouring degree on the hue circle; the two
hues are equal, and are the exact formula rounded half up and reduced modulo
`360`, whenever the exact formula is not an integer plus one half. -/
theorem hue_scaling_adjacent (c : RGBA) (k : Nat) (hk : 1 ≤ k) (hR : k * c.R ≤ 255)
    (hG : k * c.G ≤ 255) (hB : k * c.B ≤ 255) :
    ((RGBAtoHSV ⟨k * c.R, k * c.G, k * c.B, c.A⟩).1 = (RGBAtoHSV c).1 ∨
      ((RGBAtoHSV ⟨k * c.R, k * c.G, k * c.B, c.A⟩).1 - (RGBAtoHSV c).1) % 360 = 1 ∨
      ((RGBAtoHSV c).1 - (RGBAtoHSV ⟨k * c.R, k * c.G, k * c.B, c.A⟩).1) % 360 = 1) ∧
    ((∀ n : ℤ, hueExact c ≠ n + 1 / 2) →
      (RGBAtoHSV ⟨k * c.R, k * c.G, k * c.B, c.A⟩).1 = (RGBAtoHSV c).1 ∧
      (RGBAtoHSV c).1 = ⌊hueExact c + 1 / 2⌋ % 360) := by
  have hle : ∀ x : Nat, k * x ≤ 255 → x ≤ 255 := by
    intro x hx
    have : 1 * x ≤ k * x := Nat.mul_le_mul_right x hk
    omega
  obtain ⟨z, hz, herr⟩ := hue_near c (hle _ hR) (hle _ hG) (hle _ hB)
  obtain ⟨z2, hz2, herr2⟩ := hue_near ⟨k * c.R, k * c.G, k * c.B, c.A⟩ hR hG hB
  rw [hueExact_scale c k hk] at herr2
  have hu : (2 : ℚ) ^ (-36 : ℤ) ≤ 1 / 4 := by norm_num
  constructor
  · rw [hz, hz2]
    rcases floor_near z z2 _ _ hu herr herr2 with h | h | h
    · left
      rw [h]
    · right
      left
      rw [h]
      omega
    · right
      right
      rw [h]
      omega
  · intro hne
    obtain ⟨N, a, hN1, hN2, hNa⟩ := hueExact_den c (hle _ hR) (hle _ hG) (hle _ hB)
    have hne2 : ∀ n : ℤ, hueExact c + 1 / 2 ≠ n := by
      intro n h
      apply hne (n - 1)
      push_cast
      linarith
    have hgen : ∀ ε : ℚ, ε ≤ 1 / 1000 → ε * N < 1 := by
      intro ε hε
      have h1 : (N : ℚ) ≤ 510 := by exact_mod_cast hN2
      have h3 : (0 : ℚ) ≤ N := Nat.cast_nonneg N
      have h4 : ε * N ≤ 1 / 1000 * 510 := mul_le_mul hε h1 h3 (by norm_num)
      linarith
    have hεN : (2 : ℚ) ^ (-36 : ℤ) * N < 1 := hgen _ (by norm_num)
    have f1 := floor_away z _ _ N a hN1 hNa hne2 hεN herr
    have f2 := floor_away z2 _ _ N a hN1 hNa hne2 hεN herr2
    rw [hz, hz2, f1, f2]
    exact ⟨rfl, rfl⟩

theorem hue_scaling_adjacent_witness :
    (RGBAtoHSV ⟨3 * 0, 3 * 13, 3 * 24, 255⟩).1 = (RGBAtoHSV ⟨0, 13, 24, 255⟩).1 ∨
      ((RGBAtoHSV ⟨3 * 0, 3 * 13, 3 * 24, 255⟩).1 - (RGBAtoHSV ⟨0, 13, 24, 255⟩).1) % 360 = 1 ∨
      ((RGBAtoHSV ⟨0, 13, 24, 255⟩).1 - (RGBAtoHSV ⟨3 * 0, 3 * 13, 3 * 24, 255⟩).1) % 360 = 1 :=
  (hue_scaling_adjacent ⟨0, 13, 24, 255⟩ 3 (by decide) (by decide) (by decide) (by decide)).1

/-! ## The conversion against the formula in exact arithmetic -/

theorem exactMax_eq (c : RGBA) :
    max (max ((c.R : ℚ) / 255) ((c.G : ℚ) / 255)) ((c.B : ℚ) / 255) =
      ((max (max c.R c.G) c.B : Nat) : ℚ) / 255 := by
  push_cast
  rw [max_div_div_right (by norm_num), max_div_div_right (by norm_num)]

theorem exactMin_eq (c : RGBA) :
    min (min ((c.R : ℚ) / 255) ((c.G : ℚ) / 255)) ((c.B : ℚ) / 255) =
      ((min (min c.R c.G) c.B : Nat) : ℚ) / 255 := by
  push_cast
  rw [min_div_div_right (by norm_num), min_div_div_right (by norm_num)]

/-- A difference of two samples over the spread of the samples lies in `[-1, 1]`. -/
theorem ratio_abs_le (X Y M m : Nat) (hXM : X ≤ M) (hYM : Y ≤ M) (hmX : m ≤ X) (hmY : m ≤ Y)
    (hlt : m < M) : |((X : ℚ) - Y) / ((M : ℚ) - m)| ≤ 1 := by
  have h1 : (X : ℚ) ≤ M := by exact_mod_cast hXM
  have h2 : (Y : ℚ) ≤ M := by exact_mod_cast hYM
  have h3 : (m : ℚ) ≤ X := by exact_mod_cast hmX
  have h4 : (m : ℚ) ≤ Y := by exact_mod_cast hmY
  have h5 : (m : ℚ) < M := by exact_mod_cast hlt
  have hD : (0 : ℚ) < (M : ℚ) - m := by linarith
  rw [abs_div, abs_of_pos hD, div_le_one hD, abs_le]
  constructor <;> linarith

/-- The value and the saturation of the exact formula, and its hue as the
exact branch value rounded half up. -/
theorem hsvSpec_cases (c : RGBA) (M m : Nat) (hM : M = max (max c.R c.G) c.B)
    (hm : m = min (min c.R c.G) c.B) :
    (hsvSpec c).2.2 = (M : ℚ) / 255 ∧
    (hsvSpec c).2.1 = (if M ≠ 0 then ((M : ℚ) - m) / M else 0) ∧
    (hsvSpec c).1 = ⌊hueExact c + 1 / 2⌋ % 360 := by
  obtain ⟨e0, e1, e2, e3⟩ := hueExact_cases c M m hM hm
  have hmx := exactMax_eq c
  have hmn := exactMin_eq c
  rw [← hM] at hmx
  rw [← hm] at hmn
  have hd : ∀ x y : ℚ, (x / 255 - y / 255) / ((M : ℚ) / 255 - (m : ℚ) / 255) =
      (x - y) / ((M : ℚ) - m) := by
    intro x y
    rw [← sub_div, ← sub_div, div_div_div_cancel_right₀ (by norm_num)]
  have hq : ∀ x y : Nat, ((x : ℚ) / 255 = (y : ℚ) / 255) ↔ x = y := by
    intro x y
    rw [div_left_inj' (by norm_num)]
    exact Nat.cast_inj
  have hz : ((M : ℚ) / 255 - (m : ℚ) / 255 = 0) ↔ m = M := by
    rw [sub_eq_zero, hq]
    exact ⟨fun h => h.symm, fun h => h.symm⟩
  have hmM : m ≤ M := by omega
  refine ⟨?_, ?_, ?_⟩
  · unfold hsvSpec
    dsimp only
    rw [hmx]
  · unfold hsvSpec
    dsimp only
    rw [hmx, hmn]
    by_cases h0 : M = 0
    · have h1 : ¬ ((M : ℚ) / 255 ≠ 0) := by
        rw [h0]
        norm_num
      have h2 : ¬ (M ≠ 0) := fun h => h h0
      rw [if_neg h1, if_neg h2]
    · have hMq : (M : ℚ) ≠ 0 := by exact_mod_cast h0
      have h1 : (M : ℚ) / 255 ≠ 0 := div_ne_zero hMq (by norm_num)
      rw [if_pos h1, if_pos h0, ← sub_div, div_div_div_cancel_right₀ (by norm_num)]
  · unfold hsvSpec
    dsimp only
    rw [hmx, hmn]
    rcases Nat.eq_or_lt_of_le hmM with h | h
    · rw [if_pos (hz.mpr h), e0 h]
      norm_num
    · have hne : ¬ ((M : ℚ) / 255 - (m : ℚ) / 255 = 0) := fun h2 => by
        have := hz.mp h2
        omega
      rw [if_neg hne]
      by_cases hr : c.R = M
      · rw [if_pos ((hq c.R M).mpr hr), hd, e1 h hr]
      · rw [if_neg (fun h3 => hr ((hq c.R M).mp h3))]
        by_cases hg : c.G = M
        · rw [if_pos ((hq c.G M).mpr hg), hd, e2 h hr hg]
          have hb := abs_le.mp (ratio_abs_le c.B c.R M m (by omega) (by omega) (by omega)
            (by omega) h)
          symm
          apply Int.emod_eq_of_lt
          · apply Int.floor_nonneg.mpr
            linarith
          · rw [Int.floor_lt]
            push_cast
            linarith
        · rw [if_neg (fun h3 => hg ((hq c.G M).mp h3)), hd, e3 h hr hg]
          have hb := abs_le.mp (ratio_abs_le c.R c.G M m (by omega) (by omega) (by omega)
            (by omega) h)
          symm
          apply Int.emod_eq_of_lt
          · apply Int.floor_nonneg.mpr
            linarith
          · rw [Int.floor_lt]
            push_cast
            linarith

/-- The variable `d` is within `3 * 2 ^ (-53)` of the exact spread. -/
theorem spread_err (M m : Nat) (hM : M ≤ 255) (hmM : m ≤ M) :
    |fsub (channel M) (channel m) - ((M : ℚ) - m) / 255| ≤ 3 * 2 ^ (-53 : ℤ) := by
  have cM := abs_le.mp (channel_err M hM)
  have cm := abs_le.mp (channel_err m (by omega))
  have hu1 : (2 : ℚ) ^ (-53 : ℤ) ≤ 1 / 1000 := by norm_num
  have hu0 : (0 : ℚ) ≤ 2 ^ (-53 : ℤ) := by positivity
  have hM1 : (M : ℚ) ≤ 255 := by exact_mod_cast hM
  have hm0 : (0 : ℚ) ≤ m := Nat.cast_nonneg m
  have hmM1 : (m : ℚ) ≤ M := by exact_mod_cast hmM
  have e2g := f64_err_two
  generalize (2 : ℚ) ^ (-53 : ℤ) = u at *
  generalize channel M = fM at *
  generalize channel m = fm at *
  have e2 := abs_le.mp (e2g (fM - fm) (by rw [abs_lt]; constructor <;> linarith))
  unfold fsub
  rw [abs_le]
  constructor <;> linarith

/-- The value returned by `RGBAtoHSV` is the double nearest to the exact
maximum. -/
theorem value_near (c : RGBA) (hR : c.R ≤ 255) (hG : c.G ≤ 255) (hB : c.B ≤ 255) :
    (RGBAtoHSV c).2.2 = f64 (hsvSpec c).2.2 ∧
    |(RGBAtoHSV c).2.2 - (hsvSpec c).2.2| ≤ 2 ^ (-53 : ℤ) := by
  obtain ⟨M, hM⟩ : ∃ M, M = max (max c.R c.G) c.B := ⟨_, rfl⟩
  have hM255 : M ≤ 255 := by omega
  have hv : (RGBAtoHSV c).2.2 = chanMax c := rfl
  have hs := (hsvSpec_cases c M _ hM rfl).1
  have hmax : chanMax c = channel M := by rw [chanMax_eq, hM]
  have ho : ofInt ((M : ℕ) : ℤ) = (M : ℚ) := by
    rw [ofInt_exact _ (by have := Int.natCast_nonneg M; linarith)
      (by have : (M : ℤ) ≤ 255 := by exact_mod_cast hM255
          linarith)]
    norm_cast
  rw [hv, hs, hmax]
  refine ⟨?_, channel_err M hM255⟩
  unfold channel fdiv
  rw [ho]

/-- The saturation returned by `RGBAtoHSV` is within `2 ^ (-42)` of the exact
one. -/
theorem saturation_near (c : RGBA) (hR : c.R ≤ 255) (hG : c.G ≤ 255) (hB : c.B ≤ 255) :
    |(RGBAtoHSV c).2.1 - (hsvSpec c).2.1| ≤ 2 ^ (-42 : ℤ) := by
  obtain ⟨M, hM⟩ : ∃ M, M = max (max c.R c.G) c.B := ⟨_, rfl⟩
  obtain ⟨m, hm⟩ : ∃ m, m = min (min c.R c.G) c.B := ⟨_, rfl⟩
  have hM255 : M ≤ 255 := by omega
  have hmM : m ≤ M := by omega
  have hs := (hsvSpec_cases c M m hM hm).2.1
  have hmax : chanMax c = channel M := by rw [chanMax_eq, hM]
  have hmin : chanMin c = channel m := by rw [chanMin_eq, hm]
  have hv : (RGBAtoHSV c).2.1 =
      if chanMax c ≠ 0 then fdiv (fsub (chanMax c) (chanMin c)) (chanMax c) else 0 := rfl
  rw [hv, hs, hmax, hmin]
  by_cases h0 : M = 0
  · have hz : channel M = 0 := by
      rw [h0]
      exact channel_none
    have h1 : ¬ (channel M ≠ 0) := fun h => h hz
    have h2 : ¬ (M ≠ 0) := fun h => h h0
    rw [if_neg h1, if_neg h2]
    norm_num
  · have cM := channel_err M hM255
    have sp := spread_err M m hM255 hmM
    have hu0 : (0 : ℚ) ≤ 2 ^ (-53 : ℤ) := by positivity
    have hu1 : (2 : ℚ) ^ (-53 : ℤ) ≤ 1 / 1000000000000000 := by norm_num
    have hu42 : (2 : ℚ) ^ (-42 : ℤ) = 2048 * 2 ^ (-53 : ℤ) := by norm_num
    have e2g := f64_err_two
    have hM1 : (1 : ℚ) ≤ M := by
      have : 1 ≤ M := Nat.one_le_iff_ne_zero.mpr h0
      exact_mod_cast this
    have hm0 : (0 : ℚ) ≤ m := Nat.cast_nonneg m
    have hmM1 : (m : ℚ) ≤ M := by exact_mod_cast hmM
    rw [hu42]
    generalize (2 : ℚ) ^ (-53 : ℤ) = u at *
    generalize channel M = fM at *
    generalize fsub fM (channel m) = d at *
    have cM' : |fM - (M : ℚ) / 255| ≤ 3 * u := by
      have := abs_nonneg (fM - (M : ℚ) / 255)
      linarith
    have hTD : |(M : ℚ) - m| ≤ (M : ℚ) := by
      rw [abs_le]
      constructor <;> linarith
    obtain ⟨hpos, hq⟩ := quotient_err d fM ((M : ℚ) - m) (M : ℚ) (3 * u) hM1 hTD
      (by linarith) (by linarith) sp cM'
    have hr : |((M : ℚ) - m) / M| ≤ 1 := by
      have hMpos : (0 : ℚ) < M := by linarith
      rw [abs_div, abs_of_pos hMpos, div_le_one hMpos]
      exact hTD
    have h1 : fM ≠ 0 := by linarith
    have h2 : M ≠ 0 := h0
    rw [if_pos h1, if_pos h2]
    generalize ((M : ℚ) - m) / M = r at hq hr ⊢
    have hr1 := abs_le.mp hr
    have hq1 := abs_le.mp hq
    have e2 := abs_le.mp (e2g (d / fM) (by rw [abs_lt]; constructor <;> linarith))
    unfold fdiv
    rw [abs_le]
    constructor <;> linarith

/-- The hue returned by `RGBAtoHSV` against the hue of the exact formula. -/
theorem hue_vs_exact (c : RGBA) (hR : c.R ≤ 255) (hG : c.G ≤ 255) (hB : c.B ≤ 255) :
    ((RGBAtoHSV c).1 = (hsvSpec c).1 ∨ ((RGBAtoHSV c).1 - (hsvSpec c).1) % 360 = 1 ∨
      ((hsvSpec c).1 - (RGBAtoHSV c).1) % 360 = 1) ∧
    ((∀ n : ℤ, hueExact c ≠ n + 1 / 2) → (RGBAtoHSV c).1 = (hsvSpec c).1) := by
  obtain ⟨z, hz, herr⟩ := hue_near c hR hG hB
  have hs := (hsvSpec_cases c _ _ rfl rfl).2.2
  have hu : (2 : ℚ) ^ (-36 : ℤ) ≤ 1 / 4 := by norm_num
  have hself : |hueExact c + 1 / 2 - (hueExact c + 1 / 2)| ≤ (2 : ℚ) ^ (-36 : ℤ) := by
    rw [sub_self, abs_zero]
    positivity
  constructor
  · rw [hz, hs]
    rcases floor_near z (hueExact c + 1 / 2) _ _ hu herr hself with h | h | h
    · left
      rw [h]
    · right
      right
      rw [h]
      omega
    · right
      left
      rw [h]
      omega
  · intro hne
    obtain ⟨N, a, hN1, hN2, hNa⟩ := hueExact_den c hR hG hB
    have hne2 : ∀ n : ℤ, hueExact c + 1 / 2 ≠ n := by
      intro n h
      apply hne (n - 1)
      push_cast
      linarith
    have hgen : ∀ ε : ℚ, ε ≤ 1 / 1000 → ε * N < 1 := by
      intro ε hε
      have h1 : (N : ℚ) ≤ 510 := by exact_mod_cast hN2
      have h3 : (0 : ℚ) ≤ N := Nat.cast_nonneg N
      have h4 : ε * N ≤ 1 / 1000 * 510 := mul_le_mul hε h1 h3 (by norm_num)
      linarith
    have hεN : (2 : ℚ) ^ (-36 : ℤ) * N < 1 := hgen _ (by norm_num)
    rw [hz, hs, floor_away z _ _ N a hN1 hNa hne2 hεN herr]

/-- The hue of the exact formula at the colour `(0, 39, 72)`. -/
theorem hsvSpec_39_72 : (hsvSpec ⟨0, 39, 72, 255⟩).1 = 208 := by
  have hs := (hsvSpec_cases ⟨0, 39, 72, 255⟩ 72 0 (by decide) (by decide)).2.2
  have he := (hueExact_cases ⟨0, 39, 72, 255⟩ 72 0 (by decide) (by decide)).2.2.2
    (by decide) (by decide) (by decide)
  rw [hs, he]
  have h : (60 : ℚ) * ((((0 : ℕ) : ℚ) - ((39 : ℕ) : ℚ)) / (((72 : ℕ) : ℚ) - ((0 : ℕ) : ℚ)) + 4)
      + 1 / 2 = ((208 : ℤ) : ℚ) := by norm_num
  dsimp only
  rw [h, Int.floor_intCast]
  decide

/-- C4 fails as stated. At the colour `(0, 39, 72)` the formula gives the hue
`floor (60 * ((0 - 39) / 72 + 4) + 0.5) = floor (208) = 208`, and `RGBAtoHSV`
returns `207`. -/
theorem hsv_formula_diverges :
    (hsvSpec ⟨0, 39, 72, 255⟩).1 = 208 ∧ (RGBAtoHSV ⟨0, 39, 72, 255⟩).1 = 207 :=
  ⟨hsvSpec_39_72, hue_39_72⟩

/-- C4, amended. For every 8-bit colour, `RGBAtoHSV` returns the triple of the
formula evaluated in `float64`, one rounding per operation.  Against the formula
in exact arithmetic: the value is the double nearest to `max`, within
`2 ^ (-53)` of it; the saturation is within `2 ^ (-42)` of `d / max` (of `0`
when `max = 0`); the hue is the hue of the formula or a neighbouring degree
modulo `360`, and it is the hue of the formula whenever the exact branch value
`60 * (.. / d + ..)` is not an integer plus one half. -/
theorem RGBAtoHSV_near_hsvSpec (c : RGBA) (hR : c.R ≤ 255) (hG : c.G ≤ 255) (hB : c.B ≤ 255) :
    RGBAtoHSV c = hsvFloat c ∧
    (RGBAtoHSV c).2.2 = f64 (hsvSpec c).2.2 ∧
    |(RGBAtoHSV c).2.2 - (hsvSpec c).2.2| ≤ 2 ^ (-53 : ℤ) ∧
    |(RGBAtoHSV c).2.1 - (hsvSpec c).2.1| ≤ 2 ^ (-42 : ℤ) ∧
    ((RGBAtoHSV c).1 = (hsvSpec c).1 ∨ ((RGBAtoHSV c).1 - (hsvSpec c).1) % 360 = 1 ∨
      ((hsvSpec c).1 - (RGBAtoHSV c).1) % 360 = 1) ∧
    ((∀ n : ℤ, hueExact c ≠ n + 1 / 2) → (RGBAtoHSV c).1 = (hsvSpec c).1) := by
  obtain ⟨v1, v2⟩ := value_near c hR hG hB
  obtain ⟨h1, h2⟩ := hue_vs_exact c hR hG hB
  exact ⟨RGBAtoHSV_eq_hsvFloat c, v1, v2, saturation_near c hR hG hB, h1, h2⟩

theorem RGBAtoHSV_near_hsvSpec_witness :
    |(RGBAtoHSV ⟨10, 200, 30, 255⟩).2.1 - (hsvSpec ⟨10, 200, 30, 255⟩).2.1| ≤ 2 ^ (-42 : ℤ) ∧
    ((RGBAtoHSV ⟨10, 200, 30, 255⟩).1 = (hsvSpec ⟨10, 200, 30, 255⟩).1 ∨
      ((RGBAtoHSV ⟨10, 200, 30, 255⟩).1 - (hsvSpec ⟨10, 200, 30, 255⟩).1) % 360 = 1 ∨
      ((hsvSpec ⟨10, 200, 30, 255⟩).1 - (RGBAtoHSV ⟨10, 200, 30, 255⟩).1) % 360 = 1) :=
  ⟨(RGBAtoHSV_near_hsvSpec ⟨10, 200, 30, 255⟩ (by decide) (by decide) (by decide)).2.2.2.1,
   (RGBAtoHSV_near_hsvSpec ⟨10, 200, 30, 255⟩ (by decide) (by decide) (by decide)).2.2.2.2.1⟩

end PkmnSort
